import Mathlib

/-!
Verification of `mylist::List` (lab2)

A shallow embedding of the doubly linked list of `include/mylist/list.hpp`,
its nodes (`_node.hpp`), cursors (`_iterators.hpp`) and checked errors
(`_exceptions.hpp`).

Memory model.  Every `Node<T>` lives at an address (a natural number) of a
heap.  A `shared_ptr<Node>` is an `Option Nat` (`none` is the null pointer), a
`weak_ptr<Node>` is an `Option Nat` as well and is expired when the cell it
names holds no node.  In this code base a strong pointer is only ever created
by `Node::create`, moved, or taken for the length of one statement from
`weak_ptr::lock`, so every node has one lasting owner and is destroyed as soon
as that owner is overwritten, reset or destroyed; destruction cascades along
`next`.  Addresses are never reused, as a `weak_ptr` to a destroyed node stays
expired for ever.

`size_t` arithmetic is modelled on `Nat`: `mLen` counts nodes that each occupy
many bytes of a 64-bit address space, so `++mLen` cannot wrap, and `--mLen` is
guarded by `empty()`.
-/

namespace mylist

/-- The three checked errors of `_exceptions.hpp`. -/
inductive Exc where
  | ListOutOfRangeException
  | DanglingIteratorException
  | MovedSelfAppendException
deriving DecidableEq, Repr

/-- What a member function does to a state `σ`: it returns `r` leaving state
`s`, or throws `e` leaving state `s`, or dereferences a null `shared_ptr`
(undefined behaviour). -/
inductive Outcome (σ ρ : Type) where
  | ok (r : ρ) (s : σ)
  | throw (e : Exc) (s : σ)
  | ub

/-- A `Node<T>` of `_node.hpp`: `value`, the owning `next`, the weak `prev`. -/
structure Node (α : Type) where
  value : α
  next : Option Nat
  prev : Option Nat
deriving DecidableEq, Repr

/-- The heap: `cells a` is the node living at address `a` (`none` when it was
destroyed or never created), `brk` is the next address `create` hands out. -/
structure Heap (α : Type) where
  cells : Nat → Option (Node α)
  brk : Nat

/-- The heap before anything was allocated. -/
def Heap.empty {α : Type} : Heap α := ⟨fun _ => none, 0⟩

/-- Allocation as done by `Node::create`: the node is placed at a fresh address. -/
def Heap.alloc {α : Type} (h : Heap α) (n : Node α) : Heap α × Nat :=
  (⟨fun a => if a = h.brk then some n else h.cells a, h.brk + 1⟩, h.brk)

/-- Overwrite the node at address `a`. -/
def Heap.write {α : Type} (h : Heap α) (a : Nat) (n : Node α) : Heap α :=
  ⟨fun b => if b = a then some n else h.cells b, h.brk⟩

/-- Destroy the node at address `a`. -/
def Heap.free {α : Type} (h : Heap α) (a : Nat) : Heap α :=
  ⟨fun b => if b = a then none else h.cells b, h.brk⟩

/-- Dropping the owner of `p`: the node is destroyed and, its `next` member
being destroyed with it, so is the chain behind it. -/
def Heap.releaseAux {α : Type} : Nat → Heap α → Option Nat → Heap α
  | 0, h, _ => h
  | _ + 1, h, none => h
  | fuel + 1, h, some a =>
    match h.cells a with
    | none => h
    | some n => Heap.releaseAux fuel (h.free a) n.next

/-- Release with enough fuel: a chain of distinct live nodes is shorter than `brk`. -/
def Heap.release {α : Type} (h : Heap α) (p : Option Nat) : Heap α :=
  Heap.releaseAux h.brk h p

/-- The call `weak_ptr::lock()` followed by a look at the node: the address and
the node when it is alive, `none` for an empty or expired pointer. -/
def Heap.lockNode {α : Type} (h : Heap α) (w : Option Nat) : Option (Nat × Node α) :=
  match w with
  | none => none
  | some a =>
    match h.cells a with
    | none => none
    | some n => some (a, n)

/-- The pointer `weak_ptr::lock()` returns: null when expired. -/
def Heap.lock {α : Type} (h : Heap α) (w : Option Nat) : Option Nat :=
  (h.lockNode w).map Prod.fst

/-- The member `weak_ptr::expired()`. -/
def Heap.expired {α : Type} (h : Heap α) (w : Option Nat) : Bool :=
  (h.lockNode w).isNone

/-- The value-carrying `Node::create(value)`. -/
def Node.create {α : Type} (h : Heap α) (value : α) : Heap α × Nat :=
  h.alloc ⟨value, none, none⟩

/-- The sentinel `Node::create()`, holding a default-constructed value. -/
def Node.createEmpty {α : Type} [Inhabited α] (h : Heap α) : Heap α × Nat :=
  h.alloc ⟨default, none, none⟩

/-! ## Cursors (`_iterators.hpp`)

`Iterator` and `ConstIterator` have the same single field `currentNode` and the
same member bodies; one embedding serves both. -/

/-- The field `currentNode` of an `Iterator` / `ConstIterator`. -/
abbrev Cursor := Option Nat

/-- The member `dangling()`. -/
def dangling {α : Type} (h : Heap α) (c : Cursor) : Bool :=
  h.expired c

/-- The member `validateIterator()`: `none` when it returns, the error otherwise. -/
def validateIterator {α : Type} (h : Heap α) (c : Cursor) : Option Exc :=
  if h.expired c then some Exc.DanglingIteratorException else none

/-- Pre-increment `operator++`. -/
def increment {α : Type} (h : Heap α) (c : Cursor) : Outcome Cursor Unit :=
  match validateIterator h c with
  | some e => Outcome.throw e c
  | none =>
    match h.lockNode c with
    | none => Outcome.ub
    | some (_, n) => Outcome.ok () n.next

/-- Pre-decrement `operator--`. -/
def decrement {α : Type} (h : Heap α) (c : Cursor) : Outcome Cursor Unit :=
  match validateIterator h c with
  | some e => Outcome.throw e c
  | none =>
    match h.lockNode c with
    | none => Outcome.ub
    | some (_, n) => Outcome.ok () n.prev

/-- Dereference `operator*`. -/
def dereference {α : Type} (h : Heap α) (c : Cursor) : Outcome Cursor α :=
  match validateIterator h c with
  | some e => Outcome.throw e c
  | none =>
    match h.lockNode c with
    | none => Outcome.ub
    | some (_, n) => Outcome.ok n.value c

/-- Comparison `operator==`: the two locked pointers are compared. -/
def cursorEq {α : Type} (h : Heap α) (lhs rhs : Cursor) : Bool :=
  h.lock lhs == h.lock rhs

/-- Comparison `operator!=`: the negation of `operator==`. -/
def cursorNe {α : Type} (h : Heap α) (lhs rhs : Cursor) : Bool :=
  !cursorEq h lhs rhs

/-! ## The container (`list.hpp`) -/

/-- The data members of a `List<T>` object. -/
structure ListObj where
  mHead : Option Nat
  mTail : Option Nat
  mTerminator : Option Nat
  mLen : Nat
deriving DecidableEq, Repr

/-- A list object together with the heap its nodes live in. -/
structure LState (α : Type) where
  heap : Heap α
  l : ListObj

/-- The default constructor `List()`. -/
def ListObj.new : ListObj := ⟨none, none, none, 0⟩

/-- A default-constructed list on the empty heap. -/
def LState.new {α : Type} : LState α := ⟨Heap.empty, ListObj.new⟩

/-- The member `ListBase::size()`. -/
def size {α : Type} (s : LState α) : Nat := s.l.mLen

/-- The member `ListBase::empty()`. -/
def empty {α : Type} (s : LState α) : Bool := s.l.mLen == 0

/-- The member `begin()` / `cbegin()`. -/
def cbegin {α : Type} (s : LState α) : Cursor := s.l.mHead

/-- The member `end()` / `cend()`. -/
def cend {α : Type} (s : LState α) : Cursor := s.l.mTerminator

/-- The member `peekHead()`. -/
def peekHead {α : Type} (s : LState α) : Outcome (LState α) α :=
  if empty s then Outcome.throw Exc.ListOutOfRangeException s
  else
    match s.l.mHead with
    | none => Outcome.ub
    | some a =>
      match s.heap.cells a with
      | none => Outcome.ub
      | some n => Outcome.ok n.value s

/-- The member `peekTail()`. -/
def peekTail {α : Type} (s : LState α) : Outcome (LState α) α :=
  if empty s then Outcome.throw Exc.ListOutOfRangeException s
  else
    match s.heap.lockNode s.l.mTail with
    | none => Outcome.ub
    | some (_, n) => Outcome.ok n.value s

/-- Lift of a function that cannot throw: `none` is a null dereference. -/
def Outcome.ofOption {σ ρ : Type} : Option (ρ × σ) → Outcome σ ρ
  | none => Outcome.ub
  | some (r, s) => Outcome.ok r s

/-- The assignment `a->next = std::move(p)`: the old `next` loses its owner. -/
def Heap.setNext {α : Type} (h : Heap α) (a : Nat) (p : Option Nat) : Option (Heap α) :=
  match h.cells a with
  | none => none
  | some n => some ((h.write a { n with next := p }).release n.next)

/-- The assignment `a->prev = w`. -/
def Heap.setPrev {α : Type} (h : Heap α) (a : Nat) (w : Option Nat) : Option (Heap α) :=
  match h.cells a with
  | none => none
  | some n => some (h.write a { n with prev := w })

/-- The expression `std::move(a->next)` used to initialise or assign another
pointer: the pointer is handed over and `a->next` is left null. -/
def Heap.takeNext {α : Type} (h : Heap α) (a : Nat) : Option (Heap α × Option Nat) :=
  match h.cells a with
  | none => none
  | some n => some (h.write a { n with next := none }, n.next)

/-- The private `insertInEmpty(node)`. -/
def insertInEmpty {α : Type} [Inhabited α] (s : LState α) (node : Nat) : Option (LState α) := do
  -- mHead = std::move(node);
  let h1 := s.heap.release s.l.mHead
  let mHead := node
  -- mHead->next = ValueNode::create();
  let (h2, t) := Node.createEmpty h1
  let h3 ← h2.setNext mHead (some t)
  -- mHead->next->prev = mHead;
  let (_, n) ← h3.lockNode (some mHead)
  let (sentinel, _) ← h3.lockNode n.next
  let h4 ← h3.setPrev sentinel (some mHead)
  -- mTerminator = mHead->next;  mTail = mHead;
  let (_, n) ← h4.lockNode (some mHead)
  pure ⟨h4, { s.l with mHead := some mHead, mTerminator := n.next, mTail := some mHead }⟩

/-- The private `popTerminator()`. -/
def popTerminator {α : Type} (s : LState α) : Option (Option Nat × LState α) := do
  let (tl, _) ← s.heap.lockNode s.l.mTail
  let (h1, sent) ← s.heap.takeNext tl
  pure (sent, { s with heap := h1 })

/-- The private `addTerminator(sentinel)`. -/
def addTerminator {α : Type} (s : LState α) (sentinel : Option Nat) : Option (LState α) := do
  -- sentinel->prev = mTail;
  let (t, _) ← s.heap.lockNode sentinel
  let h1 ← s.heap.setPrev t s.l.mTail
  -- this->mTerminator = sentinel;
  let l1 := { s.l with mTerminator := sentinel }
  -- mTail.lock()->next = std::move(sentinel);
  let (tl, _) ← h1.lockNode l1.mTail
  let h2 ← h1.setNext tl sentinel
  pure ⟨h2, l1⟩

/-- The private `pushHead(node)`. -/
def pushHeadNode {α : Type} [Inhabited α] (s : LState α) (node : Nat) : Option (LState α) :=
  if empty s then do
    let s1 ← insertInEmpty s node
    pure { s1 with l := { s1.l with mLen := s1.l.mLen + 1 } }
  else do
    -- mHead->prev = node;
    let (hd, _) ← s.heap.lockNode s.l.mHead
    let h1 ← s.heap.setPrev hd (some node)
    -- node->next = std::move(mHead);
    let h2 ← h1.setNext node s.l.mHead
    -- mHead = std::move(node);  ++mLen;
    pure ⟨h2, { s.l with mHead := some node, mLen := s.l.mLen + 1 }⟩

/-- The private `pushTail(node)`. -/
def pushTailNode {α : Type} [Inhabited α] (s : LState α) (node : Nat) : Option (LState α) :=
  if empty s then do
    let s1 ← insertInEmpty s node
    pure { s1 with l := { s1.l with mLen := s1.l.mLen + 1 } }
  else do
    -- auto sent = popTerminator();
    let (sent, s1) ← popTerminator s
    -- node->prev = mTail;
    let h2 ← s1.heap.setPrev node s1.l.mTail
    -- mTail.lock()->next = std::move(node);
    let (tl, _) ← h2.lockNode s1.l.mTail
    let h3 ← h2.setNext tl (some node)
    -- mTail = mTail.lock()->next;
    let (_, n) ← h3.lockNode s1.l.mTail
    let s4 : LState α := ⟨h3, { s1.l with mTail := n.next }⟩
    -- addTerminator(std::move(sent));  ++mLen;
    let s5 ← addTerminator s4 sent
    pure { s5 with l := { s5.l with mLen := s5.l.mLen + 1 } }

/-- The public `pushHead(element)`. -/
def pushHead {α : Type} [Inhabited α] (s : LState α) (element : α) : Outcome (LState α) Unit :=
  let (h1, node) := Node.create s.heap element
  Outcome.ofOption ((pushHeadNode ⟨h1, s.l⟩ node).map fun s1 => ((), s1))

/-- The public `pushTail(element)`. -/
def pushTail {α : Type} [Inhabited α] (s : LState α) (element : α) : Outcome (LState α) Unit :=
  let (h1, node) := Node.create s.heap element
  Outcome.ofOption ((pushTailNode ⟨h1, s.l⟩ node).map fun s1 => ((), s1))

/-- The member `popHead()`; the moved-from value of the node is left as it was. -/
def popHead {α : Type} (s : LState α) : Outcome (LState α) (Option α) :=
  if empty s then Outcome.ok none s
  else Outcome.ofOption do
    -- auto data = std::move(mHead->value);
    let (hd, n) ← s.heap.lockNode s.l.mHead
    -- mHead = std::move(mHead->next);
    let (h1, nx) ← s.heap.takeNext hd
    let h2 := h1.release (some hd)
    -- --mLen;
    pure (some n.value, ⟨h2, { s.l with mHead := nx, mLen := s.l.mLen - 1 }⟩)

/-- The member `popTail()`; the moved-from value of the node is left as it was. -/
def popTail {α : Type} (s : LState α) : Outcome (LState α) (Option α) :=
  if empty s then Outcome.ok none s
  else Outcome.ofOption do
    -- auto data = std::move(mTail.lock()->value);
    let (_, n) ← s.heap.lockNode s.l.mTail
    -- auto sent = popTerminator();
    let (sent, s1) ← popTerminator s
    -- mTail = mTail.lock()->prev;  --mLen;
    let (_, tn) ← s1.heap.lockNode s1.l.mTail
    let s2 : LState α := ⟨s1.heap, { s1.l with mTail := tn.prev, mLen := s1.l.mLen - 1 }⟩
    if !empty s2 then do
      let s3 ← addTerminator s2 sent
      pure (some n.value, s3)
    else
      -- mHead.reset();  then `sent` goes out of scope
      let h3 := (s2.heap.release s2.l.mHead).release sent
      pure (some n.value, ⟨h3, { s2.l with mHead := none }⟩)

/-- The private `insertBefore(position, node)`. -/
def insertBeforeNode {α : Type} [Inhabited α] (s : LState α) (position : Cursor) (node : Nat) :
    Outcome (LState α) Unit :=
  match validateIterator s.heap position with
  | some e => Outcome.throw e s
  | none =>
    if cursorEq s.heap position (cbegin s) then
      Outcome.ofOption ((pushHeadNode s node).map fun s1 => ((), s1))
    else Outcome.ofOption do
      -- auto currentNode = position.currentNode.lock();
      let (currentNode, cn) ← s.heap.lockNode position
      -- auto prevNode = currentNode->prev.lock();
      let prevNode := s.heap.lock cn.prev
      -- node->prev = prevNode;
      let h1 ← s.heap.setPrev node prevNode
      -- node->next = std::move(prevNode->next);
      let pv ← prevNode
      let (h2, nx) ← h1.takeNext pv
      let h3 ← h2.setNext node nx
      -- currentNode->prev = node;
      let h4 ← h3.setPrev currentNode (some node)
      -- prevNode->next = std::move(node);  ++mLen;
      let h5 ← h4.setNext pv (some node)
      pure ((), ⟨h5, { s.l with mLen := s.l.mLen + 1 }⟩)

/-- The public `insertBefore(position, value)`: the node is created first and
dies with the temporary that owns it when the private overload throws. -/
def insertBefore {α : Type} [Inhabited α] (s : LState α) (position : Cursor) (value : α) :
    Outcome (LState α) Unit :=
  let (h1, node) := Node.create s.heap value
  match insertBeforeNode ⟨h1, s.l⟩ position node with
  | Outcome.throw e s1 => Outcome.throw e ⟨s1.heap.release (some node), s1.l⟩
  | o => o

/-- The public `insertAfter(position, value)`; the two arguments of the inner
call are evaluated left to right. -/
def insertAfter {α : Type} [Inhabited α] (s : LState α) (position : Cursor) (value : α) :
    Outcome (LState α) Unit :=
  if cursorEq s.heap position (cend s) then Outcome.throw Exc.ListOutOfRangeException s
  else
    match increment s.heap position with
    | Outcome.ok _ position1 => insertBefore s position1 value
    | Outcome.throw e _ => Outcome.throw e s
    | Outcome.ub => Outcome.ub

/-- The member `emplaceBefore(position, args...)`, `value` being `T(args...)`. -/
def emplaceBefore {α : Type} [Inhabited α] (s : LState α) (position : Cursor) (value : α) :
    Outcome (LState α) Cursor :=
  match insertBefore s position value with
  | Outcome.ok _ s1 =>
    -- return (--position).currentNode;
    match decrement s1.heap position with
    | Outcome.ok _ position1 => Outcome.ok position1 s1
    | Outcome.throw e _ => Outcome.throw e s1
    | Outcome.ub => Outcome.ub
  | Outcome.throw e s1 => Outcome.throw e s1
  | Outcome.ub => Outcome.ub

/-- The member `emplaceAfter(position, args...)`, `value` being `T(args...)`. -/
def emplaceAfter {α : Type} [Inhabited α] (s : LState α) (position : Cursor) (value : α) :
    Outcome (LState α) Cursor :=
  if cursorEq s.heap position (cend s) then Outcome.throw Exc.ListOutOfRangeException s
  else
    match increment s.heap position with
    | Outcome.ok _ position1 => emplaceBefore s position1 value
    | Outcome.throw e _ => Outcome.throw e s
    | Outcome.ub => Outcome.ub

/-- The loop `for_each(begin, end, pushTail)` of the range constructor and of
`append`. -/
def pushTailAll {α : Type} [Inhabited α] : LState α → List α → Outcome (LState α) Unit
  | s, [] => Outcome.ok () s
  | s, x :: xs =>
    match pushTail s x with
    | Outcome.ok _ s1 => pushTailAll s1 xs
    | o => o

/-- The constructor `List(It begin, It end)` (and through it the range and
initializer-list constructors) run on a heap `h`. -/
def constructFrom {α : Type} [Inhabited α] (h : Heap α) (xs : List α) : Outcome (LState α) Unit :=
  pushTailAll ⟨h, ListObj.new⟩ xs

/-- The loop `for (it = begin(); it != end(); ++it) visit(*it)`: `none` when the
loop is still running after `fuel` rounds, the values visited by a loop that
ran to `end()`, or the error a dangling cursor raised on the way. -/
def iterate {α : Type} (h : Heap α) (stop : Cursor) : Nat → Cursor → Option (Except Exc (List α))
  | 0, _ => none
  | fuel + 1, it =>
    if cursorEq h it stop then some (Except.ok [])
    else
      match dereference h it with
      | Outcome.ok x _ =>
        match increment h it with
        | Outcome.ok _ it1 => (iterate h stop fuel it1).map (Except.map (x :: ·))
        | Outcome.throw e _ => some (Except.error e)
        | Outcome.ub => none
      | Outcome.throw e _ => some (Except.error e)
      | Outcome.ub => none

/-- Iteration from `begin()` to `end()`.  A walk over distinct live nodes takes
at most `brk` steps, so `brk + 1` rounds are enough. -/
def elements {α : Type} (s : LState α) : Option (Except Exc (List α)) :=
  iterate s.heap (cend s) (s.heap.brk + 1) (cbegin s)

/-- Run `op` `k` times in a row, collecting what the calls return. -/
def repeatOp {α ρ : Type} (op : LState α → Outcome (LState α) ρ) :
    Nat → LState α → Outcome (LState α) (List ρ)
  | 0, s => Outcome.ok [] s
  | k + 1, s =>
    match op s with
    | Outcome.ok r s1 =>
      match repeatOp op k s1 with
      | Outcome.ok rs s2 => Outcome.ok (r :: rs) s2
      | Outcome.throw e s2 => Outcome.throw e s2
      | Outcome.ub => Outcome.ub
    | Outcome.throw e s1 => Outcome.throw e s1
    | Outcome.ub => Outcome.ub

/-- Two calls in a row: `f` runs on the state the first call returned with. -/
def Outcome.andThen {σ ρ τ : Type} (o : Outcome σ ρ) (f : σ → Outcome σ τ) : Outcome σ τ :=
  match o with
  | Outcome.ok _ s => f s
  | Outcome.throw e s => Outcome.throw e s
  | Outcome.ub => Outcome.ub

/-- The value a call returned, if it returned. -/
def Outcome.value? {σ ρ : Type} : Outcome σ ρ → Option ρ
  | Outcome.ok r _ => some r
  | _ => none

/-- The error a call raised, if it raised one. -/
def Outcome.raised {σ ρ : Type} : Outcome σ ρ → Option Exc
  | Outcome.throw e _ => some e
  | _ => none

/-- Whether a call ran into a null dereference. -/
def Outcome.isUb {σ ρ : Type} : Outcome σ ρ → Bool
  | Outcome.ub => true
  | _ => false

/-- The state a call left behind, whether it returned or threw. -/
def Outcome.state? {σ ρ : Type} : Outcome σ ρ → Option σ
  | Outcome.ok _ s => some s
  | Outcome.throw _ s => some s
  | Outcome.ub => none

/-- The list constructed from `xs` on the empty heap. -/
def constructed {α : Type} [Inhabited α] (xs : List α) : LState α :=
  match (constructFrom Heap.empty xs).state? with
  | some s => s
  | none => LState.new

/-- The cursor after `i` pre-increments. -/
def advance {α : Type} (h : Heap α) : Nat → Cursor → Outcome Cursor Unit
  | 0, c => Outcome.ok () c
  | i + 1, c =>
    match increment h c with
    | Outcome.ok _ c1 => advance h i c1
    | Outcome.throw e c1 => Outcome.throw e c1
    | Outcome.ub => Outcome.ub

/-- The range constructor `List(const Rng& range)`: it delegates to
`List(It begin, It end)`. -/
def constructFromRange {α : Type} [Inhabited α] (h : Heap α) (range : List α) :
    Outcome (LState α) Unit :=
  constructFrom h range

/-- The constructor `List(std::initializer_list<T> list)`: it delegates to
`List(It begin, It end)`. -/
def constructFromInitializerList {α : Type} [Inhabited α] (h : Heap α) (list : List α) :
    Outcome (LState α) Unit :=
  constructFrom h list

/-- The loop `for (i = 0; i < count; ++i) pushTail(value)` of the fill constructor. -/
def fillLoop {α : Type} [Inhabited α] : Nat → LState α → α → Outcome (LState α) Unit
  | 0, s, _ => Outcome.ok () s
  | count + 1, s, value =>
    match pushTail s value with
    | Outcome.ok _ s1 => fillLoop count s1 value
    | o => o

/-- The fill constructor `List(size_type count, value_type value)`. -/
def fillConstruct {α : Type} [Inhabited α] (h : Heap α) (count : Nat) (value : α) :
    Outcome (LState α) Unit :=
  fillLoop count ⟨h, ListObj.new⟩ value

/-- The fill constructor with its default argument `value = value_type()`. -/
def fillConstructDefault {α : Type} [Inhabited α] (h : Heap α) (count : Nat) :
    Outcome (LState α) Unit :=
  fillConstruct h count default

/-- The overloads `append(const Rng&)` and `append(It begin, It end)` over an
input range yielding `ys`. -/
def appendRange {α : Type} [Inhabited α] (s : LState α) (ys : List α) : Outcome (LState α) Unit :=
  pushTailAll s ys

/-- The member `clear()`. -/
def clear {α : Type} (s : LState α) : Outcome (LState α) Unit :=
  -- mHead.reset(); mTail.reset(); mTerminator.reset(); mLen = 0;
  Outcome.ok () ⟨s.heap.release s.l.mHead, ⟨none, none, none, 0⟩⟩

/-- The assignment `peekHead() = value` through the reference `peekHead()` returns. -/
def assignHead {α : Type} (s : LState α) (value : α) : Outcome (LState α) Unit :=
  if empty s then Outcome.throw Exc.ListOutOfRangeException s
  else
    match s.heap.lockNode s.l.mHead with
    | none => Outcome.ub
    | some (a, n) => Outcome.ok () ⟨s.heap.write a { n with value := value }, s.l⟩

/-- The assignment `*it = value` through a mutable cursor `it`. -/
def assignThrough {α : Type} (s : LState α) (it : Cursor) (value : α) : Outcome (LState α) Unit :=
  match validateIterator s.heap it with
  | some e => Outcome.throw e s
  | none =>
    match s.heap.lockNode it with
    | none => Outcome.ub
    | some (a, n) => Outcome.ok () ⟨s.heap.write a { n with value := value }, s.l⟩

/-- The loop `for (; first != last; ++first) pushTail(*first)` that
`std::ranges::for_each` runs over the cursors of a list, the receiver of
`pushTail` being the list object of the state: `none` when the loop is still
running after `fuel` rounds. -/
def forEachPushTail {α : Type} [Inhabited α] (last : Cursor) :
    Nat → LState α → Cursor → Option (Outcome (LState α) Unit)
  | 0, _, _ => none
  | fuel + 1, s, first =>
    if cursorEq s.heap first last then some (Outcome.ok () s)
    else
      match dereference s.heap first with
      | Outcome.ok x _ =>
        match pushTail s x with
        | Outcome.ok _ s1 =>
          match increment s1.heap first with
          | Outcome.ok _ first1 => forEachPushTail last fuel s1 first1
          | Outcome.throw e _ => some (Outcome.throw e s1)
          | Outcome.ub => some Outcome.ub
        | Outcome.throw e s1 => some (Outcome.throw e s1)
        | Outcome.ub => some Outcome.ub
      | Outcome.throw e _ => some (Outcome.throw e s)
      | Outcome.ub => some Outcome.ub

/-! ## Several list objects on one heap

A list object is named by its index in `lists`; `this == &that` is equality of
indices. -/

/-- The heap together with the list objects living beside it. -/
structure World (α : Type) where
  heap : Heap α
  lists : Nat → ListObj

/-- The empty heap, every list object default-constructed. -/
def World.new {α : Type} : World α := ⟨Heap.empty, fun _ => ListObj.new⟩

/-- The list object `i` seen with the heap. -/
def World.get {α : Type} (w : World α) (i : Nat) : LState α := ⟨w.heap, w.lists i⟩

/-- Store the heap and the list object of `s` as object `i`. -/
def World.put {α : Type} (w : World α) (i : Nat) (s : LState α) : World α :=
  ⟨s.heap, fun j => if j = i then s.l else w.lists j⟩

/-- A member function of one list run on object `i`. -/
def World.run {α ρ : Type} (op : LState α → Outcome (LState α) ρ) (w : World α) (i : Nat) :
    Outcome (World α) ρ :=
  match op (w.get i) with
  | Outcome.ok r s => Outcome.ok r (w.put i s)
  | Outcome.throw e s => Outcome.throw e (w.put i s)
  | Outcome.ub => Outcome.ub

/-- The constructor `List(It begin, It end)` building object `i` from `xs`. -/
def World.construct {α : Type} [Inhabited α] (w : World α) (i : Nat) (xs : List α) :
    Outcome (World α) Unit :=
  World.run (fun s => constructFrom s.heap xs) w i

/-- The member `swap(List& other)`. -/
def swap {α : Type} (w : World α) (this other : Nat) : Outcome (World α) Unit :=
  Outcome.ok () ⟨w.heap, fun j =>
    if j = this then w.lists other else if j = other then w.lists this else w.lists j⟩

/-- The move constructor `List(List&& that)` building object `this`. -/
def moveConstruct {α : Type} (w : World α) (this that : Nat) : Outcome (World α) Unit :=
  -- mHead(std::move(that.mHead)), mTail(...), mTerminator(...); mLen = std::exchange(that.mLen, 0);
  Outcome.ok () ⟨w.heap, fun j =>
    if j = this then w.lists that else if j = that then ⟨none, none, none, 0⟩ else w.lists j⟩

/-- The move assignment `operator=(List&& that)`. -/
def moveAssign {α : Type} (w : World α) (this that : Nat) : Outcome (World α) Unit :=
  if this = that then Outcome.ok () w
  else
    -- mHead = std::move(that.mHead);  the chain `this` owned loses its owner
    -- mTail = std::move(that.mTail);  mTerminator = std::move(that.mTerminator);
    -- mLen = std::exchange(that.mLen, 0);
    Outcome.ok () ⟨w.heap.release (w.lists this).mHead, fun j =>
      if j = this then w.lists that else if j = that then ⟨none, none, none, 0⟩ else w.lists j⟩

/-- The move append `append(List&& that)`, also `operator+=(List&& that)`. -/
def appendMove {α : Type} (w : World α) (this that : Nat) : Outcome (World α) Unit :=
  if this = that then Outcome.throw Exc.MovedSelfAppendException w
  else if empty (w.get this) then moveAssign w this that
  else if !empty (w.get that) then
    Outcome.ofOption do
      -- popTerminator();  the pointer it returns is dropped at once
      let (sent, a1) ← popTerminator (w.get this)
      let h1 := a1.heap.release sent
      -- that.mHead->prev = mTail;
      let (thatHead, _) ← h1.lockNode (w.lists that).mHead
      let h2 ← h1.setPrev thatHead a1.l.mTail
      -- mTail.lock()->next = std::move(that.mHead);
      let (tl, _) ← h2.lockNode a1.l.mTail
      let h3 ← h2.setNext tl (w.lists that).mHead
      -- mTail = std::move(that.mTail);  mTerminator = std::move(that.mTerminator);
      -- mLen += that.mLen;  that.mLen = 0;
      pure ((), ⟨h3, fun j =>
        if j = this then
          ⟨a1.l.mHead, (w.lists that).mTail, (w.lists that).mTerminator,
            a1.l.mLen + (w.lists that).mLen⟩
        else if j = that then ⟨none, none, none, 0⟩ else w.lists j⟩)
  else Outcome.ok () w

/-- The copy append `append(const List& that)`, also `operator+=(const List& that)`:
`begin()` and `end()` of `that` are taken once, then the loop runs. -/
def appendCopy {α : Type} [Inhabited α] (fuel : Nat) (w : World α) (this that : Nat) :
    Option (Outcome (World α) Unit) :=
  match forEachPushTail (cend (w.get that)) fuel (w.get this) (cbegin (w.get that)) with
  | none => none
  | some (Outcome.ok _ s) => some (Outcome.ok () (w.put this s))
  | some (Outcome.throw e s) => some (Outcome.throw e (w.put this s))
  | some Outcome.ub => some Outcome.ub

/-- The copy constructor `List(const List& that)` building object `this`: it
delegates to `List(that.begin(), that.end())`; when the loop throws, the nodes
built so far die with the unfinished object. -/
def copyConstruct {α : Type} [Inhabited α] (fuel : Nat) (w : World α) (this that : Nat) :
    Option (Outcome (World α) Unit) :=
  match forEachPushTail (cend (w.get that)) fuel ⟨w.heap, ListObj.new⟩ (cbegin (w.get that)) with
  | none => none
  | some (Outcome.ok _ s) => some (Outcome.ok () (w.put this s))
  | some (Outcome.throw e s) => some (Outcome.throw e ⟨s.heap.release s.l.mHead, w.lists⟩)
  | some Outcome.ub => some Outcome.ub

/-- The copy assignment `operator=(const List& that)`: `List(that).swap(*this)`,
after which the temporary dies with what `this` held. -/
def copyAssign {α : Type} [Inhabited α] (fuel : Nat) (w : World α) (this that : Nat) :
    Option (Outcome (World α) Unit) :=
  if this = that then some (Outcome.ok () w)
  else
    match forEachPushTail (cend (w.get that)) fuel ⟨w.heap, ListObj.new⟩ (cbegin (w.get that)) with
    | none => none
    | some (Outcome.ok _ tmp) =>
      some (Outcome.ok () (w.put this ⟨tmp.heap.release (w.lists this).mHead, tmp.l⟩))
    | some (Outcome.throw e tmp) => some (Outcome.throw e ⟨tmp.heap.release tmp.l.mHead, w.lists⟩)
    | some Outcome.ub => some Outcome.ub

/-- The free `operator+(lhs, rhs)`, its result built as object `result`. -/
def operatorPlus {α : Type} [Inhabited α] (fuel : Nat) (w : World α) (lhs rhs result : Nat) :
    Option (Outcome (World α) Unit) :=
  -- auto newList = List<T>(lhs);
  match copyConstruct fuel w result lhs with
  | some (Outcome.ok _ w1) =>
    -- newList += rhs;
    appendCopy fuel w1 result rhs
  | o => o

/-! ## Mutating calls, for statements about any one of them -/

/-- A call on the cursor that `i` pre-increments lead to from `begin()`; an
increment that throws ends the call before `op` runs. -/
def atCursor {α : Type} (s : LState α) (i : Nat) (op : Cursor → Outcome (LState α) Unit) :
    Outcome (LState α) Unit :=
  match advance s.heap i (cbegin s) with
  | Outcome.ok _ c => op c
  | Outcome.throw e _ => Outcome.throw e s
  | Outcome.ub => Outcome.ub

/-- A call that drops what the member returns. -/
def Outcome.discard {σ ρ : Type} : Outcome σ ρ → Outcome σ Unit
  | Outcome.ok _ s => Outcome.ok () s
  | Outcome.throw e s => Outcome.throw e s
  | Outcome.ub => Outcome.ub

/-- One mutating call on a list: an insertion or a removal at either end,
`insertBefore` at a cursor, `clear()`, or a write through the reference that
`peekHead()` returns or through a cursor.  A cursor is named by the number of
pre-increments that lead to it from `begin()`. -/
inductive Mutation (α : Type) where
  | pushHead (x : α)
  | pushTail (x : α)
  | popHead
  | popTail
  | insertBefore (i : Nat) (x : α)
  | clear
  | assignHead (x : α)
  | assignThrough (i : Nat) (x : α)

/-- Run of a mutating call on a list state. -/
def Mutation.apply {α : Type} [Inhabited α] : Mutation α → LState α → Outcome (LState α) Unit
  | Mutation.pushHead x, s => mylist.pushHead s x
  | Mutation.pushTail x, s => mylist.pushTail s x
  | Mutation.popHead, s => (mylist.popHead s).discard
  | Mutation.popTail, s => (mylist.popTail s).discard
  | Mutation.insertBefore i x, s => atCursor s i fun c => mylist.insertBefore s c x
  | Mutation.clear, s => mylist.clear s
  | Mutation.assignHead x, s => mylist.assignHead s x
  | Mutation.assignThrough i x, s => atCursor s i fun c => mylist.assignThrough s c x

/-! ## Representation predicates used by the proofs -/

/-- No node lives at or above `brk`: every address `create` will hand out is fresh. -/
def Heap.WF {α : Type} (h : Heap α) : Prop :=
  ∀ a, h.brk ≤ a → h.cells a = none

/-- A weak pointer that is expired and stays so: empty, or naming a destroyed node. -/
def Heap.Dead {α : Type} (h : Heap α) (w : Option Nat) : Prop :=
  ∀ a, w = some a → a < h.brk ∧ h.cells a = none

/-- The first address of `as`, or `t` when there is none. -/
def firstOr (t : Nat) : List Nat → Nat
  | [] => t
  | a :: _ => a

/-- The last address of `as`, or `p` when there is none. -/
def lastOr (p : Option Nat) : List Nat → Option Nat
  | [] => p
  | a :: as => lastOr (some a) as

/-- The nodes at the addresses `as` hold the values `xs`; each is linked forward
to the next one and the last to `t`, backward to the one before and the first
to `p`. -/
def Chain {α : Type} (h : Heap α) : Option Nat → List Nat → List α → Nat → Prop
  | _, [], [], _ => True
  | p, a :: as, x :: xs, t =>
    h.cells a = some ⟨x, some (firstOr t as), p⟩ ∧ Chain h (some a) as xs t
  | _, _ :: _, [], _ => False
  | _, [], _ :: _, _ => False

/-- The list object of `s` owns the chain of value nodes `as`, holding `xs`, that
ends in the live sentinel `t`; `p` is what the first node (or, without one, the
sentinel) has as `prev`.  Nothing is said about `mTail`. -/
structure Shape {α : Type} (s : LState α) (p : Option Nat) (as : List Nat) (xs : List α)
    (t : Nat) : Prop where
  wf : s.heap.WF
  nodup : (t :: as).Nodup
  chain : Chain s.heap p as xs t
  term : ∃ v, s.heap.cells t = some ⟨v, none, lastOr p as⟩
  dead : s.heap.Dead p
  head : s.l.mHead = some (firstOr t as)
  terminator : s.l.mTerminator = some t
  len : s.l.mLen = xs.length

/-- A `Shape` whose `mTail` names the last value node. -/
structure Linked {α : Type} (s : LState α) (p : Option Nat) (as : List Nat) (xs : List α)
    (t : Nat) : Prop where
  shape : Shape s p as xs t
  tail : s.l.mTail = lastOr p as

/-- The state `s` represents the sequence `xs`: it is an empty list without
nodes, or a chain of nodes for `xs` in front of a live sentinel. -/
def Rep {α : Type} (s : LState α) (xs : List α) : Prop :=
  (xs = [] ∧ s.heap.WF ∧ s.l.mLen = 0 ∧ s.l.mHead = none ∧ s.heap.Dead s.l.mTerminator) ∨
  (∃ p as t, Linked s p as xs t)

/-- From `h` to `h1` no address was handed back, and every address that `h` had
handed out and that is not in `F` holds what it held. -/
def Heap.Frame {α : Type} (h h1 : Heap α) (F : List Nat) : Prop :=
  h.brk ≤ h1.brk ∧ ∀ c, c < h.brk → c ∉ F → h1.cells c = h.cells c

/-- The state `s` represents `xs` and the nodes it owns are exactly those at `F`. -/
def RepF {α : Type} (s : LState α) (xs : List α) (F : List Nat) : Prop :=
  (xs = [] ∧ s.heap.WF ∧ s.l.mLen = 0 ∧ s.l.mHead = none ∧ s.heap.Dead s.l.mTerminator ∧
    F = []) ∨
  (∃ p as t, Linked s p as xs t ∧ F = t :: as)

/-! ## Lemmas -/

@[simp] theorem Heap.cells_write {α : Type} (h : Heap α) (a b : Nat) (n : Node α) :
    (h.write a n).cells b = if b = a then some n else h.cells b := rfl

@[simp] theorem Heap.brk_write {α : Type} (h : Heap α) (a : Nat) (n : Node α) :
    (h.write a n).brk = h.brk := rfl

@[simp] theorem Heap.cells_free {α : Type} (h : Heap α) (a b : Nat) :
    (h.free a).cells b = if b = a then none else h.cells b := rfl

@[simp] theorem Heap.brk_free {α : Type} (h : Heap α) (a : Nat) :
    (h.free a).brk = h.brk := rfl

@[simp] theorem Heap.cells_alloc {α : Type} (h : Heap α) (n : Node α) (b : Nat) :
    (h.alloc n).1.cells b = if b = h.brk then some n else h.cells b := rfl

@[simp] theorem Heap.brk_alloc {α : Type} (h : Heap α) (n : Node α) :
    (h.alloc n).1.brk = h.brk + 1 := rfl

@[simp] theorem Heap.snd_alloc {α : Type} (h : Heap α) (n : Node α) :
    (h.alloc n).2 = h.brk := rfl

@[simp] theorem Heap.release_none {α : Type} (h : Heap α) : h.release none = h := by
  unfold Heap.release
  cases h.brk <;> rfl

theorem Heap.release_single {α : Type} (h : Heap α) (a : Nat) (n : Node α)
    (hb : 0 < h.brk) (ha : h.cells a = some n) (hn : n.next = none) :
    h.release (some a) = h.free a := by
  unfold Heap.release
  obtain ⟨k, hk⟩ : ∃ k, h.brk = k + 1 := ⟨h.brk - 1, by omega⟩
  rw [hk]
  simp only [Heap.releaseAux, ha, hn]
  cases k <;> rfl

theorem Heap.WF.lt {α : Type} {h : Heap α} (hw : h.WF) {a : Nat} {n : Node α}
    (ha : h.cells a = some n) : a < h.brk := by
  by_contra hlt
  have := hw a (by omega)
  simp [this] at ha

theorem Heap.WF.write {α : Type} {h : Heap α} (hw : h.WF) {a : Nat} (n : Node α)
    (ha : a < h.brk) : (h.write a n).WF := by
  intro b hb
  have : b ≠ a := by simp at hb; omega
  simp [this, hw b hb]

theorem Heap.WF.free {α : Type} {h : Heap α} (hw : h.WF) (a : Nat) : (h.free a).WF := by
  intro b hb
  by_cases hba : b = a
  · simp [hba]
  · simp [hba, hw b hb]

theorem Heap.WF.alloc {α : Type} {h : Heap α} (hw : h.WF) (n : Node α) : (h.alloc n).1.WF := by
  intro b hb
  simp at hb
  have : b ≠ h.brk := by omega
  simp [this, hw b (by omega)]

theorem Heap.WF.empty {α : Type} : (Heap.empty : Heap α).WF := fun _ _ => rfl

@[simp] theorem firstOr_nil (t : Nat) : firstOr t [] = t := rfl

@[simp] theorem firstOr_cons (t a : Nat) (as : List Nat) : firstOr t (a :: as) = a := rfl

theorem firstOr_append (t : Nat) (as bs : List Nat) :
    firstOr t (as ++ bs) = firstOr (firstOr t bs) as := by
  cases as <;> rfl

theorem firstOr_mem (t : Nat) (as : List Nat) (h : as ≠ []) : firstOr t as ∈ as := by
  cases as with
  | nil => exact absurd rfl h
  | cons a as => simp

theorem lastOr_append (p : Option Nat) (as bs : List Nat) :
    lastOr p (as ++ bs) = lastOr (lastOr p as) bs := by
  induction as generalizing p with
  | nil => rfl
  | cons a as ih => simpa [lastOr] using ih (some a)

theorem lastOr_snoc (p : Option Nat) (as : List Nat) (a : Nat) :
    lastOr p (as ++ [a]) = some a := by
  rw [lastOr_append]; rfl

theorem lastOr_eq_getLast? (p : Option Nat) (as : List Nat) (h : as ≠ []) :
    lastOr p as = as.getLast? := by
  induction as generalizing p with
  | nil => exact absurd rfl h
  | cons a as ih =>
    cases as with
    | nil => rfl
    | cons b bs =>
      have := ih (some a) (by simp)
      simpa [lastOr, List.getLast?_cons_cons] using this

theorem Chain.length_eq {α : Type} {h : Heap α} {p : Option Nat} {as : List Nat} {xs : List α}
    {t : Nat} (hc : Chain h p as xs t) : as.length = xs.length := by
  induction as generalizing p xs with
  | nil => cases xs with
    | nil => rfl
    | cons x xs => exact absurd hc (by simp [Chain])
  | cons a as ih => cases xs with
    | nil => exact absurd hc (by simp [Chain])
    | cons x xs => simpa using ih hc.2

theorem Chain.congr {α : Type} {h h1 : Heap α} {p : Option Nat} {as : List Nat} {xs : List α}
    {t : Nat} (hc : Chain h p as xs t) (hf : ∀ a ∈ as, h1.cells a = h.cells a) :
    Chain h1 p as xs t := by
  induction as generalizing p xs with
  | nil => cases xs with
    | nil => trivial
    | cons x xs => exact absurd hc (by simp [Chain])
  | cons a as ih => cases xs with
    | nil => exact absurd hc (by simp [Chain])
    | cons x xs =>
      refine ⟨?_, ih hc.2 fun b hb => hf b (List.mem_cons_of_mem _ hb)⟩
      rw [hf a (List.mem_cons_self _ _)]; exact hc.1

theorem chain_append {α : Type} (h : Heap α) (p : Option Nat) (as bs : List Nat)
    (xs ys : List α) (t : Nat) (hl : as.length = xs.length) :
    Chain h p (as ++ bs) (xs ++ ys) t ↔
      Chain h p as xs (firstOr t bs) ∧ Chain h (lastOr p as) bs ys t := by
  induction as generalizing p xs with
  | nil => cases xs with
    | nil => simp [Chain, lastOr]
    | cons x xs => simp at hl
  | cons a as ih => cases xs with
    | nil => simp at hl
    | cons x xs =>
      have hl1 : as.length = xs.length := by simpa using hl
      have hd : firstOr t (as ++ bs) = firstOr (firstOr t bs) as := firstOr_append t as bs
      show (h.cells a = some ⟨x, some (firstOr t (as ++ bs)), p⟩ ∧
          Chain h (some a) (as ++ bs) (xs ++ ys) t) ↔
        (h.cells a = some ⟨x, some (firstOr (firstOr t bs) as), p⟩ ∧
          Chain h (some a) as xs (firstOr t bs)) ∧ Chain h (lastOr (some a) as) bs ys t
      rw [ih (some a) xs hl1, hd, and_assoc]

theorem length_le_of_nodup_lt (l : List Nat) (n : Nat) (hn : l.Nodup) (hl : ∀ a ∈ l, a < n) :
    l.length ≤ n := by
  have h1 : l.toFinset.card = l.length := List.toFinset_card_of_nodup hn
  have h2 : l.toFinset ⊆ Finset.range n := by
    intro a ha
    simp only [List.mem_toFinset] at ha
    simpa using hl a ha
  have h3 := Finset.card_le_card h2
  simp only [Finset.card_range] at h3
  omega

theorem Chain.live {α : Type} {h : Heap α} {p : Option Nat} {as : List Nat} {xs : List α}
    {t : Nat} (hc : Chain h p as xs t) : ∀ a ∈ as, ∃ n, h.cells a = some n := by
  induction as generalizing p xs with
  | nil => intro a ha; simp at ha
  | cons b as ih => cases xs with
    | nil => exact absurd hc (by simp [Chain])
    | cons x xs =>
      intro a ha
      rcases List.mem_cons.1 ha with rfl | ha
      · exact ⟨_, hc.1⟩
      · exact ih hc.2 a ha

theorem iterate_chain {α : Type} (h : Heap α) (p : Option Nat) (as : List Nat) (xs : List α)
    (t fuel : Nat) (ht : ∃ n, h.cells t = some n) (hnot : t ∉ as) (hc : Chain h p as xs t)
    (hf : as.length < fuel) :
    iterate h (some t) fuel (some (firstOr t as)) = some (Except.ok xs) := by
  obtain ⟨tn, ht⟩ := ht
  induction as generalizing p xs fuel with
  | nil => cases xs with
    | nil =>
      obtain ⟨k, rfl⟩ : ∃ k, fuel = k + 1 := ⟨fuel - 1, by simp at hf; omega⟩
      simp [iterate, cursorEq]
    | cons x xs => exact absurd hc (by simp [Chain])
  | cons a as ih => cases xs with
    | nil => exact absurd hc (by simp [Chain])
    | cons x xs =>
      obtain ⟨k, rfl⟩ : ∃ k, fuel = k + 1 := ⟨fuel - 1, by simp at hf; omega⟩
      have hat : a ≠ t := fun e => hnot (by simp [e])
      have hrec := ih (some a) xs k (fun e => hnot (List.mem_cons_of_mem _ e)) hc.2
        (by simp at hf; omega)
      simp [iterate, cursorEq, Heap.lock, Heap.lockNode, dereference, increment,
        validateIterator, Heap.expired, hc.1, ht, hat, hrec, Except.map]

theorem Shape.length_lt {α : Type} {s : LState α} {p : Option Nat} {as : List Nat}
    {xs : List α} {t : Nat} (hl : Shape s p as xs t) : as.length < s.heap.brk := by
  have h1 := length_le_of_nodup_lt (t :: as) s.heap.brk hl.nodup (by
    intro a ha
    rcases List.mem_cons.1 ha with rfl | ha
    · obtain ⟨v, hv⟩ := hl.term
      exact hl.wf.lt hv
    · obtain ⟨n, hn⟩ := hl.chain.live a ha
      exact hl.wf.lt hn)
  simp at h1
  omega

theorem Shape.iterates {α : Type} {s : LState α} {p : Option Nat} {as : List Nat}
    {xs : List α} {t : Nat} (hl : Shape s p as xs t) :
    elements s = some (Except.ok xs) := by
  unfold elements cend cbegin
  rw [hl.head, hl.terminator]
  obtain ⟨v, hv⟩ := hl.term
  exact iterate_chain s.heap p as xs t _ ⟨_, hv⟩ (List.nodup_cons.1 hl.nodup).1 hl.chain
    (by have := hl.length_lt; omega)

theorem Rep.elements_eq {α : Type} {s : LState α} {xs : List α} (hr : Rep s xs) :
    elements s = some (Except.ok xs) := by
  rcases hr with ⟨rfl, -, -, hh, hd⟩ | ⟨p, as, t, hl⟩
  · unfold elements cend cbegin
    rw [hh]
    have : s.heap.lock s.l.mTerminator = none := by
      cases ht : s.l.mTerminator with
      | none => rfl
      | some a => simp [Heap.lock, Heap.lockNode, (hd a ht).2]
    have h0 : s.heap.lock none = none := rfl
    simp [iterate, cursorEq, this, h0]
  · exact hl.shape.iterates

theorem Rep.size_eq {α : Type} {s : LState α} {xs : List α} (hr : Rep s xs) :
    size s = xs.length := by
  rcases hr with ⟨rfl, -, hlen, -, -⟩ | ⟨p, as, t, hl⟩
  · simpa [size] using hlen
  · exact hl.shape.len

theorem Shape.snoc_cases {α : Type} {s : LState α} {p : Option Nat} {as : List Nat}
    {xs : List α} {t : Nat} (hl : Shape s p as xs t) (hne : as ≠ []) :
    ∃ as1 a xs1 x, as = as1 ++ [a] ∧ xs = xs1 ++ [x] ∧ as1.length = xs1.length ∧
      Chain s.heap p as1 xs1 a ∧ s.heap.cells a = some ⟨x, some t, lastOr p as1⟩ := by
  rcases List.eq_nil_or_concat' as with h | ⟨as1, a, rfl⟩
  · exact absurd h hne
  have hlen := hl.chain.length_eq
  rcases List.eq_nil_or_concat' xs with h | ⟨xs1, x, rfl⟩
  · subst h; simp at hlen
  have hl1 : as1.length = xs1.length := by simpa using hlen
  have hc := (chain_append s.heap p as1 [a] xs1 [x] t hl1).1 hl.chain
  exact ⟨as1, a, xs1, x, rfl, rfl, hl1, hc.1, hc.2.1⟩

theorem Shape.addr_lt {α : Type} {s : LState α} {p : Option Nat} {as : List Nat}
    {xs : List α} {t : Nat} (hl : Shape s p as xs t) : ∀ b ∈ as, b < s.heap.brk := by
  intro b hb
  obtain ⟨n, hn⟩ := hl.chain.live b hb
  exact hl.wf.lt hn

theorem Shape.term_lt {α : Type} {s : LState α} {p : Option Nat} {as : List Nat}
    {xs : List α} {t : Nat} (hl : Shape s p as xs t) : t < s.heap.brk := by
  obtain ⟨v, hv⟩ := hl.term
  exact hl.wf.lt hv

theorem Heap.Dead.ne_live {α : Type} {h : Heap α} {q b : Nat} {n : Node α}
    (hd : h.Dead (some q)) (hb : h.cells b = some n) : q ≠ b := by
  rintro rfl
  have := (hd q rfl).2
  simp [this] at hb

theorem Linked.pushTail_linked {α : Type} [Inhabited α] {s : LState α} {p : Option Nat} {as : List Nat}
    {xs : List α} {t : Nat} (hlk : Linked s p as xs t) (hne : as ≠ []) (x : α) :
    ∃ s1, pushTail s x = Outcome.ok () s1 ∧ Linked s1 p (as ++ [s.heap.brk]) (xs ++ [x]) t := by
  have hl := hlk.shape
  obtain ⟨as1, a, xs1, xl, rfl, rfl, hlen, hc1, ha⟩ := hl.snoc_cases hne
  obtain ⟨v, ht⟩ := hl.term
  have htail := hlk.tail
  rw [lastOr_snoc] at ht htail
  have hab := hl.wf.lt ha
  have htb := hl.wf.lt ht
  have hnd := hl.nodup
  have hta : t ≠ a := by simp at hnd; tauto
  have hlen0 : s.l.mLen ≠ 0 := by rw [hl.len]; simp
  have hlt := hl.addr_lt
  simp [pushTail, Node.create, pushTailNode, empty, popTerminator, addTerminator, Heap.lockNode,
    Heap.takeNext, Heap.setPrev, Heap.setNext, Outcome.ofOption, htail, ha, ht, hlen0, hab.ne, hab.ne', htb.ne, htb.ne', hta, hta.symm]
  have has1 : ∀ b ∈ as1, b ≠ a ∧ b ≠ t ∧ b ≠ s.heap.brk := by
    intro b hb
    have := hlt b (by simp [hb])
    have hnd1 := List.nodup_cons.1 hnd
    have hnd2 := List.nodup_append.1 hnd1.2
    refine ⟨?_, ?_, by omega⟩
    · rintro rfl; exact hnd2.2.2 hb (by simp)
    · rintro rfl; exact hnd1.1 (by simp [hb])
  refine ⟨⟨?_, ?_, ?_, ?_, ?_, ?_, ?_, ?_⟩, ?_⟩
  · refine Heap.WF.write (Heap.WF.write (Heap.WF.write (Heap.WF.write (Heap.WF.write
      (Heap.WF.alloc hl.wf _) _ ?_) _ ?_) _ ?_) _ ?_) _ ?_ <;> simp <;> omega
  · have : s.heap.brk ∉ t :: (as1 ++ [a]) := by
      intro hmem
      rcases List.mem_cons.1 hmem with h | h
      · omega
      · exact absurd (hlt _ h) (by omega)
    have h2 : (t :: (as1 ++ [a]) ++ [s.heap.brk]).Nodup :=
      List.Nodup.append hnd (by simp) (by simpa using this)
    simpa using h2
  · have e1 : as1 ++ [a, s.heap.brk] = as1 ++ ([a, s.heap.brk]) := rfl
    rw [chain_append _ _ _ _ _ _ _ hlen]
    refine ⟨hc1.congr ?_, ?_⟩
    · intro b hb
      obtain ⟨h1, h2, h3⟩ := has1 b hb
      simp [h1, h2, h3]
    · simp [Chain, hab.ne, hab.ne', htb.ne, htb.ne', hta, hta.symm]
  · refine ⟨v, ?_⟩
    have : as1 ++ [a, s.heap.brk] = (as1 ++ [a]) ++ [s.heap.brk] := by simp
    rw [this, lastOr_snoc]
    simp [htb.ne]
  · intro q hq
    subst hq
    have hd := hl.dead q rfl
    have h1 : q ≠ a := Heap.Dead.ne_live hl.dead ha
    have h2 : q ≠ t := Heap.Dead.ne_live hl.dead ht
    have h3 : q ≠ s.heap.brk := by omega
    simp [h1, h2, h3, hd.2]
    omega
  · have := hl.head
    cases as1 <;> simpa using this
  · rfl
  · simp [hl.len]
  · have : as1 ++ [a, s.heap.brk] = (as1 ++ [a]) ++ [s.heap.brk] := by simp
    rw [this, lastOr_snoc]

theorem insertInEmpty_eq {α : Type} [Inhabited α] (s : LState α) (node : Nat) (x : α)
    (hnode : (s.heap.release s.l.mHead).cells node = some ⟨x, none, none⟩)
    (hlt : node < (s.heap.release s.l.mHead).brk) :
    insertInEmpty s node = some
      ⟨(((s.heap.release s.l.mHead).alloc ⟨default, none, none⟩).1.write node
          ⟨x, some (s.heap.release s.l.mHead).brk, none⟩).write (s.heap.release s.l.mHead).brk
          ⟨default, none, some node⟩,
        ⟨some node, some node, some (s.heap.release s.l.mHead).brk, s.l.mLen⟩⟩ := by
  unfold insertInEmpty
  generalize s.heap.release s.l.mHead = h0 at *
  have hne : node ≠ h0.brk := by omega
  have hne1 : h0.brk ≠ node := by omega
  simp [Node.createEmpty, Heap.setNext, Heap.setPrev, Heap.lockNode, hnode, hne, hne1]

theorem linked_single {α : Type} [Inhabited α] (h0 : Heap α) (node : Nat) (x : α)
    (hw : h0.WF) (hlt : node < h0.brk) :
    Linked ⟨((h0.alloc ⟨default, none, none⟩).1.write node ⟨x, some h0.brk, none⟩).write h0.brk
        ⟨default, none, some node⟩, ⟨some node, some node, some h0.brk, 1⟩⟩
      none [node] [x] h0.brk := by
  have hne : node ≠ h0.brk := by omega
  refine ⟨⟨?_, ?_, ?_, ?_, ?_, ?_, ?_, ?_⟩, ?_⟩
  · refine Heap.WF.write (Heap.WF.write (Heap.WF.alloc hw _) _ ?_) _ ?_ <;> (simp <;> omega)
  · simp [hne.symm]
  · simp [Chain, hne]
  · exact ⟨default, by simp [lastOr]⟩
  · intro a ha; simp at ha
  · rfl
  · rfl
  · rfl
  · rfl

theorem Rep.release_head {α : Type} {s : LState α} (hr : Rep s []) (x : α) :
    ((s.heap.alloc ⟨x, none, none⟩).1.release s.l.mHead).WF ∧
    ((s.heap.alloc ⟨x, none, none⟩).1.release s.l.mHead).brk = s.heap.brk + 1 ∧
    ((s.heap.alloc ⟨x, none, none⟩).1.release s.l.mHead).cells s.heap.brk =
      some ⟨x, none, none⟩ ∧ s.l.mLen = 0 := by
  rcases hr with ⟨-, hw, hlen, hh, -⟩ | ⟨p, as, t, hlk⟩
  · rw [hh, Heap.release_none]
    exact ⟨hw.alloc _, rfl, by simp, hlen⟩
  · have hl := hlk.shape
    have has : as = [] := by
      have := hl.chain.length_eq
      simpa using this
    subst has
    obtain ⟨v, ht⟩ := hl.term
    have htb := hl.wf.lt ht
    have hh : s.l.mHead = some t := hl.head
    rw [hh, Heap.release_single _ t ⟨v, none, lastOr p []⟩ (by simp) (by simp [htb.ne, ht]) rfl]
    exact ⟨(hl.wf.alloc _).free _, rfl, by simp [htb.ne'], by simpa using hl.len⟩

theorem Rep.push_empty {α : Type} [Inhabited α] {s : LState α} (hr : Rep s []) (x : α) :
    ∃ s1, pushTail s x = Outcome.ok () s1 ∧ pushHead s x = Outcome.ok () s1 ∧
      Linked s1 none [s.heap.brk] [x] (s.heap.brk + 1) := by
  obtain ⟨hw, hb, hc, hlen⟩ := hr.release_head x
  have hie := insertInEmpty_eq ⟨(s.heap.alloc ⟨x, none, none⟩).1, s.l⟩ s.heap.brk x hc
    (by simp only [hb]; omega)
  have hlk := linked_single _ s.heap.brk x hw (by simp only [hb]; omega)
  simp only [hb] at hie hlk
  refine ⟨_, ?_, ?_, hlk⟩
  · simp [pushTail, Node.create, pushTailNode, empty, hlen, hie, Outcome.ofOption]
  · simp [pushHead, Node.create, pushHeadNode, empty, hlen, hie, Outcome.ofOption]

theorem Rep.pushTail_ok {α : Type} [Inhabited α] {s : LState α} {xs : List α} (hr : Rep s xs) (x : α) :
    ∃ s1, pushTail s x = Outcome.ok () s1 ∧ Rep s1 (xs ++ [x]) := by
  rcases hr with ⟨rfl, h⟩ | ⟨p, as, t, hl⟩
  · obtain ⟨s1, h1, -, h3⟩ := Rep.push_empty (Or.inl ⟨rfl, h⟩) x
    exact ⟨s1, h1, Or.inr ⟨_, _, _, h3⟩⟩
  · by_cases hne : as = []
    · subst hne
      have hxs : xs = [] := by
        have := hl.shape.chain.length_eq
        simpa [eq_comm] using this
      subst hxs
      obtain ⟨s1, h1, -, h3⟩ := Rep.push_empty (Or.inr ⟨_, _, _, hl⟩) x
      exact ⟨s1, h1, Or.inr ⟨_, _, _, h3⟩⟩
    · obtain ⟨s1, h1, h2⟩ := hl.pushTail_linked hne x
      exact ⟨s1, h1, Or.inr ⟨_, _, _, h2⟩⟩

theorem Rep.pushTailAll_ok {α : Type} [Inhabited α] {s : LState α} {xs : List α} (hr : Rep s xs)
    (ys : List α) : ∃ s1, pushTailAll s ys = Outcome.ok () s1 ∧ Rep s1 (xs ++ ys) := by
  induction ys generalizing s xs with
  | nil => exact ⟨s, rfl, by simpa using hr⟩
  | cons y ys ih =>
    obtain ⟨s1, h1, h2⟩ := hr.pushTail_ok y
    obtain ⟨s2, h3, h4⟩ := ih h2
    exact ⟨s2, by simp [pushTailAll, h1, h3], by simpa using h4⟩

theorem Rep.new {α : Type} : Rep (LState.new : LState α) [] :=
  Or.inl ⟨rfl, Heap.WF.empty, rfl, rfl, fun a ha => by simp [LState.new, ListObj.new] at ha⟩

theorem constructFrom_rep {α : Type} [Inhabited α] (xs : List α) :
    ∃ s, constructFrom Heap.empty xs = Outcome.ok () s ∧ Rep s xs := by
  simpa using Rep.pushTailAll_ok (Rep.new (α := α)) xs

theorem Rep.peekHead_ok {α : Type} {s : LState α} {x : α} {xs : List α} (hr : Rep s (x :: xs)) :
    peekHead s = Outcome.ok x s := by
  rcases hr with ⟨h, -⟩ | ⟨p, as, t, hlk⟩
  · simp at h
  · have hl := hlk.shape
    cases as with
    | nil => exact absurd hl.chain (by simp [Chain])
    | cons a as =>
      have h1 := hl.chain.1
      have h2 : s.l.mHead = some a := hl.head
      have h3 : s.l.mLen ≠ 0 := by rw [hl.len]; simp
      simp [peekHead, empty, h1, h2, h3]

theorem Rep.peekTail_ok {α : Type} {s : LState α} {x : α} {xs : List α} (hr : Rep s (xs ++ [x])) :
    peekTail s = Outcome.ok x s := by
  rcases hr with ⟨h, -⟩ | ⟨p, as, t, hlk⟩
  · simp at h
  · have hl := hlk.shape
    have hne : as ≠ [] := by
      rintro rfl
      have := hl.chain.length_eq
      simp at this
    obtain ⟨as1, a, xs1, xl, rfl, hxs, hlen, hc1, ha⟩ := hl.snoc_cases hne
    have hx : xl = x := by
      have := List.append_inj_right' hxs rfl
      simpa [eq_comm] using this
    subst hx
    have h2 : s.l.mTail = some a := by rw [hlk.tail, lastOr_snoc]
    have h3 : s.l.mLen ≠ 0 := by rw [hl.len]; simp
    simp [peekTail, empty, Heap.lockNode, ha, h2, h3]

theorem Rep.peek_nil {α : Type} {s : LState α} (hr : Rep s []) :
    peekHead s = Outcome.throw Exc.ListOutOfRangeException s ∧
      peekTail s = Outcome.throw Exc.ListOutOfRangeException s := by
  have h := hr.size_eq
  simp [size] at h
  simp [peekHead, peekTail, empty, h]
theorem Linked.popHead_linked {α : Type} {s : LState α} {p : Option Nat} {a : Nat} {as : List Nat}
    {x : α} {xs : List α} {t : Nat} (hlk : Linked s p (a :: as) (x :: xs) t) :
    ∃ s1, popHead s = Outcome.ok (some x) s1 ∧ Linked s1 (some a) as xs t := by
  have hl := hlk.shape
  have ha := hl.chain.1
  obtain ⟨v, ht⟩ := hl.term
  have hab := hl.wf.lt ha
  have hnd := hl.nodup
  have hta : t ≠ a := by simp at hnd; tauto
  have hlen0 : s.l.mLen ≠ 0 := by rw [hl.len]; simp
  have hh : s.l.mHead = some a := hl.head
  have hrel : (s.heap.write a ⟨x, none, p⟩).release (some a) = (s.heap.write a ⟨x, none, p⟩).free a :=
    Heap.release_single _ a ⟨x, none, p⟩ (by simp; omega) (by simp) rfl
  simp [popHead, empty, Heap.lockNode, Heap.takeNext, Outcome.ofOption, hh, ha, hlen0, hrel]
  have has : ∀ b ∈ as, b ≠ a := by
    rintro b hb rfl
    simp at hnd
    tauto
  refine ⟨⟨?_, ?_, ?_, ?_, ?_, ?_, ?_, ?_⟩, ?_⟩
  · exact (hl.wf.write _ hab).free _
  · simp at hnd ⊢; tauto
  · exact hl.chain.2.congr fun b hb => by simp [has b hb]
  · exact ⟨v, by simpa [hta, lastOr] using ht⟩
  · intro q hq
    simp at hq
    subst hq
    simpa using hab
  · simp
  · exact hl.terminator
  · simp [hl.len]
  · simpa [lastOr] using hlk.tail

theorem Linked.pushHead_linked {α : Type} [Inhabited α] {s : LState α} {p : Option Nat} {a : Nat}
    {as : List Nat} {x0 : α} {xs : List α} {t : Nat} (hlk : Linked s p (a :: as) (x0 :: xs) t)
    (x : α) :
    ∃ s1, pushHead s x = Outcome.ok () s1 ∧
      Linked s1 none (s.heap.brk :: a :: as) (x :: x0 :: xs) t := by
  have hl := hlk.shape
  have ha := hl.chain.1
  obtain ⟨v, ht⟩ := hl.term
  have hab := hl.wf.lt ha
  have htb := hl.wf.lt ht
  have hnd := hl.nodup
  have hta : t ≠ a := by simp at hnd; tauto
  have hlen0 : s.l.mLen ≠ 0 := by rw [hl.len]; simp
  have hh : s.l.mHead = some a := hl.head
  have hlt := hl.addr_lt
  simp [pushHead, Node.create, pushHeadNode, empty, Heap.lockNode, Heap.setPrev, Heap.setNext,
    Outcome.ofOption, hh, ha, hlen0, hab.ne, hab.ne']
  have has : ∀ b ∈ as, b ≠ a ∧ b ≠ s.heap.brk := by
    intro b hb
    have := hlt b (by simp [hb])
    refine ⟨?_, by omega⟩
    rintro rfl
    simp at hnd
    tauto
  refine ⟨⟨?_, ?_, ?_, ?_, ?_, ?_, ?_, ?_⟩, ?_⟩
  · refine Heap.WF.write (Heap.WF.write (Heap.WF.alloc hl.wf _) _ ?_) _ ?_ <;> (simp <;> omega)
  · have : s.heap.brk ∉ t :: a :: as := by
      intro hmem
      rcases List.mem_cons.1 hmem with h | h
      · omega
      · exact absurd (hlt _ h) (by omega)
    have h2 : (s.heap.brk :: t :: a :: as).Nodup := List.nodup_cons.2 ⟨this, hnd⟩
    simp at h2 ⊢
    tauto
  · refine ⟨by simp, ?_, hl.chain.2.congr fun b hb => ?_⟩
    · simp [hab.ne]
    · simp [(has b hb).1, (has b hb).2]
  · exact ⟨v, by simpa [htb.ne, hta, lastOr] using ht⟩
  · intro q hq; simp at hq
  · rfl
  · exact hl.terminator
  · simp [hl.len]
  · simpa [lastOr] using hlk.tail


theorem Linked.popTail_linked {α : Type} {s : LState α} {p : Option Nat} {a : Nat}
    {as1 : List Nat} {x : α} {xs1 : List α} {t : Nat}
    (hlk : Linked s p (as1 ++ [a]) (xs1 ++ [x]) t) (hne : as1 ≠ []) :
    ∃ s1, popTail s = Outcome.ok (some x) s1 ∧ Linked s1 p as1 xs1 t := by
  have hl := hlk.shape
  obtain ⟨as1', a', xs1', x', e1, e2, hlen, hc1, ha⟩ := hl.snoc_cases (by simp)
  obtain ⟨rfl, ea⟩ := List.append_inj' e1 rfl
  obtain ⟨rfl, ex⟩ := List.append_inj' e2 rfl
  simp at ea ex
  subst ea ex
  obtain ⟨as2, b, xs2, xb, rfl, rfl, hlen2, hc2, hb⟩ :
      ∃ as2 b xs2 xb, as1 = as2 ++ [b] ∧ xs1 = xs2 ++ [xb] ∧ as2.length = xs2.length ∧
        Chain s.heap p as2 xs2 b ∧ s.heap.cells b = some ⟨xb, some a, lastOr p as2⟩ := by
    rcases List.eq_nil_or_concat' as1 with h | ⟨as2, b, rfl⟩
    · exact absurd h hne
    rcases List.eq_nil_or_concat' xs1 with h | ⟨xs2, xb, rfl⟩
    · subst h; simp at hlen
    have hl2 : as2.length = xs2.length := by simpa using hlen
    have hc := (chain_append s.heap p as2 [b] xs2 [xb] a hl2).1 hc1
    exact ⟨as2, b, xs2, xb, rfl, rfl, hl2, hc.1, hc.2.1⟩
  obtain ⟨v, ht⟩ := hl.term
  have htail := hlk.tail
  rw [lastOr_snoc] at ht htail
  rw [lastOr_snoc] at ha
  have hab := hl.wf.lt ha
  have hbb := hl.wf.lt hb
  have htb := hl.wf.lt ht
  have hnd := hl.nodup
  have hnd1 := List.nodup_cons.1 hnd
  have hnd2 := List.nodup_append.1 hnd1.2
  have hnd3 := List.nodup_append.1 hnd2.1
  have hta : t ≠ a := fun e => hnd1.1 (by simp [e])
  have htb1 : t ≠ b := fun e => hnd1.1 (by simp [e])
  have hba : b ≠ a := fun e => hnd2.2.2 (by simp : b ∈ as2 ++ [b]) (by simp [e])
  have hlen0 : s.l.mLen ≠ 0 := by rw [hl.len]; simp
  have hlen1 : s.l.mLen - 1 ≠ 0 := by rw [hl.len]; simp
  have hrel : ∀ h : Heap α, 0 < h.brk → h.cells a = some ⟨x, none, some b⟩ →
      h.release (some a) = h.free a := fun h h0 hc => Heap.release_single h a _ h0 hc rfl
  simp [popTail, empty, popTerminator, addTerminator, Heap.lockNode, Heap.takeNext, Heap.setPrev,
    Heap.setNext, Outcome.ofOption, htail, ha, hb, ht, hlen0, hlen1, hta, hta.symm, htb1,
    htb1.symm, hba, hba.symm]
  rw [hrel _ (by simp; omega) (by simp [hba.symm, hta.symm])]
  have has2 : ∀ c ∈ as2, c ≠ a ∧ c ≠ b ∧ c ≠ t := by
    intro c hc
    refine ⟨?_, ?_, ?_⟩
    · intro e; exact hnd2.2.2 (by simp [hc] : c ∈ as2 ++ [b]) (by simp [e])
    · intro e; exact hnd3.2.2 hc (by simp [e])
    · intro e; exact hnd1.1 (by simp [← e, hc])
  refine ⟨⟨?_, ?_, ?_, ?_, ?_, ?_, ?_, ?_⟩, ?_⟩
  · refine Heap.WF.free (Heap.WF.write (Heap.WF.write (Heap.WF.write hl.wf _ ?_) _ ?_) _ ?_) _ <;>
      first | omega | (simp; omega)
  · exact List.nodup_cons.2 ⟨fun h => hnd1.1 (by simp at h ⊢; tauto), hnd2.1⟩
  · rw [chain_append _ _ _ _ _ _ _ hlen2]
    refine ⟨hc2.congr fun c hc => ?_, ?_⟩
    · obtain ⟨h1, h2, h3⟩ := has2 c hc
      simp [h1, h2, h3]
    · simp [Chain, hba]
  · exact ⟨v, by simp [hta, htb1, lastOr_snoc]⟩
  · intro q hq
    subst hq
    have hd := hl.dead q rfl
    have h1 : q ≠ t := Heap.Dead.ne_live hl.dead ht
    have h2 : q ≠ b := Heap.Dead.ne_live hl.dead hb
    simp [h1, h2, hd.2, hd.1]
  · have := hl.head
    cases as2 <;> simpa using this
  · rfl
  · simp [hl.len]
  · simp [lastOr_snoc]

theorem Linked.popTail_last {α : Type} {s : LState α} {p : Option Nat} {a : Nat}
    {x : α} {t : Nat} (hlk : Linked s p [a] [x] t) :
    ∃ s1, popTail s = Outcome.ok (some x) s1 ∧ Rep s1 [] := by
  have hl := hlk.shape
  have ha := hl.chain.1
  obtain ⟨v, ht⟩ := hl.term
  have htail : s.l.mTail = some a := hlk.tail
  have hh : s.l.mHead = some a := hl.head
  have hab := hl.wf.lt ha
  have htb := hl.wf.lt ht
  have hnd := hl.nodup
  have hta : t ≠ a := by simp at hnd; tauto
  have hlen1 : s.l.mLen = 1 := by rw [hl.len]; simp
  have hrel1 : (s.heap.write a ⟨x, none, p⟩).release (some a) = (s.heap.write a ⟨x, none, p⟩).free a :=
    Heap.release_single _ a ⟨x, none, p⟩ (by simp; omega) (by simp) rfl
  have hrel2 : ((s.heap.write a ⟨x, none, p⟩).free a).release (some t) =
      ((s.heap.write a ⟨x, none, p⟩).free a).free t :=
    Heap.release_single _ t ⟨v, none, some a⟩ (by simp; omega) (by simpa [hta, lastOr] using ht) rfl
  simp [popTail, empty, popTerminator, Heap.lockNode, Heap.takeNext,
    Outcome.ofOption, htail, hh, ha, hlen1, hrel1, hrel2]
  refine Or.inl ⟨rfl, ?_, rfl, rfl, ?_⟩
  · exact ((hl.wf.write _ hab).free _).free _
  · intro q hq
    simp [hl.terminator] at hq
    subst hq
    simpa using htb

theorem Rep.popTail_ok {α : Type} {s : LState α} {x : α} {xs : List α} (hr : Rep s (xs ++ [x])) :
    ∃ s1, popTail s = Outcome.ok (some x) s1 ∧ Rep s1 xs := by
  rcases hr with ⟨h, -⟩ | ⟨p, as, t, hlk⟩
  · simp at h
  · have hl := hlk.shape
    have hne : as ≠ [] := by
      rintro rfl
      have := hl.chain.length_eq
      simp at this
    obtain ⟨as1, a, xs1, xl, rfl, hxs, hlen, hc1, ha⟩ := hl.snoc_cases hne
    obtain ⟨rfl, ex⟩ := List.append_inj' hxs rfl
    simp at ex
    subst ex
    by_cases h1 : as1 = []
    · subst h1
      have : xs = [] := by simpa [eq_comm] using hlen
      subst this
      exact Linked.popTail_last hlk
    · obtain ⟨s1, h2, h3⟩ := Linked.popTail_linked hlk h1
      exact ⟨s1, h2, Or.inr ⟨_, _, _, h3⟩⟩

theorem Rep.popHead_ok {α : Type} {s : LState α} {x : α} {xs : List α} (hr : Rep s (x :: xs)) :
    ∃ s1, popHead s = Outcome.ok (some x) s1 ∧ Rep s1 xs := by
  rcases hr with ⟨h, -⟩ | ⟨p, as, t, hlk⟩
  · simp at h
  · cases as with
    | nil => exact absurd hlk.shape.chain (by simp [Chain])
    | cons a as =>
      obtain ⟨s1, h2, h3⟩ := Linked.popHead_linked hlk
      exact ⟨s1, h2, Or.inr ⟨_, _, _, h3⟩⟩

theorem Rep.pop_nil {α : Type} {s : LState α} (hr : Rep s []) :
    popHead s = Outcome.ok none s ∧ popTail s = Outcome.ok none s := by
  have h := hr.size_eq
  simp [size] at h
  simp [popHead, popTail, empty, h]

theorem Rep.pushHead_ok {α : Type} [Inhabited α] {s : LState α} {xs : List α} (hr : Rep s xs)
    (x : α) : ∃ s1, pushHead s x = Outcome.ok () s1 ∧ Rep s1 (x :: xs) := by
  rcases hr with ⟨rfl, h⟩ | ⟨p, as, t, hlk⟩
  · obtain ⟨s1, -, h1, h3⟩ := Rep.push_empty (Or.inl ⟨rfl, h⟩) x
    exact ⟨s1, h1, Or.inr ⟨_, _, _, h3⟩⟩
  · cases as with
    | nil =>
      have hxs : xs = [] := by
        have := hlk.shape.chain.length_eq
        simpa [eq_comm] using this
      subst hxs
      obtain ⟨s1, -, h1, h3⟩ := Rep.push_empty (Or.inr ⟨_, _, _, hlk⟩) x
      exact ⟨s1, h1, Or.inr ⟨_, _, _, h3⟩⟩
    | cons a as =>
      cases xs with
      | nil => exact absurd hlk.shape.chain (by simp [Chain])
      | cons x0 xs =>
        obtain ⟨s1, h1, h2⟩ := hlk.pushHead_linked x
        exact ⟨s1, h1, Or.inr ⟨_, _, _, h2⟩⟩

theorem Rep.peekHead_eq {α : Type} {s : LState α} {xs : List α} (hr : Rep s xs) :
    peekHead s = match xs.head? with
      | some x => Outcome.ok x s
      | none => Outcome.throw Exc.ListOutOfRangeException s := by
  cases xs with
  | nil => exact hr.peek_nil.1
  | cons x xs => exact hr.peekHead_ok

theorem Rep.peekTail_eq {α : Type} {s : LState α} {xs : List α} (hr : Rep s xs) :
    peekTail s = match xs.getLast? with
      | some x => Outcome.ok x s
      | none => Outcome.throw Exc.ListOutOfRangeException s := by
  rcases List.eq_nil_or_concat' xs with rfl | ⟨ys, y, rfl⟩
  · exact hr.peek_nil.2
  · simpa using hr.peekTail_ok

theorem Rep.popHeadN {α : Type} {s : LState α} {xs : List α} (hr : Rep s xs) (k : Nat) :
    ∃ s1, repeatOp popHead k s =
        Outcome.ok ((xs.take k).map some ++ List.replicate (k - xs.length) none) s1 ∧
      Rep s1 (xs.drop k) := by
  induction k generalizing s xs with
  | zero => exact ⟨s, by simp [repeatOp], by simpa using hr⟩
  | succ k ih =>
    cases xs with
    | nil =>
      obtain ⟨s1, h1, h2⟩ := ih hr
      refine ⟨s1, ?_, by simpa using h2⟩
      simp only [repeatOp, hr.pop_nil.1, h1]
      simp [List.replicate_succ]
    | cons x xs =>
      obtain ⟨s1, h1, h2⟩ := hr.popHead_ok
      obtain ⟨s2, h3, h4⟩ := ih h2
      refine ⟨s2, ?_, by simpa using h4⟩
      simp only [repeatOp, h1, h3]
      simp

theorem Rep.popTailN {α : Type} {s : LState α} {xs : List α} (hr : Rep s xs) (k : Nat) :
    ∃ s1, repeatOp popTail k s =
        Outcome.ok ((xs.reverse.take k).map some ++ List.replicate (k - xs.length) none) s1 ∧
      Rep s1 (xs.take (xs.length - k)) := by
  induction k generalizing s xs with
  | zero => exact ⟨s, by simp [repeatOp], by simpa using hr⟩
  | succ k ih =>
    rcases List.eq_nil_or_concat' xs with rfl | ⟨ys, y, rfl⟩
    · obtain ⟨s1, h1, h2⟩ := ih hr
      refine ⟨s1, ?_, by simpa using h2⟩
      simp only [repeatOp, hr.pop_nil.2, h1]
      simp [List.replicate_succ]
    · obtain ⟨s1, h1, h2⟩ := hr.popTail_ok
      obtain ⟨s2, h3, h4⟩ := ih h2
      refine ⟨s2, ?_, ?_⟩
      · simp only [repeatOp, h1, h3]
        simp
      · have e : (ys ++ [y]).length - (k + 1) = ys.length - k := by simp
        rw [e, List.take_append_of_le_length (by omega)]
        exact h4
theorem Heap.ext_cells {α : Type} {h1 h2 : Heap α} (hb : h1.brk = h2.brk)
    (hc : ∀ a, h1.cells a = h2.cells a) : h1 = h2 := by
  cases h1; cases h2
  simp only [Heap.mk.injEq]
  exact ⟨funext hc, hb⟩

theorem Shape.insertBefore_eval {α : Type} [Inhabited α] {s : LState α} {b c hd : Nat}
    {xb vc : α} {pb nb nc : Option Nat} (x : α)
    (hw : s.heap.WF)
    (hb : s.heap.cells b = some ⟨xb, nb, pb⟩)
    (hc : s.heap.cells c = some ⟨vc, nc, some b⟩)
    (hh : s.l.mHead = some hd) (hhd : ∃ n, s.heap.cells hd = some n)
    (hcb : c ≠ b) (hch : c ≠ hd) :
    insertBefore s (some c) x = Outcome.ok ()
      ⟨(((s.heap.alloc ⟨x, none, none⟩).1.write s.heap.brk ⟨x, nb, some b⟩).write c
          ⟨vc, nc, some s.heap.brk⟩).write b ⟨xb, some s.heap.brk, pb⟩,
        { s.l with mLen := s.l.mLen + 1 }⟩ := by
  obtain ⟨hn, hhd⟩ := hhd
  have hbb := hw.lt hb
  have hcb1 := hw.lt hc
  have hhb := hw.lt hhd
  simp [insertBefore, insertBeforeNode, Node.create, validateIterator, Heap.expired, cursorEq,
    cbegin, Heap.lock, Heap.lockNode, Heap.setPrev, Heap.setNext, Heap.takeNext,
    Outcome.ofOption, hb, hc, hh, hhd, hcb, hcb.symm, hch, hbb.ne, hbb.ne', hcb1.ne, hcb1.ne',
    hhb.ne, hhb.ne']
  refine Heap.ext_cells rfl fun a => ?_
  by_cases h1 : a = b
  · simp [h1]
  · by_cases h2 : a = c
    · simp [h2, hcb]
    · by_cases h3 : a = s.heap.brk <;> simp [h1, h2, h3]

theorem Shape.insertBefore_mid {α : Type} [Inhabited α] {s : LState α} {p : Option Nat}
    {as1 as2 : List Nat} {xs1 xs2 : List α} {t : Nat}
    (hl : Shape s p (as1 ++ as2) (xs1 ++ xs2) t) (hlen : as1.length = xs1.length)
    (hne : as1 ≠ []) (x : α) :
    ∃ s1, insertBefore s (some (firstOr t as2)) x = Outcome.ok () s1 ∧
      Shape s1 p (as1 ++ s.heap.brk :: as2) (xs1 ++ x :: xs2) t ∧
      s1.l.mTail = s.l.mTail ∧ s1.heap.brk = s.heap.brk + 1 ∧
      ∀ a n, s.heap.cells a = some n → ∃ n1, s1.heap.cells a = some n1 ∧ n1.value = n.value := by
  have hch := (chain_append s.heap p as1 as2 xs1 xs2 t hlen).1 hl.chain
  obtain ⟨as0, b, xs0, xb, rfl, rfl, hlen0, hc0, hb⟩ :
      ∃ as0 b xs0 xb, as1 = as0 ++ [b] ∧ xs1 = xs0 ++ [xb] ∧ as0.length = xs0.length ∧
        Chain s.heap p as0 xs0 b ∧
          s.heap.cells b = some ⟨xb, some (firstOr t as2), lastOr p as0⟩ := by
    rcases List.eq_nil_or_concat' as1 with h | ⟨as0, b, rfl⟩
    · exact absurd h hne
    rcases List.eq_nil_or_concat' xs1 with h | ⟨xs0, xb, rfl⟩
    · subst h; simp at hlen
    have hl2 : as0.length = xs0.length := by simpa using hlen
    have hc := (chain_append s.heap p as0 [b] xs0 [xb] _ hl2).1 hch.1
    exact ⟨as0, b, xs0, xb, rfl, rfl, hl2, by simpa using hc.1, by simpa [Chain] using hc.2⟩
  have hch2 : Chain s.heap (some b) as2 xs2 t := by simpa [lastOr_snoc] using hch.2
  obtain ⟨v, ht⟩ := hl.term
  have hnd := hl.nodup
  have hnd1 := List.nodup_cons.1 hnd
  have hnd2 := List.nodup_append.1 hnd1.2
  have hnd3 := List.nodup_append.1 hnd2.1
  have hlt := hl.addr_lt
  have htb := hl.term_lt
  have hbb := hl.wf.lt hb
  have hbt : b ≠ t := fun e => hnd1.1 (by simp [e])
  -- the node the cursor names
  obtain ⟨vc, nc, hc, hcmem⟩ : ∃ vc nc, s.heap.cells (firstOr t as2) = some ⟨vc, nc, some b⟩ ∧
      ((as2 = [] ∧ xs2 = [] ∧ nc = none ∧ vc = v) ∨ ∃ c as3 xc xs3, as2 = c :: as3 ∧ xs2 = xc :: xs3 ∧ vc = xc ∧
        nc = some (firstOr t as3) ∧ Chain s.heap (some c) as3 xs3 t) := by
    cases as2 with
    | nil => cases xs2 with
      | nil => exact ⟨v, none, by simpa [lastOr_snoc] using ht, Or.inl ⟨rfl, rfl, rfl, rfl⟩⟩
      | cons xc xs3 => exact absurd hch2 (by simp [Chain])
    | cons c as3 => cases xs2 with
      | nil => exact absurd hch2 (by simp [Chain])
      | cons xc xs3 => exact ⟨xc, _, hch2.1, Or.inr ⟨c, as3, xc, xs3, rfl, rfl, rfl, rfl, hch2.2⟩⟩
  have hcb1 := hl.wf.lt hc
  have hcin : firstOr t as2 = t ∨ firstOr t as2 ∈ as2 := by
    cases as2 <;> simp
  have hcb : firstOr t as2 ≠ b := by
    rcases hcin with h | h
    · rw [h]; exact hbt.symm
    · intro e; exact hnd2.2.2 (by simp : b ∈ as0 ++ [b]) (e ▸ h)
  have hhd : firstOr t (as0 ++ [b] ++ as2) = firstOr t (as0 ++ [b]) := by cases as0 <;> rfl
  have hhmem : firstOr t (as0 ++ [b]) ∈ as0 ++ [b] := firstOr_mem _ _ (by simp)
  have hch1 : firstOr t as2 ≠ firstOr t (as0 ++ [b]) := by
    rcases hcin with h | h
    · rw [h]; intro e; exact hnd1.1 (by rw [e]; exact List.mem_append_left _ hhmem)
    · intro e; exact hnd2.2.2 hhmem (e ▸ h)
  have hev := Shape.insertBefore_eval x hl.wf hb hc (hl.head.trans (by rw [hhd]))
    (hl.chain.live _ (List.mem_append_left _ hhmem)) hcb hch1
  have has0 : ∀ a ∈ as0, a ≠ b ∧ a ≠ firstOr t as2 ∧ a ≠ s.heap.brk := by
    intro a ha
    have := hlt a (by simp [ha])
    refine ⟨?_, ?_, by omega⟩
    · intro e; exact hnd3.2.2 ha (by simp [e])
    · rcases hcin with h | h
      · rw [h]; intro e; exact hnd1.1 (by simp [← e, ha])
      · intro e; exact hnd2.2.2 (by simp [ha] : a ∈ as0 ++ [b]) (e ▸ h)
  refine ⟨_, hev, ⟨?_, ?_, ?_, ?_, ?_, ?_, ?_, ?_⟩, rfl, rfl, ?_⟩
  · refine Heap.WF.write (Heap.WF.write (Heap.WF.write (Heap.WF.alloc hl.wf _) _ ?_) _ ?_) _ ?_
    · simp
    · simp; omega
    · simp; omega
  · have hfresh : s.heap.brk ∉ t :: (as0 ++ [b] ++ as2) := by
      intro hmem
      rcases List.mem_cons.1 hmem with h | h
      · omega
      · exact absurd (hlt _ h) (by omega)
    have h2 : (s.heap.brk :: t :: (as0 ++ [b] ++ as2)).Nodup := List.nodup_cons.2 ⟨hfresh, hnd⟩
    have hperm : (s.heap.brk :: t :: (as0 ++ [b] ++ as2)).Perm
        (t :: (as0 ++ [b] ++ s.heap.brk :: as2)) := by
      refine (List.Perm.swap _ _ _).trans (List.Perm.cons _ ?_)
      exact List.perm_middle.symm
    exact hperm.nodup_iff.1 h2
  · rw [chain_append _ _ _ _ _ _ _ hlen, chain_append _ _ _ _ _ _ _ hlen0]
    refine ⟨⟨hc0.congr fun a ha => ?_, ?_⟩, ?_⟩
    · obtain ⟨h1, h2, h3⟩ := has0 a ha
      simp [h1, h2, h3]
    · simp [Chain]
    · rw [lastOr_snoc]
      rcases hcmem with ⟨rfl, rfl, rfl, rfl⟩ | ⟨c, as3, xc, xs3, rfl, rfl, rfl, rfl, hc3⟩
      · simp [Chain, hbb.ne', htb.ne, htb.ne']
      · have hcb2 : c ≠ b := hcb
        have hcb3 : c < s.heap.brk := hcb1
        refine ⟨by simp [hbb.ne', hcb3.ne, hcb3.ne'], by simp [hcb2], hc3.congr fun a ha => ?_⟩
        have h1 : a ≠ b := fun e => hnd2.2.2 (by simp : b ∈ as0 ++ [b]) (by simp [← e, ha])
        have h2 : a ≠ c := fun e => by
          have := (List.nodup_cons.1 hnd2.2.1).1
          exact this (e ▸ ha)
        have h3 : a ≠ s.heap.brk := by
          have := hlt a (by simp [ha])
          omega
        simp [h1, h2, h3]
  · refine ⟨v, ?_⟩
    have e1 : as0 ++ [b] ++ s.heap.brk :: as2 = (as0 ++ [b] ++ [s.heap.brk]) ++ as2 := by simp
    have e2 : lastOr p (as0 ++ [b] ++ as2) = lastOr (some b) as2 := by
      rw [lastOr_append, lastOr_snoc]
    rw [e1, lastOr_append, lastOr_snoc]
    rw [e2] at ht
    rcases hcmem with ⟨rfl, rfl, rfl, rfl⟩ | ⟨c, as3, xc, xs3, rfl, rfl, rfl, rfl, hc3⟩
    · simp [hbt.symm, lastOr]
    · have hcb2 : c ≠ b := hcb
      have htc : t ≠ c := fun e => hnd1.1 (by simp [e])
      simpa [hbt.symm, htc, htb.ne, lastOr] using ht
  · intro q hq
    subst hq
    have hd := hl.dead q rfl
    have h1 : q ≠ b := Heap.Dead.ne_live hl.dead hb
    have h2 : q ≠ firstOr t as2 := Heap.Dead.ne_live hl.dead hc
    have h3 : q ≠ s.heap.brk := by omega
    simp [h1, h2, h3, hd.2]
    omega
  · have h1 : firstOr t (as0 ++ [b] ++ s.heap.brk :: as2) = firstOr t (as0 ++ [b]) := by
      cases as0 <;> rfl
    rw [h1, ← hhd]
    exact hl.head
  · exact hl.terminator
  · simp [hl.len]; omega
  · intro a n ha
    have hab := hl.wf.lt ha
    by_cases h1 : a = b
    · have hn : n = ⟨xb, some (firstOr t as2), lastOr p as0⟩ := by
        rw [h1, hb] at ha
        exact (Option.some.inj ha).symm
      exact ⟨⟨xb, some s.heap.brk, lastOr p as0⟩, by simp [h1], by rw [hn]⟩
    · by_cases h2 : a = firstOr t as2
      · have hn : n = ⟨vc, nc, some b⟩ := by
          rw [h2, hc] at ha
          exact (Option.some.inj ha).symm
        exact ⟨⟨vc, nc, some s.heap.brk⟩, by simp [h2, hcb], by rw [hn]⟩
      · exact ⟨n, by simp [h1, h2, hab.ne, ha], rfl⟩


theorem constructFrom_constructed {α : Type} [Inhabited α] (xs : List α) :
    constructFrom Heap.empty xs = Outcome.ok () (constructed xs) ∧ Rep (constructed xs) xs := by
  obtain ⟨s, h1, h2⟩ := constructFrom_rep xs
  have : constructed xs = s := by simp [constructed, h1, Outcome.state?]
  rw [this]
  exact ⟨h1, h2⟩

theorem advance_chain {α : Type} (h : Heap α) (p : Option Nat) (as : List Nat) (xs : List α)
    (t i : Nat) (hc : Chain h p as xs t) (hi : i ≤ as.length) :
    advance h i (some (firstOr t as)) = Outcome.ok () (some (firstOr t (as.drop i))) := by
  induction i generalizing p as xs with
  | zero => rfl
  | succ i ih =>
    cases as with
    | nil => simp at hi
    | cons a as => cases xs with
      | nil => exact absurd hc (by simp [Chain])
      | cons x xs =>
        have := ih (some a) as xs hc.2 (by simpa using hi)
        simp [advance, increment, validateIterator, Heap.expired, Heap.lockNode, hc.1, this]

theorem Shape.cell_at {α : Type} {s : LState α} {p : Option Nat} {as1 as2 : List Nat}
    {xs1 xs2 : List α} {t : Nat} (hl : Shape s p (as1 ++ as2) (xs1 ++ xs2) t)
    (hlen : as1.length = xs1.length) :
    ∃ n, s.heap.cells (firstOr t as2) = some n ∧ n.prev = lastOr p as1 ∧
      (∀ x xs3, xs2 = x :: xs3 → n.value = x) := by
  have hch := ((chain_append s.heap p as1 as2 xs1 xs2 t hlen).1 hl.chain).2
  cases as2 with
  | nil =>
    obtain ⟨v, hv⟩ := hl.term
    cases xs2 with
    | nil => exact ⟨_, hv, by simp, by simp⟩
    | cons x xs3 => exact absurd hch (by simp [Chain])
  | cons c as3 => cases xs2 with
    | nil => exact absurd hch (by simp [Chain])
    | cons x xs3 =>
      refine ⟨_, hch.1, rfl, ?_⟩
      intro y ys e
      simp at e
      exact e.1

theorem Shape.next_of_last {α : Type} {s : LState α} {p : Option Nat} {as1 as2 : List Nat}
    {b : Nat} {xs1 xs2 : List α} {xb : α} {t : Nat}
    (hl : Shape s p (as1 ++ [b] ++ as2) (xs1 ++ [xb] ++ xs2) t)
    (hlen : as1.length = xs1.length) :
    s.heap.cells b = some ⟨xb, some (firstOr t as2), lastOr p as1⟩ := by
  have hch := ((chain_append s.heap p (as1 ++ [b]) as2 (xs1 ++ [xb]) xs2 t (by simp [hlen])).1
    hl.chain).1
  have hc := ((chain_append s.heap p as1 [b] xs1 [xb] _ hlen).1 hch).2
  exact hc.1

theorem insertBefore_begin {α : Type} [Inhabited α] (s : LState α) (x : α)
    (hlive : dangling s.heap (cbegin s) = false) :
    insertBefore s (cbegin s) x = pushHead s x := by
  obtain ⟨a, n, ha, hn⟩ : ∃ a n, s.l.mHead = some a ∧ s.heap.cells a = some n := by
    unfold dangling Heap.expired Heap.lockNode cbegin at hlive
    cases hm : s.l.mHead with
    | none => simp [hm] at hlive
    | some a =>
      cases hc : s.heap.cells a with
      | none => simp [hm, hc] at hlive
      | some n => exact ⟨a, n, rfl, hc⟩
  have hlive1 : ∃ n1, (if a = s.heap.brk then some (⟨x, none, none⟩ : Node α) else s.heap.cells a)
      = some n1 := by
    by_cases h : a = s.heap.brk
    · exact ⟨⟨x, none, none⟩, by simp [h]⟩
    · exact ⟨n, by simp [h, hn]⟩
  obtain ⟨n1, hn1⟩ := hlive1
  simp only [insertBefore, insertBeforeNode, pushHead, Node.create, validateIterator,
    Heap.expired, Heap.lockNode, cbegin, ha, Heap.cells_alloc, hn1, cursorEq, Heap.lock]
  cases pushHeadNode ⟨(s.heap.alloc ⟨x, none, none⟩).1, s.l⟩ (s.heap.alloc ⟨x, none, none⟩).2
    <;> simp [Outcome.ofOption]

theorem dereference_live {α : Type} {h : Heap α} {c : Nat} {n : Node α}
    (hc : h.cells c = some n) : dereference h (some c) = Outcome.ok n.value (some c) := by
  simp [dereference, validateIterator, Heap.expired, Heap.lockNode, hc]

theorem decrement_live {α : Type} {h : Heap α} {c : Nat} {n : Node α}
    (hc : h.cells c = some n) : decrement h (some c) = Outcome.ok () n.prev := by
  simp [decrement, validateIterator, Heap.expired, Heap.lockNode, hc]

theorem increment_live {α : Type} {h : Heap α} {c : Nat} {n : Node α}
    (hc : h.cells c = some n) : increment h (some c) = Outcome.ok () n.next := by
  simp [increment, validateIterator, Heap.expired, Heap.lockNode, hc]

theorem dangling_live {α : Type} {h : Heap α} {c : Nat} {n : Node α}
    (hc : h.cells c = some n) : dangling h (some c) = false := by
  simp [dangling, Heap.expired, Heap.lockNode, hc]

theorem dangling_fresh {α : Type} {h : Heap α} (hw : h.WF) : dangling h (some h.brk) = true := by
  simp [dangling, Heap.expired, Heap.lockNode, hw h.brk (Nat.le_refl _)]

theorem cursorEq_live {α : Type} {h : Heap α} {c d : Nat} {n m : Node α}
    (hc : h.cells c = some n) (hd : h.cells d = some m) :
    cursorEq h (some c) (some d) = decide (c = d) := by
  by_cases e : c = d <;> simp [cursorEq, Heap.lock, Heap.lockNode, hc, hd, e]

theorem Linked.insertBefore_at {α : Type} [Inhabited α] {s : LState α} {p : Option Nat}
    {as : List Nat} {xs : List α} {t : Nat} (hlk : Linked s p as xs t) (hne : as ≠ [])
    (i : Nat) (hi : i ≤ as.length) (x : α) :
    ∃ s1, insertBefore s (some (firstOr t (as.drop i))) x = Outcome.ok () s1 ∧
      size s1 = size s + 1 ∧
      elements s1 = some (Except.ok (xs.take i ++ x :: xs.drop i)) ∧
      dangling s1.heap (some (firstOr t (as.drop i))) = false ∧
      dereference s1.heap (some (firstOr t (as.drop i))) =
        dereference s.heap (some (firstOr t (as.drop i))) ∧
      decrement s1.heap (some (firstOr t (as.drop i))) = Outcome.ok () (some s.heap.brk) ∧
      dereference s1.heap (some s.heap.brk) = Outcome.ok x (some s.heap.brk) ∧
      dangling s.heap (some s.heap.brk) = true := by
  have hl := hlk.shape
  have hlen := hl.chain.length_eq
  cases i with
  | zero =>
    cases as with
    | nil => exact absurd rfl hne
    | cons a as => cases xs with
      | nil => simp at hlen
      | cons x0 xs =>
        obtain ⟨s1, h1, h2⟩ := hlk.pushHead_linked x
        have hb : cbegin s = some a := hl.head
        have ha := hl.chain.1
        have ha1 := h2.shape.chain.2.1
        have hn1 := h2.shape.chain.1
        have hev : insertBefore s (some a) x = Outcome.ok () s1 := by
          rw [← hb, insertBefore_begin s x (by rw [hb]; exact dangling_live ha), h1]
        refine ⟨s1, hev, ?_, ?_, dangling_live ha1, ?_, ?_, ?_, dangling_fresh hl.wf⟩
        · simp [size, h2.shape.len, hl.len]
        · simpa using h2.shape.iterates
        · simp only [List.drop_zero, firstOr_cons]
          rw [dereference_live ha1, dereference_live ha]
        · simp only [List.drop_zero, firstOr_cons]
          rw [decrement_live ha1]
        · rw [dereference_live hn1]
  | succ j =>
    have e1 : as.take (j + 1) ++ as.drop (j + 1) = as := List.take_append_drop _ _
    have e2 : xs.take (j + 1) ++ xs.drop (j + 1) = xs := List.take_append_drop _ _
    have hl1 : (as.take (j + 1)).length = (xs.take (j + 1)).length := by
      simp [List.length_take, hlen]
    have hne1 : as.take (j + 1) ≠ [] := by
      cases as with
      | nil => exact absurd rfl hne
      | cons a as => simp
    have hl0 : Shape s p (as.take (j + 1) ++ as.drop (j + 1))
        (xs.take (j + 1) ++ xs.drop (j + 1)) t := by rw [e1, e2]; exact hl
    obtain ⟨s1, hev, hs1, -, -, hkeep⟩ := hl0.insertBefore_mid hl1 hne1 x
    obtain ⟨n, hn, -, -⟩ := hl0.cell_at hl1
    obtain ⟨n1, hn1, hv⟩ := hkeep _ _ hn
    have hs2 : Shape s1 p ((as.take (j + 1) ++ [s.heap.brk]) ++ as.drop (j + 1))
        ((xs.take (j + 1) ++ [x]) ++ xs.drop (j + 1)) t := by simpa using hs1
    obtain ⟨n2, hn2, hp2, -⟩ := hs2.cell_at (by simp [hl1])
    obtain ⟨n3, hn3, -, hv3⟩ := hs1.cell_at hl1
    rw [hn1] at hn2
    have hn12 : n1 = n2 := Option.some.inj hn2
    refine ⟨s1, hev, ?_, hs1.iterates, dangling_live hn1, ?_, ?_, ?_, dangling_fresh hl.wf⟩
    · have hlen2 := congrArg List.length e2
      simp only [List.length_append] at hlen2
      simp only [size, hs1.len, hl.len, List.length_append, List.length_cons]
      omega
    · rw [dereference_live hn1, dereference_live hn, hv]
    · rw [decrement_live hn1, hn12, hp2, lastOr_snoc]
    · rw [firstOr_cons] at hn3
      rw [dereference_live hn3, hv3 x _ rfl]


theorem Shape.insertAfter_mid {α : Type} [Inhabited α] {s : LState α} {p : Option Nat}
    {as1 as2 : List Nat} {c : Nat} {xs1 xs2 : List α} {xc : α} {t : Nat}
    (hl : Shape s p (as1 ++ c :: as2) (xs1 ++ xc :: xs2) t) (hlen : as1.length = xs1.length)
    (x : α) :
    ∃ s1, insertAfter s (some c) x = Outcome.ok () s1 ∧
      Shape s1 p (as1 ++ c :: s.heap.brk :: as2) (xs1 ++ xc :: x :: xs2) t := by
  have hl1 : Shape s p (as1 ++ [c] ++ as2) (xs1 ++ [xc] ++ xs2) t := by simpa using hl
  have hc := hl1.next_of_last hlen
  obtain ⟨v, ht⟩ := hl.term
  have hct : c ≠ t := fun e => (List.nodup_cons.1 hl.nodup).1 (by simp [e])
  obtain ⟨s1, hev, hs1, -⟩ := hl1.insertBefore_mid (by simp [hlen]) (by simp) x
  refine ⟨s1, ?_, by simpa using hs1⟩
  simp only [insertAfter, cend, hl.terminator, cursorEq_live hc ht, hct, decide_False,
    increment_live hc]
  simpa using hev


theorem Shape.reassoc {α : Type} {s : LState α} {p : Option Nat} {as1 as2 : List Nat}
    {c : Nat} {xs1 xs2 : List α} {x : α} {t : Nat}
    (hl : Shape s p (as1 ++ c :: as2) (xs1 ++ x :: xs2) t) :
    Shape s p (as1 ++ [c] ++ as2) (xs1 ++ [x] ++ xs2) t := by
  rw [List.append_assoc, List.append_assoc]
  exact hl

theorem fillLoop_eq {α : Type} [Inhabited α] (n : Nat) (s : LState α) (v : α) :
    fillLoop n s v = pushTailAll s (List.replicate n v) := by
  induction n generalizing s with
  | zero => rfl
  | succ n ih =>
    simp only [fillLoop, List.replicate_succ, pushTailAll]
    cases pushTail s v with
    | ok r s1 => exact ih s1
    | throw e s1 => rfl
    | ub => rfl

theorem fillConstruct_rep {α : Type} [Inhabited α] (n : Nat) (v : α) :
    ∃ s, fillConstruct Heap.empty n v = Outcome.ok () s ∧ Rep s (List.replicate n v) := by
  unfold fillConstruct
  rw [fillLoop_eq]
  exact constructFrom_rep (List.replicate n v)

theorem iterate_cells {α : Type} (cells : Nat → Option (Node α)) (b b1 : Nat) (stop : Cursor)
    (fuel : Nat) (c : Cursor) :
    iterate ⟨cells, b⟩ stop fuel c = iterate ⟨cells, b1⟩ stop fuel c := by
  induction fuel generalizing c with
  | zero => rfl
  | succ fuel ih =>
    simp only [iterate, cursorEq, Heap.lock, Heap.lockNode, dereference, increment,
      validateIterator, Heap.expired, ih]

theorem iterate_mono {α : Type} (h : Heap α) (stop : Cursor) (fuel : Nat) (c : Cursor)
    (r : Except Exc (List α)) (hr : iterate h stop fuel c = some r) :
    iterate h stop (fuel + 1) c = some r := by
  induction fuel generalizing c r with
  | zero => simp [iterate] at hr
  | succ fuel ih =>
    rw [iterate] at hr ⊢
    split at hr
    · rename_i hc
      simp [hc, hr]
    · rename_i hc
      simp only [hc]
      cases hd : dereference h c with
      | ok x c1 =>
        simp only [hd] at hr ⊢
        cases hi : increment h c with
        | ok u c2 =>
          simp only [hi] at hr ⊢
          cases hrec : iterate h stop fuel c2 with
          | none => simp [hrec] at hr
          | some r1 =>
            rw [ih c2 r1 hrec]
            rw [hrec] at hr
            exact hr
        | throw e c2 => simpa [hi] using hr
        | ub => simp [hi] at hr
      | throw e c1 => simpa [hd] using hr
      | ub => simp [hd] at hr

theorem ofOption_raised {σ ρ : Type} (o : Option (ρ × σ)) : (Outcome.ofOption o).raised = none := by
  cases o with
  | none => rfl
  | some v => rfl

theorem insertBefore_dead {α : Type} [Inhabited α] (s : LState α) (p : Cursor) (x : α)
    (hw : s.heap.WF) (hp : s.heap.Dead p) :
    ∃ s1, insertBefore s p x = Outcome.throw Exc.DanglingIteratorException s1 ∧
      s1.l = s.l ∧ s1.heap.cells = s.heap.cells ∧ s1.heap.brk = s.heap.brk + 1 := by
  have hexp : (s.heap.alloc ⟨x, none, none⟩).1.expired p = true := by
    cases p with
    | none => rfl
    | some a =>
      obtain ⟨h1, h2⟩ := hp a rfl
      simp [Heap.expired, Heap.lockNode, h1.ne, h2]
  have hrel : (s.heap.alloc ⟨x, none, none⟩).1.release (some s.heap.brk) =
      (s.heap.alloc ⟨x, none, none⟩).1.free s.heap.brk :=
    Heap.release_single _ _ ⟨x, none, none⟩ (by simp) (by simp) rfl
  refine ⟨⟨(s.heap.alloc ⟨x, none, none⟩).1.free s.heap.brk, s.l⟩, ?_, rfl, ?_, rfl⟩
  · simp [insertBefore, insertBeforeNode, Node.create, validateIterator, hexp, hrel]
  · funext c
    by_cases hc : c = s.heap.brk
    · simp [hc, hw s.heap.brk (Nat.le_refl _)]
    · simp [hc]

theorem insertBeforeNode_raised {α : Type} [Inhabited α] (s : LState α) (p : Cursor) (node : Nat)
    (hv : validateIterator s.heap p = none) : (insertBeforeNode s p node).raised = none := by
  unfold insertBeforeNode
  rw [hv]
  show (if cursorEq s.heap p (cbegin s) = true then _ else _ : Outcome (LState α) Unit).raised = none
  split <;> exact ofOption_raised _

theorem insertBefore_live_raised {α : Type} [Inhabited α] (s : LState α) (p : Cursor) (x : α)
    (hlive : dangling s.heap p = false) : (insertBefore s p x).raised = none := by
  obtain ⟨a, n, rfl, hn⟩ : ∃ a n, p = some a ∧ s.heap.cells a = some n := by
    unfold dangling Heap.expired Heap.lockNode at hlive
    cases p with
    | none => simp at hlive
    | some a =>
      cases hc : s.heap.cells a with
      | none => simp [hc] at hlive
      | some n => exact ⟨a, n, rfl, hc⟩
  obtain ⟨n1, hn1⟩ : ∃ n1, (if a = s.heap.brk then some (⟨x, none, none⟩ : Node α)
      else s.heap.cells a) = some n1 := by
    by_cases h : a = s.heap.brk
    · exact ⟨⟨x, none, none⟩, by simp [h]⟩
    · exact ⟨n, by simp [h, hn]⟩
  have hv : validateIterator (s.heap.alloc ⟨x, none, none⟩).1 (some a) = none := by
    simp [validateIterator, Heap.expired, Heap.lockNode, hn1]
  have hr := insertBeforeNode_raised ⟨(s.heap.alloc ⟨x, none, none⟩).1, s.l⟩ (some a)
    s.heap.brk hv
  unfold insertBefore
  simp only [Node.create, Heap.snd_alloc]
  cases ho : insertBeforeNode ⟨(s.heap.alloc ⟨x, none, none⟩).1, s.l⟩ (some a) s.heap.brk with
  | ok r s1 => rfl
  | throw e s1 => rw [ho] at hr; simp [Outcome.raised] at hr
  | ub => rfl

/-! ## Frames: what a call on one list leaves of the rest of the heap -/

theorem Rep.wf {α : Type} {s : LState α} {xs : List α} (hr : Rep s xs) : s.heap.WF := by
  rcases hr with ⟨-, hw, -⟩ | ⟨p, as, t, hl⟩
  · exact hw
  · exact hl.shape.wf

theorem Linked.insertBefore_member {α : Type} [Inhabited α] {s : LState α} {q : Option Nat}
    {as : List Nat} {xs : List α} {t : Nat} (hlk : Linked s q as xs t) (c : Nat)
    (hc : c ∈ t :: as) (x : α) : ∃ s1, insertBefore s (some c) x = Outcome.ok () s1 := by
  have hl := hlk.shape
  by_cases hne : as = []
  · subst hne
    have hct : c = t := by simpa using hc
    subst hct
    have hxs : xs = [] := by
      have := hl.chain.length_eq
      simpa [eq_comm] using this
    subst hxs
    obtain ⟨v, hv⟩ := hl.term
    have hb : cbegin s = some c := hl.head
    obtain ⟨s1, -, h1, -⟩ := Rep.push_empty (Or.inr ⟨_, _, _, hlk⟩) x
    refine ⟨s1, ?_⟩
    rw [← hb, insertBefore_begin s x (by rw [hb]; exact dangling_live hv), h1]
  · obtain ⟨i, hi, hci⟩ : ∃ i, i ≤ as.length ∧ firstOr t (as.drop i) = c := by
      rcases List.mem_cons.1 hc with h | h
      · exact ⟨as.length, Nat.le_refl _, by simp [h]⟩
      · obtain ⟨i, hi, rfl⟩ := List.mem_iff_getElem.1 h
        exact ⟨i, Nat.le_of_lt hi, by rw [List.drop_eq_getElem_cons hi, firstOr_cons]⟩
    obtain ⟨s1, h1, -⟩ := hlk.insertBefore_at hne i hi x
    exact ⟨s1, by rw [← hci]; exact h1⟩

theorem insertBefore_dead_elements {α : Type} [Inhabited α] (s : LState α) (p : Cursor) (x : α)
    (hw : s.heap.WF) (hp : s.heap.Dead p) :
    ∃ s1, insertBefore s p x = Outcome.throw Exc.DanglingIteratorException s1 ∧
      s1.l = s.l ∧ s1.heap.cells = s.heap.cells ∧ size s1 = size s ∧
      ∀ r, elements s = some r → elements s1 = some r := by
  obtain ⟨s1, h1, h2, h3, h4⟩ := insertBefore_dead s p x hw hp
  refine ⟨s1, h1, h2, h3, by simp [size, h2], ?_⟩
  intro r hr
  obtain ⟨⟨cells1, b1⟩, l1⟩ := s1
  obtain ⟨⟨cells, b⟩, l⟩ := s
  simp only at h2 h3 h4
  subst h2 h3 h4
  unfold elements cend cbegin at hr ⊢
  simp only at hr ⊢
  rw [iterate_cells cells1 (b + 1) b]
  exact iterate_mono _ _ _ _ _ hr

theorem Heap.Frame.refl {α : Type} (h : Heap α) (F : List Nat) : h.Frame h F :=
  ⟨Nat.le_refl _, fun _ _ _ => rfl⟩

theorem Heap.Frame.trans {α : Type} {h h1 h2 : Heap α} {F F1 : List Nat}
    (h01 : h.Frame h1 F) (h12 : h1.Frame h2 F1) (hF : ∀ c ∈ F1, c ∈ F ∨ h.brk ≤ c) :
    h.Frame h2 F := by
  refine ⟨Nat.le_trans h01.1 h12.1, fun c hc hn => ?_⟩
  rw [h12.2 c (Nat.lt_of_lt_of_le hc h01.1) ?_, h01.2 c hc hn]
  intro hm
  rcases hF c hm with h | h
  · exact hn h
  · omega

theorem Heap.Frame.mono {α : Type} {h h1 : Heap α} {F G : List Nat}
    (hf : h.Frame h1 F) (hs : ∀ c ∈ F, c ∈ G) : h.Frame h1 G :=
  ⟨hf.1, fun c hc hn => hf.2 c hc fun hm => hn (hs c hm)⟩

theorem RepF.rep {α : Type} {s : LState α} {xs : List α} {F : List Nat} (hr : RepF s xs F) :
    Rep s xs := by
  rcases hr with ⟨h1, h2, h3, h4, h5, -⟩ | ⟨p, as, t, hl, -⟩
  · exact Or.inl ⟨h1, h2, h3, h4, h5⟩
  · exact Or.inr ⟨p, as, t, hl⟩

theorem Rep.repF {α : Type} {s : LState α} {xs : List α} (hr : Rep s xs) :
    ∃ F, RepF s xs F := by
  rcases hr with ⟨h1, h2, h3, h4, h5⟩ | ⟨p, as, t, hl⟩
  · exact ⟨[], Or.inl ⟨h1, h2, h3, h4, h5, rfl⟩⟩
  · exact ⟨t :: as, Or.inr ⟨p, as, t, hl, rfl⟩⟩

theorem RepF.live_of_mem {α : Type} {s : LState α} {xs : List α} {F : List Nat} (hr : RepF s xs F) :
    ∀ c ∈ F, ∃ n, s.heap.cells c = some n := by
  rcases hr with ⟨-, -, -, -, -, rfl⟩ | ⟨p, as, t, hl, rfl⟩
  · intro c hc; simp at hc
  · intro c hc
    rcases List.mem_cons.1 hc with rfl | h
    · obtain ⟨v, hv⟩ := hl.shape.term
      exact ⟨_, hv⟩
    · exact hl.shape.chain.live c h

theorem RepF.lt_brk {α : Type} {s : LState α} {xs : List α} {F : List Nat} (hr : RepF s xs F) :
    ∀ c ∈ F, c < s.heap.brk := by
  intro c hc
  obtain ⟨n, hn⟩ := hr.live_of_mem c hc
  exact hr.rep.wf.lt hn

theorem Heap.Dead.dead_frame {α : Type} {h h1 : Heap α} {G : List Nat} {p : Option Nat}
    (hd : h.Dead p) (hf : h.Frame h1 G) (hG : ∀ c ∈ G, ∃ n, h.cells c = some n) :
    h1.Dead p := by
  intro q hq
  obtain ⟨h2, h3⟩ := hd q hq
  refine ⟨Nat.lt_of_lt_of_le h2 hf.1, ?_⟩
  rw [hf.2 q h2 ?_, h3]
  intro hm
  obtain ⟨n, hn⟩ := hG q hm
  rw [h3] at hn
  exact absurd hn (by simp)

/-- A list is not disturbed by what happens to nodes that are not its own. -/
theorem RepF.frame {α : Type} {h h1 : Heap α} {l : ListObj} {xs : List α} {F G : List Nat}
    (hr : RepF ⟨h, l⟩ xs F) (hf : h.Frame h1 G) (hw : h1.WF)
    (hFG : ∀ c ∈ F, c ∉ G) (hG : ∀ c ∈ G, ∃ n, h.cells c = some n) :
    RepF ⟨h1, l⟩ xs F := by
  have hlt := hr.lt_brk
  rcases hr with ⟨h1', h2, h3, h4, h5, h6⟩ | ⟨p, as, t, hl, rfl⟩
  · exact Or.inl ⟨h1', hw, h3, h4, h5.dead_frame hf hG, h6⟩
  · have hsame : ∀ c ∈ t :: as, h1.cells c = h.cells c :=
      fun c hc => hf.2 c (hlt c hc) (hFG c hc)
    refine Or.inr ⟨p, as, t, ⟨⟨hw, hl.shape.nodup, ?_, ?_, hl.shape.dead.dead_frame hf hG,
      hl.shape.head, hl.shape.terminator, hl.shape.len⟩, hl.tail⟩, rfl⟩
    · exact hl.shape.chain.congr fun c hc => hsame c (List.mem_cons_of_mem _ hc)
    · obtain ⟨v, hv⟩ := hl.shape.term
      exact ⟨v, by rw [hsame t (List.mem_cons_self _ _)]; exact hv⟩

theorem RepF.release_head_frame {α : Type} {s : LState α} {F : List Nat} (hr : RepF s [] F)
    (x : α) (c : Nat) (hc : c < s.heap.brk) (hn : c ∉ F) :
    ((s.heap.alloc ⟨x, none, none⟩).1.release s.l.mHead).cells c = s.heap.cells c := by
  rcases hr with ⟨-, hw, hlen, hh, -, -⟩ | ⟨p, as, t, hlk, rfl⟩
  · rw [hh, Heap.release_none]
    simp [hc.ne]
  · have hl := hlk.shape
    have has : as = [] := by
      have := hl.chain.length_eq
      simpa using this
    subst has
    obtain ⟨v, ht⟩ := hl.term
    have htb := hl.wf.lt ht
    have hh : s.l.mHead = some t := hl.head
    have hct : c ≠ t := fun e => hn (by simp [e])
    rw [hh, Heap.release_single _ t ⟨v, none, lastOr p []⟩ (by simp) (by simp [htb.ne, ht]) rfl]
    simp [hct, hc.ne]

theorem RepF.push_empty_frame {α : Type} [Inhabited α] {s : LState α} {F : List Nat}
    (hr : RepF s [] F) (x : α) :
    ∃ s1, pushTail s x = Outcome.ok () s1 ∧ pushHead s x = Outcome.ok () s1 ∧
      Linked s1 none [s.heap.brk] [x] (s.heap.brk + 1) ∧ s.heap.Frame s1.heap F := by
  obtain ⟨hw, hb, hc, hlen⟩ := hr.rep.release_head x
  have hfr := hr.release_head_frame x
  have hie := insertInEmpty_eq ⟨(s.heap.alloc ⟨x, none, none⟩).1, s.l⟩ s.heap.brk x hc
    (by simp only [hb]; omega)
  have hlk := linked_single _ s.heap.brk x hw (by simp only [hb]; omega)
  simp only [hb] at hie hlk
  refine ⟨_, ?_, ?_, hlk, ?_, ?_⟩
  · simp [pushTail, Node.create, pushTailNode, empty, hlen, hie, Outcome.ofOption]
  · simp [pushHead, Node.create, pushHeadNode, empty, hlen, hie, Outcome.ofOption]
  · simp [hb]; omega
  · intro c hlt hn
    have h1 : c ≠ s.heap.brk := by omega
    have h2 : c ≠ s.heap.brk + 1 := by omega
    have h3 : c ≠ ((s.heap.alloc ⟨x, none, none⟩).1.release s.l.mHead).brk := by rw [hb]; omega
    simp [h1, h2, h3, hfr c hlt hn]

theorem Linked.pushTail_keeps {α : Type} [Inhabited α] {s : LState α} {p : Option Nat}
    {as : List Nat} {xs : List α} {t : Nat} (hlk : Linked s p as xs t) (hne : as ≠ []) (x : α)
    (s1 : LState α) (h1 : pushTail s x = Outcome.ok () s1) : s.heap.Frame s1.heap (t :: as) := by
  have hl := hlk.shape
  obtain ⟨as1, a, xs1, xl, rfl, rfl, hlen, hc1, ha⟩ := hl.snoc_cases hne
  obtain ⟨v, ht⟩ := hl.term
  have htail := hlk.tail
  rw [lastOr_snoc] at ht htail
  have hab := hl.wf.lt ha
  have htb := hl.wf.lt ht
  have hnd := hl.nodup
  have hta : t ≠ a := by simp at hnd; tauto
  have hlen0 : s.l.mLen ≠ 0 := by rw [hl.len]; simp
  simp [pushTail, Node.create, pushTailNode, empty, popTerminator, addTerminator, Heap.lockNode,
    Heap.takeNext, Heap.setPrev, Heap.setNext, Outcome.ofOption, htail, ha, ht, hlen0, hab.ne,
    hab.ne', htb.ne, htb.ne', hta, hta.symm] at h1
  subst h1
  refine ⟨by simp, fun c hc hn => ?_⟩
  have h2 : c ≠ a := fun e => hn (by simp [e])
  have h3 : c ≠ t := fun e => hn (by simp [e])
  simp [h2, h3, hc.ne]

theorem RepF.pushTail_frame {α : Type} [Inhabited α] {s : LState α} {xs : List α} {F : List Nat}
    (hr : RepF s xs F) (x : α) :
    ∃ s1 F1, pushTail s x = Outcome.ok () s1 ∧ RepF s1 (xs ++ [x]) F1 ∧
      s.heap.Frame s1.heap F ∧ ∀ c ∈ F1, c ∈ F ∨ s.heap.brk ≤ c := by
  have hempty : ∀ F, RepF s [] F → ∃ s1 F1, pushTail s x = Outcome.ok () s1 ∧
      RepF s1 ([] ++ [x]) F1 ∧ s.heap.Frame s1.heap F ∧ ∀ c ∈ F1, c ∈ F ∨ s.heap.brk ≤ c := by
    intro F hr
    obtain ⟨s1, h1, -, h3, h4⟩ := hr.push_empty_frame x
    refine ⟨s1, _, h1, Or.inr ⟨_, _, _, h3, rfl⟩, h4, ?_⟩
    intro c hc
    simp at hc
    omega
  rcases hr with ⟨rfl, h⟩ | ⟨p, as, t, hlk, rfl⟩
  · exact hempty F (Or.inl ⟨rfl, h⟩)
  · by_cases hne : as = []
    · subst hne
      have hxs : xs = [] := by
        have := hlk.shape.chain.length_eq
        simpa [eq_comm] using this
      subst hxs
      exact hempty _ (Or.inr ⟨_, _, _, hlk, rfl⟩)
    · obtain ⟨s1, h1, h2⟩ := hlk.pushTail_linked hne x
      refine ⟨s1, _, h1, Or.inr ⟨_, _, _, h2, rfl⟩, hlk.pushTail_keeps hne x s1 h1, ?_⟩
      intro c hc
      simp at hc
      rcases hc with h | h | h
      · left; simp [h]
      · left; simp [h]
      · right; omega

/-- A chain is not disturbed by what happens to nodes outside it. -/
theorem Linked.linked_frame {α : Type} {h h1 : Heap α} {l : ListObj} {p : Option Nat} {as : List Nat}
    {xs : List α} {t : Nat} {G : List Nat}
    (hl : Linked ⟨h, l⟩ p as xs t) (hf : h.Frame h1 G) (hw : h1.WF)
    (hFG : ∀ c ∈ t :: as, c ∉ G) (hG : ∀ c ∈ G, ∃ n, h.cells c = some n) :
    Linked ⟨h1, l⟩ p as xs t := by
  have hlt : ∀ c ∈ t :: as, c < h.brk := by
    intro c hc
    rcases List.mem_cons.1 hc with rfl | hc
    · exact hl.shape.term_lt
    · exact hl.shape.addr_lt c hc
  have hsame : ∀ c ∈ t :: as, h1.cells c = h.cells c :=
    fun c hc => hf.2 c (hlt c hc) (hFG c hc)
  refine ⟨⟨hw, hl.shape.nodup, ?_, ?_, hl.shape.dead.dead_frame hf hG,
    hl.shape.head, hl.shape.terminator, hl.shape.len⟩, hl.tail⟩
  · exact hl.shape.chain.congr fun c hc => hsame c (List.mem_cons_of_mem _ hc)
  · obtain ⟨v, hv⟩ := hl.shape.term
    exact ⟨v, by rw [hsame t (List.mem_cons_self _ _)]; exact hv⟩

theorem forEachPushTail_linked {α : Type} [Inhabited α] (lb : ListObj) (pb : Option Nat)
    (bs : List Nat) (ys : List α) (tb : Nat) (bs2 : List Nat) :
    ∀ (bs1 : List Nat) (ys1 ys2 : List α) (s : LState α) (xs : List α) (Fa : List Nat)
      (fuel : Nat),
      bs = bs1 ++ bs2 → ys = ys1 ++ ys2 → bs1.length = ys1.length →
      RepF s xs Fa → Linked ⟨s.heap, lb⟩ pb bs ys tb → (∀ c ∈ Fa, c ∉ tb :: bs) →
      bs2.length < fuel →
      ∃ s1 F1, forEachPushTail (some tb) fuel s (some (firstOr tb bs2)) = some (Outcome.ok () s1) ∧
        RepF s1 (xs ++ ys2) F1 ∧ Linked ⟨s1.heap, lb⟩ pb bs ys tb ∧ (∀ c ∈ F1, c ∉ tb :: bs) ∧
        s.heap.Frame s1.heap Fa ∧ ∀ c ∈ F1, c ∈ Fa ∨ s.heap.brk ≤ c := by
  induction bs2 with
  | nil =>
    intro bs1 ys1 ys2 s xs Fa fuel hbs hys hlen hr hlk hdis hfuel
    obtain ⟨k, rfl⟩ : ∃ k, fuel = k + 1 := ⟨fuel - 1, by omega⟩
    obtain ⟨v, hv⟩ := hlk.shape.term
    have hys2 : ys2 = [] := by
      have h1 := hlk.shape.chain.length_eq
      rw [hbs, hys] at h1
      simp [hlen] at h1
      exact h1
    subst hys2
    refine ⟨s, Fa, ?_, by simpa using hr, hlk, hdis, Heap.Frame.refl _ _, fun c hc => Or.inl hc⟩
    have hv1 : s.heap.cells tb = some _ := hv
    simp [forEachPushTail, cursorEq_live hv1 hv1]
  | cons c bs3 ih =>
    intro bs1 ys1 ys2 s xs Fa fuel hbs hys hlen hr hlk hdis hfuel
    obtain ⟨k, rfl⟩ : ∃ k, fuel = k + 1 := ⟨fuel - 1, by omega⟩
    obtain ⟨v, hv⟩ := hlk.shape.term
    have hv1 : s.heap.cells tb = some _ := hv
    obtain ⟨y, ys3, rfl⟩ : ∃ y ys3, ys2 = y :: ys3 := by
      have h1 := hlk.shape.chain.length_eq
      rw [hbs, hys] at h1
      cases ys2 with
      | nil => simp [hlen] at h1
      | cons y ys3 => exact ⟨y, ys3, rfl⟩
    subst hbs hys
    have hcell : s.heap.cells c = some ⟨y, some (firstOr tb bs3), lastOr pb bs1⟩ :=
      Shape.next_of_last (s := ⟨s.heap, lb⟩) hlk.shape.reassoc hlen
    have hct : c ≠ tb := fun e => (List.nodup_cons.1 hlk.shape.nodup).1 (by simp [e])
    obtain ⟨s1, F1, h1, h2, h3, h4⟩ := hr.pushTail_frame y
    have hw1 : s1.heap.WF := h2.rep.wf
    have hlk1 : Linked ⟨s1.heap, lb⟩ pb (bs1 ++ c :: bs3) (ys1 ++ y :: ys3) tb :=
      hlk.linked_frame h3 hw1 (fun d hd hm => hdis d hm hd) hr.live_of_mem
    have hcell1 : s1.heap.cells c = some ⟨y, some (firstOr tb bs3), lastOr pb bs1⟩ :=
      Shape.next_of_last (s := ⟨s1.heap, lb⟩) hlk1.shape.reassoc hlen
    have hlt : ∀ d ∈ tb :: (bs1 ++ c :: bs3), d < s.heap.brk := by
      intro d hd
      rcases List.mem_cons.1 hd with rfl | hd
      · exact hlk.shape.term_lt
      · exact hlk.shape.addr_lt d hd
    have hdis1 : ∀ d ∈ F1, d ∉ tb :: (bs1 ++ c :: bs3) := by
      intro d hd hm
      rcases h4 d hd with h | h
      · exact hdis d h hm
      · exact absurd (hlt d hm) (by omega)
    obtain ⟨s2, F2, g1, g2, g3, g4, g5, g6⟩ := ih (bs1 ++ [c]) (ys1 ++ [y]) ys3 s1 (xs ++ [y]) F1 k
      (by simp) (by simp) (by simp [hlen]) h2 hlk1 hdis1 (by simp at hfuel; omega)
    refine ⟨s2, F2, ?_, by simpa using g2, g3, g4, h3.trans g5 h4, ?_⟩
    · rw [firstOr_cons, forEachPushTail, cursorEq_live hcell hv1]
      simp only [hct, decide_False, dereference_live hcell, h1, increment_live hcell1]
      simpa using g1
    · intro d hd
      rcases g6 d hd with h | h
      · exact h4 d h
      · right
        have := h3.1
        omega

theorem releaseAux_chain {α : Type} (t : Nat) (as : List Nat) :
    ∀ (p : Option Nat) (xs : List α) (h : Heap α) (fuel : Nat),
      Chain h p as xs t → (∃ v q, h.cells t = some ⟨v, none, q⟩) → (t :: as).Nodup →
      as.length < fuel →
      (Heap.releaseAux fuel h (some (firstOr t as))).brk = h.brk ∧
      ∀ c, (Heap.releaseAux fuel h (some (firstOr t as))).cells c =
        if c ∈ t :: as then none else h.cells c := by
  induction as with
  | nil =>
    intro p xs h fuel _ ht _ hfuel
    obtain ⟨v, q, ht⟩ := ht
    obtain ⟨k, rfl⟩ : ∃ k, fuel = k + 1 := ⟨fuel - 1, by omega⟩
    have : Heap.releaseAux (k + 1) h (some t) = h.free t := by
      simp only [Heap.releaseAux, ht]
      cases k <;> rfl
    rw [firstOr_nil, this]
    exact ⟨rfl, fun c => by simp⟩
  | cons a as ih =>
    intro p xs h fuel hc ht hnd hfuel
    obtain ⟨v, q, ht⟩ := ht
    obtain ⟨k, rfl⟩ : ∃ k, fuel = k + 1 := ⟨fuel - 1, by omega⟩
    cases xs with
    | nil => exact absurd hc (by simp [Chain])
    | cons x xs =>
      have hnd1 := List.nodup_cons.1 hnd
      have hnd2 := List.nodup_cons.1 hnd1.2
      have hta : t ≠ a := fun e => hnd1.1 (by simp [e])
      have hstep : Heap.releaseAux (k + 1) h (some a) =
          Heap.releaseAux k (h.free a) (some (firstOr t as)) := by
        simp only [Heap.releaseAux, hc.1]
      have hc2 : Chain (h.free a) (some a) as xs t :=
        hc.2.congr fun b hb => by
          have : b ≠ a := fun e => hnd2.1 (e ▸ hb)
          simp [this]
      obtain ⟨g1, g2⟩ := ih (some a) xs (h.free a) k hc2 ⟨v, q, by simp [hta, ht]⟩
        (List.nodup_cons.2 ⟨fun hm => hnd1.1 (List.mem_cons_of_mem _ hm), hnd2.2⟩)
        (by simp at hfuel; omega)
      rw [firstOr_cons, hstep]
      refine ⟨g1, fun c => ?_⟩
      rw [g2 c]
      by_cases h1 : c = t
      · simp [h1]
      · by_cases h2 : c = a
        · simp [h1, h2]
        · simp [h1, h2]

theorem RepF.release_all {α : Type} {s : LState α} {xs : List α} {F : List Nat}
    (hr : RepF s xs F) :
    (s.heap.release s.l.mHead).brk = s.heap.brk ∧
      ∀ c, (s.heap.release s.l.mHead).cells c = if c ∈ F then none else s.heap.cells c := by
  rcases hr with ⟨-, -, -, hh, -, rfl⟩ | ⟨p, as, t, hlk, rfl⟩
  · rw [hh, Heap.release_none]
    exact ⟨rfl, fun c => by simp⟩
  · have hl := hlk.shape
    obtain ⟨v, hv⟩ := hl.term
    rw [hl.head]
    exact releaseAux_chain t as p xs s.heap s.heap.brk hl.chain ⟨v, _, hv⟩ hl.nodup hl.length_lt

theorem RepF.release_wf {α : Type} {s : LState α} {xs : List α} {F : List Nat}
    (hr : RepF s xs F) : (s.heap.release s.l.mHead).WF := by
  obtain ⟨h1, h2⟩ := hr.release_all
  intro c hc
  rw [h2 c]
  rw [h1] at hc
  simp [hr.rep.wf c hc]

theorem RepF.release_frame {α : Type} {s : LState α} {xs : List α} {F : List Nat}
    (hr : RepF s xs F) : s.heap.Frame (s.heap.release s.l.mHead) F := by
  obtain ⟨h1, h2⟩ := hr.release_all
  refine ⟨by rw [h1], fun c _ hn => ?_⟩
  rw [h2 c]
  simp [hn]

theorem RepF.nil_of_wf {α : Type} {h : Heap α} (hw : h.WF) :
    RepF ⟨h, ⟨none, none, none, 0⟩⟩ ([] : List α) [] :=
  Or.inl ⟨rfl, hw, rfl, rfl, fun a ha => by simp at ha, rfl⟩

theorem RepF.clear_ok {α : Type} {s : LState α} {xs : List α} {F : List Nat}
    (hr : RepF s xs F) :
    ∃ s1, clear s = Outcome.ok () s1 ∧ RepF s1 [] [] ∧ s.heap.Frame s1.heap F ∧
      ∀ c ∈ F, s1.heap.cells c = none := by
  refine ⟨_, rfl, RepF.nil_of_wf hr.release_wf, hr.release_frame, fun c hc => ?_⟩
  rw [hr.release_all.2 c]
  simp [hc]

theorem RepF.begin_eq_end_of_nil {α : Type} {s : LState α} {F : List Nat} (hr : RepF s [] F) :
    cursorEq s.heap (cbegin s) (cend s) = true := by
  rcases hr with ⟨-, -, -, hh, hd, -⟩ | ⟨p, as, t, hlk, -⟩
  · have : s.heap.lock s.l.mTerminator = none := by
      cases ht : s.l.mTerminator with
      | none => rfl
      | some a => simp [Heap.lock, Heap.lockNode, (hd a ht).2]
    have h0 : s.heap.lock none = none := rfl
    simp [cursorEq, cbegin, cend, hh, this, h0]
  · have has : as = [] := by
      have := hlk.shape.chain.length_eq
      simpa using this
    subst has
    simp [cursorEq, cbegin, cend, hlk.shape.head, hlk.shape.terminator]

theorem forEachPushTail_repF {α : Type} [Inhabited α] {s : LState α} {xs ys : List α}
    {Fa Fb : List Nat} (lb : ListObj) (hr : RepF s xs Fa) (hb : RepF ⟨s.heap, lb⟩ ys Fb)
    (hdis : ∀ c ∈ Fa, c ∉ Fb) (fuel : Nat) (hfuel : ys.length < fuel) :
    ∃ s1 F1, forEachPushTail (cend ⟨s.heap, lb⟩) fuel s (cbegin ⟨s.heap, lb⟩)
        = some (Outcome.ok () s1) ∧
      RepF s1 (xs ++ ys) F1 ∧ RepF ⟨s1.heap, lb⟩ ys Fb ∧ (∀ c ∈ F1, c ∉ Fb) ∧
      s.heap.Frame s1.heap Fa ∧ ∀ c ∈ F1, c ∈ Fa ∨ s.heap.brk ≤ c := by
  rcases hb with ⟨rfl, hw, hlen, hh, hd, rfl⟩ | ⟨pb, bs, tb, hlk, rfl⟩
  · obtain ⟨k, rfl⟩ : ∃ k, fuel = k + 1 := ⟨fuel - 1, by simp at hfuel; omega⟩
    have hb : RepF ⟨s.heap, lb⟩ ([] : List α) [] := Or.inl ⟨rfl, hw, hlen, hh, hd, rfl⟩
    refine ⟨s, Fa, ?_, by simpa using hr, hb, hdis, Heap.Frame.refl _ _, fun c hc => Or.inl hc⟩
    have := hb.begin_eq_end_of_nil
    simp only [forEachPushTail]
    simp [this]
  · have hlen := hlk.shape.chain.length_eq
    obtain ⟨s1, F1, h1, h2, h3, h4, h5, h6⟩ := forEachPushTail_linked lb pb bs ys tb bs [] [] ys
      s xs Fa fuel rfl rfl rfl hr hlk hdis (by omega)
    refine ⟨s1, F1, ?_, h2, Or.inr ⟨_, _, _, h3, rfl⟩, h4, h5, h6⟩
    show forEachPushTail lb.mTerminator fuel s lb.mHead = _
    rw [show lb.mTerminator = some tb from hlk.shape.terminator,
      show lb.mHead = some (firstOr tb bs) from hlk.shape.head]
    exact h1

theorem RepF.pushTailAll_frame {α : Type} [Inhabited α] (ys : List α) :
    ∀ (s : LState α) (xs : List α) (F : List Nat), RepF s xs F →
      ∃ s1 F1, pushTailAll s ys = Outcome.ok () s1 ∧ RepF s1 (xs ++ ys) F1 ∧
        s.heap.Frame s1.heap F ∧ ∀ c ∈ F1, c ∈ F ∨ s.heap.brk ≤ c := by
  induction ys with
  | nil =>
    intro s xs F hr
    exact ⟨s, F, rfl, by simpa using hr, Heap.Frame.refl _ _, fun c hc => Or.inl hc⟩
  | cons y ys ih =>
    intro s xs F hr
    obtain ⟨s1, F1, h1, h2, h3, h4⟩ := hr.pushTail_frame y
    obtain ⟨s2, F2, g1, g2, g3, g4⟩ := ih s1 (xs ++ [y]) F1 h2
    refine ⟨s2, F2, by simp [pushTailAll, h1, g1], by simpa using g2, h3.trans g3 h4, ?_⟩
    intro c hc
    rcases g4 c hc with h | h
    · exact h4 c h
    · right
      have := h3.1
      omega

/-- What an operation on one list leaves of another list on the same heap. -/
theorem RepF.other {α : Type} {h h1 : Heap α} {l lo : ListObj} {xs zs : List α}
    {F F1 G : List Nat} (hr : RepF ⟨h, l⟩ xs F) (ho : RepF ⟨h, lo⟩ zs G)
    (hdis : ∀ c ∈ F, c ∉ G) (hf : h.Frame h1 F) (hw : h1.WF)
    (hF1 : ∀ c ∈ F1, c ∈ F ∨ h.brk ≤ c) :
    RepF ⟨h1, lo⟩ zs G ∧ ∀ c ∈ F1, c ∉ G := by
  refine ⟨ho.frame hf hw (fun c hc hm => hdis c hm hc) hr.live_of_mem, ?_⟩
  intro c hc hm
  rcases hF1 c hc with h2 | h2
  · exact hdis c h2 hm
  · exact absurd (ho.lt_brk c hm) (by simp; omega)

/-! ## Several lists on one heap -/

@[simp] theorem World.get_put_same {α : Type} (w : World α) (i : Nat) (s : LState α) :
    (w.put i s).get i = s := by
  simp [World.get, World.put]

theorem World.get_put_ne {α : Type} (w : World α) {i j : Nat} (s : LState α) (h : j ≠ i) :
    (w.put i s).get j = ⟨s.heap, w.lists j⟩ := by
  simp [World.get, World.put, h]

@[simp] theorem World.heap_put {α : Type} (w : World α) (i : Nat) (s : LState α) :
    (w.put i s).heap = s.heap := rfl

theorem World.construct_ok {α : Type} [Inhabited α] (w : World α) (i : Nat) (xs : List α)
    (hw : w.heap.WF) :
    ∃ w1 F1, w.construct i xs = Outcome.ok () w1 ∧ RepF (w1.get i) xs F1 ∧
      w.heap.Frame w1.heap [] ∧ (∀ c ∈ F1, w.heap.brk ≤ c) ∧
      (∀ j, j ≠ i → w1.lists j = w.lists j) := by
  have h0 : RepF (⟨w.heap, ListObj.new⟩ : LState α) [] [] := RepF.nil_of_wf hw
  obtain ⟨s1, F1, h1, h2, h3, h4⟩ := RepF.pushTailAll_frame xs _ _ _ h0
  refine ⟨w.put i s1, F1, ?_, by simpa using h2, h3, ?_, ?_⟩
  · simp only [World.construct, World.run, constructFrom, World.get]
    rw [h1]
  · intro c hc
    rcases h4 c hc with h | h
    · simp at h
    · exact h
  · intro j hj
    simp [World.put, hj]

/-- Building a new list leaves a list that is already there as it is. -/
theorem World.construct_other {α : Type} [Inhabited α] (w : World α) (i j : Nat) (hij : j ≠ i)
    (xs zs : List α) (G : List Nat) (hj : RepF (w.get j) zs G) :
    ∃ w1 F1, w.construct i xs = Outcome.ok () w1 ∧ RepF (w1.get i) xs F1 ∧
      RepF (w1.get j) zs G ∧ (∀ c ∈ F1, c ∉ G) ∧ w1.lists j = w.lists j ∧
      w.heap.Frame w1.heap [] := by
  obtain ⟨w1, F1, h1, h2, h3, h4, h5⟩ := w.construct_ok i xs hj.rep.wf
  have h0 : RepF (⟨w.heap, ListObj.new⟩ : LState α) [] [] := RepF.nil_of_wf hj.rep.wf
  obtain ⟨g1, g2⟩ := RepF.other h0 hj (by simp) h3 h2.rep.wf
    (fun c hc => Or.inr (h4 c hc))
  refine ⟨w1, F1, h1, h2, ?_, g2, h5 j hij, h3⟩
  rw [World.get, h5 j hij]
  exact g1

theorem World.new_wf {α : Type} : (World.new : World α).heap.WF := Heap.WF.empty

/-- Two lists built one after the other on the empty heap. -/
theorem World.construct_two {α : Type} [Inhabited α] (a b : Nat) (hab : a ≠ b) (xs ys : List α) :
    ∃ w1 w2 Fa Fb, World.new.construct a xs = Outcome.ok () w1 ∧
      w1.construct b ys = Outcome.ok () w2 ∧
      RepF (w2.get a) xs Fa ∧ RepF (w2.get b) ys Fb ∧ (∀ c ∈ Fa, c ∉ Fb) := by
  obtain ⟨w1, Fa, h1, h2, -, -, -⟩ := (World.new : World α).construct_ok a xs World.new_wf
  obtain ⟨w2, Fb, g1, g2, g3, g4, -, -⟩ := w1.construct_other b a hab ys xs Fa h2
  exact ⟨w1, w2, Fa, Fb, h1, g1, g3, g2, fun c hc hm => g4 c hm hc⟩

/-- Copy append between two objects. -/
theorem appendCopy_sep {α : Type} [Inhabited α] (w : World α) (a b : Nat) (hab : a ≠ b)
    (xs ys : List α) (Fa Fb : List Nat) (ha : RepF (w.get a) xs Fa) (hb : RepF (w.get b) ys Fb)
    (hdis : ∀ c ∈ Fa, c ∉ Fb) (fuel : Nat) (hfuel : ys.length < fuel) :
    ∃ w1 F1, appendCopy fuel w a b = some (Outcome.ok () w1) ∧
      RepF (w1.get a) (xs ++ ys) F1 ∧ RepF (w1.get b) ys Fb ∧ (∀ c ∈ F1, c ∉ Fb) ∧
      w.heap.Frame w1.heap Fa ∧ (∀ c ∈ F1, c ∈ Fa ∨ w.heap.brk ≤ c) ∧
      ∀ j, j ≠ a → w1.lists j = w.lists j := by
  obtain ⟨s1, F1, h1, h2, h3, h4, h5, h6⟩ :=
    forEachPushTail_repF (s := w.get a) (w.lists b) ha hb hdis fuel hfuel
  refine ⟨w.put a s1, F1, ?_, by simpa using h2, ?_, h4, h5, h6, ?_⟩
  · unfold appendCopy
    have e : (w.get b) = ⟨(w.get a).heap, w.lists b⟩ := rfl
    rw [e, h1]
  · rw [World.get_put_ne _ _ hab.symm]
    exact h3
  · intro j hj
    simp [World.put, hj]

theorem RepF.bystander {α : Type} {h h1 : Heap α} {l : ListObj} {zs : List α} {G : List Nat}
    (hr : RepF ⟨h, l⟩ zs G) (hf : h.Frame h1 []) (hw : h1.WF) : RepF ⟨h1, l⟩ zs G :=
  hr.frame hf hw (fun _ _ hm => by simp at hm) (fun _ hm => by simp at hm)

theorem copyConstruct_sep {α : Type} [Inhabited α] (w : World α) (r a : Nat) (hra : r ≠ a)
    (xs : List α) (Fa : List Nat) (ha : RepF (w.get a) xs Fa) (fuel : Nat)
    (hfuel : xs.length < fuel) :
    ∃ w1 F1, copyConstruct fuel w r a = some (Outcome.ok () w1) ∧
      RepF (w1.get r) xs F1 ∧ RepF (w1.get a) xs Fa ∧ (∀ c ∈ F1, c ∉ Fa) ∧
      w.heap.Frame w1.heap [] ∧ (∀ c ∈ F1, w.heap.brk ≤ c) ∧
      ∀ j, j ≠ r → w1.lists j = w.lists j := by
  have h0 : RepF (⟨w.heap, ListObj.new⟩ : LState α) [] [] := RepF.nil_of_wf ha.rep.wf
  obtain ⟨s1, F1, h1, h2, h3, h4, h5, h6⟩ :=
    forEachPushTail_repF (s := ⟨w.heap, ListObj.new⟩) (w.lists a) h0 ha (by simp) fuel hfuel
  refine ⟨w.put r s1, F1, ?_, by simpa using h2, ?_, h4, h5, ?_, ?_⟩
  · unfold copyConstruct
    have e : (w.get a) = ⟨(⟨w.heap, ListObj.new⟩ : LState α).heap, w.lists a⟩ := rfl
    rw [e, h1]
  · rw [World.get_put_ne _ _ hra.symm]
    exact h3
  · intro c hc
    rcases h6 c hc with h | h
    · simp at h
    · exact h
  · intro j hj
    simp [World.put, hj]

theorem operatorPlus_sep {α : Type} [Inhabited α] (w : World α) (a b r : Nat) (hra : r ≠ a)
    (hrb : r ≠ b) (xs ys : List α) (Fa Fb : List Nat) (ha : RepF (w.get a) xs Fa)
    (hb : RepF (w.get b) ys Fb) (fuel : Nat) (hfx : xs.length < fuel) (hfy : ys.length < fuel) :
    ∃ w1 F1, operatorPlus fuel w a b r = some (Outcome.ok () w1) ∧
      RepF (w1.get r) (xs ++ ys) F1 ∧ RepF (w1.get a) xs Fa ∧ RepF (w1.get b) ys Fb := by
  obtain ⟨w1, F1, h1, h2, h3, h4, h5, h6, h7⟩ := copyConstruct_sep w r a hra xs Fa ha fuel hfx
  have hb1 : RepF (w1.get b) ys Fb := by
    have := hb.bystander h5 h2.rep.wf
    rw [World.get, h7 b hrb.symm]
    exact this
  have hdis : ∀ c ∈ F1, c ∉ Fb := by
    intro c hc hm
    have h8 := hb.lt_brk c hm
    have h9 := h6 c hc
    simp [World.get] at h8
    omega
  obtain ⟨w2, F2, g1, g2, g3, g4, g5, g6, g7⟩ :=
    appendCopy_sep w1 r b hrb xs ys F1 Fb h2 hb1 hdis fuel hfy
  refine ⟨w2, F2, ?_, g2, ?_, g3⟩
  · simp only [operatorPlus, h1, g1]
  · have := h3.frame g5 g2.rep.wf (fun c hc hm => h4 c hm hc) h2.live_of_mem
    rw [World.get, g7 a hra.symm]
    exact this

theorem appendRange_sep {α : Type} [Inhabited α] (w : World α) (a b : Nat) (hab : a ≠ b)
    (xs ys zs : List α) (Fa Fb : List Nat) (ha : RepF (w.get a) xs Fa)
    (hb : RepF (w.get b) zs Fb) (hdis : ∀ c ∈ Fa, c ∉ Fb) :
    ∃ w1 F1, World.run (fun s => appendRange s ys) w a = Outcome.ok () w1 ∧
      RepF (w1.get a) (xs ++ ys) F1 ∧ RepF (w1.get b) zs Fb ∧ (∀ c ∈ F1, c ∉ Fb) := by
  obtain ⟨s1, F1, h1, h2, h3, h4⟩ := RepF.pushTailAll_frame ys _ _ _ ha
  obtain ⟨g1, g2⟩ := RepF.other ha hb hdis h3 h2.rep.wf h4
  refine ⟨w.put a s1, F1, ?_, by simpa using h2, ?_, g2⟩
  · simp only [World.run, appendRange, h1]
  · rw [World.get_put_ne _ _ hab.symm]
    exact g1

/-! ## Move append -/

theorem appendMove_linked {α : Type} [Inhabited α] (w : World α) (a b : Nat) (hab : a ≠ b)
    {pa pb : Option Nat} {as bs : List Nat} {xs ys : List α} {ta tb : Nat}
    (hla : Linked (w.get a) pa as xs ta) (hna : as ≠ [])
    (hlb : Linked (w.get b) pb bs ys tb) (hnb : bs ≠ [])
    (hdis : ∀ c ∈ ta :: as, c ∉ tb :: bs) :
    ∃ w1, appendMove w a b = Outcome.ok () w1 ∧
      Linked (w1.get a) pa (as ++ bs) (xs ++ ys) tb ∧
      w1.lists b = ⟨none, none, none, 0⟩ ∧
      (∀ j, j ≠ a → j ≠ b → w1.lists j = w.lists j) ∧
      w.heap.Frame w1.heap (ta :: as ++ tb :: bs) ∧ w1.heap.cells ta = none := by
  have hsa := hla.shape
  have hsb := hlb.shape
  obtain ⟨as1, al, xs1, xl, rfl, rfl, hlen1, hca, hal⟩ := hsa.snoc_cases hna
  obtain ⟨va, hta⟩ := hsa.term
  obtain ⟨vb, htb⟩ := hsb.term
  have htail : (w.lists a).mTail = some al := by
    have := hla.tail
    rwa [lastOr_snoc] at this
  rw [lastOr_snoc] at hta
  cases bs with
  | nil => exact absurd rfl hnb
  | cons bh bs => cases ys with
    | nil => exact absurd hsb.chain (by simp [Chain])
    | cons y ys =>
      have hbh : w.heap.cells bh = some ⟨y, some (firstOr tb bs), pb⟩ := hsb.chain.1
      have hbhead : (w.lists b).mHead = some bh := hsb.head
      have hnda := hsa.nodup
      have hndb := hsb.nodup
      have hta_al : ta ≠ al := fun e => (List.nodup_cons.1 hnda).1 (by simp [e])
      have hbh_al : bh ≠ al := fun e => hdis al (by simp) (by simp [← e])
      have hbh_ta : bh ≠ ta := fun e => hdis ta (by simp) (by simp [← e])
      have htb_al : tb ≠ al := fun e => hdis al (by simp) (by simp [← e])
      have htb_ta : tb ≠ ta := fun e => hdis ta (by simp) (by simp [← e])
      have htb_bh : tb ≠ bh := fun e => (List.nodup_cons.1 hndb).1 (by simp [e])
      have hlena : (w.lists a).mLen ≠ 0 := by
        have := hsa.len
        simp [World.get] at this
        omega
      have hlenb : (w.lists b).mLen ≠ 0 := by
        have := hsb.len
        simp [World.get] at this
        omega
      have halb : al < w.heap.brk := hsa.wf.lt hal
      have hw : w.heap.WF := hsa.wf
      have hal1 : w.heap.cells al = some ⟨xl, some ta, lastOr pa as1⟩ := hal
      have hta1 : w.heap.cells ta = some ⟨va, none, some al⟩ := hta
      have hrel : (w.heap.write al ⟨xl, none, lastOr pa as1⟩).release (some ta) =
          (w.heap.write al ⟨xl, none, lastOr pa as1⟩).free ta :=
        Heap.release_single _ ta ⟨va, none, some al⟩ (by simp; omega) (by simp [hta_al, hta1]) rfl
      simp [appendMove, hab, empty, World.get, hlena, hlenb, popTerminator, Heap.lockNode,
        Heap.takeNext, Heap.setPrev, Heap.setNext, Outcome.ofOption, htail, hal1, hrel, hbhead,
        hbh, hbh_al, hbh_ta, hbh_al.symm, hbh_ta.symm, hta_al, hta_al.symm]
      have hlta : ∀ c ∈ ta :: (as1 ++ [al]), c < w.heap.brk := by
        intro c hc
        rcases List.mem_cons.1 hc with rfl | hc
        · exact hsa.term_lt
        · exact hsa.addr_lt c hc
      have hltb : ∀ c ∈ tb :: bh :: bs, c < w.heap.brk := by
        intro c hc
        rcases List.mem_cons.1 hc with rfl | hc
        · exact hsb.term_lt
        · exact hsb.addr_lt c hc
      have hnda1 := List.nodup_cons.1 hnda
      have hnda2 := List.nodup_append.1 hnda1.2
      have hndb1 := List.nodup_cons.1 hndb
      have hndb2 := List.nodup_cons.1 hndb1.2
      have has1 : ∀ c ∈ as1, c ≠ al ∧ c ≠ ta ∧ c ≠ bh := by
        intro c hc
        refine ⟨?_, ?_, ?_⟩
        · intro e; exact hnda2.2.2 hc (by simp [e])
        · intro e; exact hnda1.1 (by simp [← e, hc])
        · intro e; exact hdis c (by simp [hc]) (by simp [e])
      have hbs : ∀ c ∈ bs, c ≠ al ∧ c ≠ ta ∧ c ≠ bh := by
        intro c hc
        refine ⟨?_, ?_, ?_⟩
        · intro e; exact hdis al (by simp) (by simp [← e, hc])
        · intro e; exact hdis ta (by simp) (by simp [← e, hc])
        · intro e; exact hndb2.1 (e ▸ hc)
      have htb1 : w.heap.cells tb = some ⟨vb, none, lastOr pb (bh :: bs)⟩ := htb
      refine ⟨⟨⟨?_, ?_, ?_, ?_, ?_, ?_, ?_, ?_⟩, ?_⟩, hab.symm, ?_, ?_⟩
      · refine Heap.WF.write (Heap.WF.write (Heap.WF.free (Heap.WF.write hw _ halb) _) _ ?_) _ ?_
        · simpa using hltb bh (by simp)
        · simpa using halb
      · have h1 : (as1 ++ [al] ++ bh :: bs).Nodup := by
          refine List.Nodup.append hnda1.2 hndb1.2 ?_
          intro c hc hm
          exact hdis c (List.mem_cons_of_mem _ hc) (List.mem_cons_of_mem _ hm)
        refine List.nodup_cons.2 ⟨?_, by simpa using h1⟩
        intro hm
        rcases List.mem_append.1 hm with h | h
        · exact hdis tb (by simp [h]) (by simp)
        · rcases List.mem_cons.1 h with h | h
          · exact htb_al h
          · exact hndb1.1 h
      · have e : as1 ++ al :: bh :: bs = (as1 ++ [al]) ++ bh :: bs := by simp
        have e2 : xs1 ++ xl :: y :: ys = (xs1 ++ [xl]) ++ y :: ys := by simp
        rw [e, e2, chain_append _ _ _ _ _ _ _ (by simp [hlen1]), chain_append _ _ _ _ _ _ _ hlen1]
        refine ⟨⟨hca.congr fun c hc => ?_, ?_⟩, ?_⟩
        · obtain ⟨h1, h2, h3⟩ := has1 c hc
          simp [h1, h2, h3, World.get]
        · simp [Chain]
        · rw [lastOr_snoc]
          refine ⟨by simp [hbh_al], hsb.chain.2.congr fun c hc => ?_⟩
          obtain ⟨h1, h2, h3⟩ := hbs c hc
          simp [h1, h2, h3, World.get]
      · refine ⟨vb, ?_⟩
        have e : as1 ++ al :: bh :: bs = (as1 ++ [al]) ++ bh :: bs := by simp
        rw [e, lastOr_append, lastOr_snoc]
        simpa [htb_al, htb_ta, htb_bh, lastOr] using htb1
      · intro q hq
        subst hq
        have hd := hsa.dead q rfl
        have h1 : q ≠ al := Heap.Dead.ne_live hsa.dead hal
        have h2 : q ≠ bh := Heap.Dead.ne_live hsa.dead hbh
        have h3 : w.heap.cells q = none := hd.2
        have h4 : q < w.heap.brk := hd.1
        simp [h1, h2, h3, h4]
      · have h1 := hsa.head
        have e : firstOr tb (as1 ++ al :: bh :: bs) = firstOr ta (as1 ++ [al]) := by
          cases as1 <;> rfl
        rw [e]
        exact h1
      · exact hsb.terminator
      · have h1 := hsa.len
        have h2 := hsb.len
        simp [World.get] at h1 h2
        simp [h1, h2]
        omega
      · have e : as1 ++ al :: bh :: bs = (as1 ++ [al]) ++ bh :: bs := by simp
        rw [e, lastOr_append, lastOr_snoc]
        have := hlb.tail
        simpa [lastOr] using this
      · intro j hja hjb
        simp [hja, hjb]
      · refine ⟨by simp, fun c hc hn => ?_⟩
        have h1 : c ≠ al := fun e => hn (by simp [e])
        have h2 : c ≠ ta := fun e => hn (by simp [e])
        have h3 : c ≠ bh := fun e => hn (by simp [e])
        simp [h1, h2, h3]

theorem RepF.linked_of_ne {α : Type} {s : LState α} {xs : List α} {F : List Nat}
    (hr : RepF s xs F) (hx : xs ≠ []) :
    ∃ p as t, Linked s p as xs t ∧ F = t :: as ∧ as ≠ [] := by
  rcases hr with ⟨h1, -⟩ | ⟨p, as, t, hl, hF⟩
  · exact absurd h1 hx
  · refine ⟨p, as, t, hl, hF, ?_⟩
    rintro rfl
    have := hl.shape.chain.length_eq
    simp at this
    exact hx (List.length_eq_zero.1 this.symm)

/-- Move append between two objects. -/
theorem appendMove_sep {α : Type} [Inhabited α] (w : World α) (a b : Nat) (hab : a ≠ b)
    (xs ys : List α) (Fa Fb : List Nat) (ha : RepF (w.get a) xs Fa) (hb : RepF (w.get b) ys Fb)
    (hdis : ∀ c ∈ Fa, c ∉ Fb) :
    ∃ w1, appendMove w a b = Outcome.ok () w1 ∧ Rep (w1.get a) (xs ++ ys) ∧
      size (w1.get b) = 0 ∧ empty (w1.get b) = true ∧
      cursorEq w1.heap (cbegin (w1.get b)) (cend (w1.get b)) = true := by
  have hsa : (w.lists a).mLen = xs.length := ha.rep.size_eq
  have hsb : (w.lists b).mLen = ys.length := hb.rep.size_eq
  by_cases hx : xs = []
  · subst hx
    have he : empty (w.get a) = true := by simp [empty, World.get, hsa]
    have hw1 := ha.release_wf
    have hb1 : RepF ⟨(w.get a).heap.release (w.get a).l.mHead, w.lists b⟩ ys Fb :=
      RepF.frame hb ha.release_frame hw1 (fun c hc hm => hdis c hm hc) ha.live_of_mem
    have hev : appendMove w a b = Outcome.ok () ⟨w.heap.release (w.lists a).mHead, fun j =>
        if j = a then w.lists b else if j = b then ⟨none, none, none, 0⟩ else w.lists j⟩ := by
      simp only [appendMove, if_neg hab, he, if_true, moveAssign]
    refine ⟨_, hev, ?_, ?_, ?_, ?_⟩
    · have := hb1.rep
      simpa [World.get] using this
    · simp [size, World.get, hab.symm]
    · simp [empty, World.get, hab.symm]
    · have := RepF.begin_eq_end_of_nil (RepF.nil_of_wf (α := α) hw1)
      simpa [World.get, hab.symm, cbegin, cend] using this
  · have he : empty (w.get a) = false := by
      have : xs.length ≠ 0 := fun h => hx (List.length_eq_zero.1 h)
      simp [empty, World.get, hsa, this]
    by_cases hy : ys = []
    · subst hy
      have hb0 : empty (w.get b) = true := by simp [empty, World.get, hsb]
      refine ⟨w, by simp [appendMove, hab, he, hb0], by simpa using ha.rep, hsb, hb0,
        hb.begin_eq_end_of_nil⟩
    · have hb0 : empty (w.get b) = false := by
        have : ys.length ≠ 0 := fun h => hy (List.length_eq_zero.1 h)
        simp [empty, World.get, hsb, this]
      obtain ⟨pa, as, ta, hla, rfl, hna⟩ := ha.linked_of_ne hx
      obtain ⟨pb, bs, tb, hlb, rfl, hnb⟩ := hb.linked_of_ne hy
      obtain ⟨w1, h1, h2, h3, -, h5, -⟩ := appendMove_linked w a b hab hla hna hlb hnb hdis
      have hw1 : w1.heap.WF := h2.shape.wf
      refine ⟨w1, h1, Or.inr ⟨_, _, _, h2⟩, ?_, ?_, ?_⟩
      · simp [size, World.get, h3]
      · simp [empty, World.get, h3]
      · have := RepF.begin_eq_end_of_nil (RepF.nil_of_wf (α := α) hw1)
        simpa [World.get, h3, cbegin, cend] using this

/-! ## Frames of the mutating calls -/

theorem Linked.popHead_keeps {α : Type} {s : LState α} {p : Option Nat} {a : Nat} {as : List Nat}
    {x : α} {xs : List α} {t : Nat} (hlk : Linked s p (a :: as) (x :: xs) t)
    (r : Option α) (s1 : LState α) (h1 : popHead s = Outcome.ok r s1) :
    s.heap.Frame s1.heap (t :: a :: as) := by
  have hl := hlk.shape
  have ha := hl.chain.1
  have hab := hl.wf.lt ha
  have hlen0 : s.l.mLen ≠ 0 := by rw [hl.len]; simp
  have hh : s.l.mHead = some a := hl.head
  have hrel : (s.heap.write a ⟨x, none, p⟩).release (some a) = (s.heap.write a ⟨x, none, p⟩).free a :=
    Heap.release_single _ a ⟨x, none, p⟩ (by simp; omega) (by simp) rfl
  simp [popHead, empty, Heap.lockNode, Heap.takeNext, Outcome.ofOption, hh, ha, hlen0, hrel] at h1
  obtain ⟨-, h1⟩ := h1
  subst h1
  refine ⟨by simp, fun c hc hn => ?_⟩
  have h2 : c ≠ a := fun e => hn (by simp [e])
  simp [h2]

theorem Linked.pushHead_keeps {α : Type} [Inhabited α] {s : LState α} {p : Option Nat} {a : Nat}
    {as : List Nat} {x0 : α} {xs : List α} {t : Nat} (hlk : Linked s p (a :: as) (x0 :: xs) t)
    (x : α) (s1 : LState α) (h1 : pushHead s x = Outcome.ok () s1) :
    s.heap.Frame s1.heap (t :: a :: as) := by
  have hl := hlk.shape
  have ha := hl.chain.1
  have hab := hl.wf.lt ha
  have hlen0 : s.l.mLen ≠ 0 := by rw [hl.len]; simp
  have hh : s.l.mHead = some a := hl.head
  simp [pushHead, Node.create, pushHeadNode, empty, Heap.lockNode, Heap.setPrev, Heap.setNext,
    Outcome.ofOption, hh, ha, hlen0, hab.ne, hab.ne'] at h1
  subst h1
  refine ⟨by simp, fun c hc hn => ?_⟩
  have h2 : c ≠ a := fun e => hn (by simp [e])
  simp [h2, hc.ne]

theorem Linked.popTail_keeps {α : Type} {s : LState α} {p : Option Nat} {a : Nat}
    {as1 : List Nat} {x : α} {xs1 : List α} {t : Nat}
    (hlk : Linked s p (as1 ++ [a]) (xs1 ++ [x]) t) (hne : as1 ≠ [])
    (r : Option α) (s1 : LState α) (h1 : popTail s = Outcome.ok r s1) :
    s.heap.Frame s1.heap (t :: (as1 ++ [a])) := by
  have hl := hlk.shape
  obtain ⟨as1', a', xs1', x', e1, e2, hlen, hc1, ha⟩ := hl.snoc_cases (by simp)
  obtain ⟨rfl, ea⟩ := List.append_inj' e1 rfl
  obtain ⟨rfl, ex⟩ := List.append_inj' e2 rfl
  simp at ea ex
  subst ea ex
  obtain ⟨as2, b, xs2, xb, rfl, rfl, hlen2, hc2, hb⟩ :
      ∃ as2 b xs2 xb, as1 = as2 ++ [b] ∧ xs1 = xs2 ++ [xb] ∧ as2.length = xs2.length ∧
        Chain s.heap p as2 xs2 b ∧ s.heap.cells b = some ⟨xb, some a, lastOr p as2⟩ := by
    rcases List.eq_nil_or_concat' as1 with h | ⟨as2, b, rfl⟩
    · exact absurd h hne
    rcases List.eq_nil_or_concat' xs1 with h | ⟨xs2, xb, rfl⟩
    · subst h; simp at hlen
    have hl2 : as2.length = xs2.length := by simpa using hlen
    have hc := (chain_append s.heap p as2 [b] xs2 [xb] a hl2).1 hc1
    exact ⟨as2, b, xs2, xb, rfl, rfl, hl2, hc.1, hc.2.1⟩
  obtain ⟨v, ht⟩ := hl.term
  have htail := hlk.tail
  rw [lastOr_snoc] at ht htail
  rw [lastOr_snoc] at ha
  have hab := hl.wf.lt ha
  have hnd := hl.nodup
  have hnd1 := List.nodup_cons.1 hnd
  have hnd2 := List.nodup_append.1 hnd1.2
  have hta : t ≠ a := fun e => hnd1.1 (by simp [e])
  have htb1 : t ≠ b := fun e => hnd1.1 (by simp [e])
  have hba : b ≠ a := fun e => hnd2.2.2 (by simp : b ∈ as2 ++ [b]) (by simp [e])
  have hlen0 : s.l.mLen ≠ 0 := by rw [hl.len]; simp
  have hlen1 : s.l.mLen - 1 ≠ 0 := by rw [hl.len]; simp
  have hrel : ∀ h : Heap α, 0 < h.brk → h.cells a = some ⟨x, none, some b⟩ →
      h.release (some a) = h.free a := fun h h0 hc => Heap.release_single h a _ h0 hc rfl
  simp [popTail, empty, popTerminator, addTerminator, Heap.lockNode, Heap.takeNext, Heap.setPrev,
    Heap.setNext, Outcome.ofOption, htail, ha, hb, ht, hlen0, hlen1, hta, hta.symm, htb1,
    htb1.symm, hba, hba.symm] at h1
  rw [hrel _ (by simp; omega) (by simp [hba.symm, hta.symm])] at h1
  obtain ⟨-, h1⟩ := h1
  subst h1
  refine ⟨by simp, fun c hc hn => ?_⟩
  have h2 : c ≠ a := fun e => hn (by simp [e])
  have h3 : c ≠ b := fun e => hn (by simp [e])
  have h4 : c ≠ t := fun e => hn (by simp [e])
  simp [h2, h3, h4]

theorem Linked.popTail_last_frame {α : Type} {s : LState α} {p : Option Nat} {a : Nat}
    {x : α} {t : Nat} (hlk : Linked s p [a] [x] t)
    (r : Option α) (s1 : LState α) (h1 : popTail s = Outcome.ok r s1) :
    s.heap.Frame s1.heap [t, a] := by
  have hl := hlk.shape
  have ha := hl.chain.1
  obtain ⟨v, ht⟩ := hl.term
  have htail : s.l.mTail = some a := hlk.tail
  have hh : s.l.mHead = some a := hl.head
  have hab := hl.wf.lt ha
  have hnd := hl.nodup
  have hta : t ≠ a := by simp at hnd; tauto
  have hlen1 : s.l.mLen = 1 := by rw [hl.len]; simp
  have hrel1 : (s.heap.write a ⟨x, none, p⟩).release (some a) = (s.heap.write a ⟨x, none, p⟩).free a :=
    Heap.release_single _ a ⟨x, none, p⟩ (by simp; omega) (by simp) rfl
  have hrel2 : ((s.heap.write a ⟨x, none, p⟩).free a).release (some t) =
      ((s.heap.write a ⟨x, none, p⟩).free a).free t :=
    Heap.release_single _ t ⟨v, none, some a⟩ (by simp; omega) (by simpa [hta, lastOr] using ht) rfl
  simp [popTail, empty, popTerminator, Heap.lockNode, Heap.takeNext,
    Outcome.ofOption, htail, hh, ha, hlen1, hrel1, hrel2] at h1
  obtain ⟨-, h1⟩ := h1
  subst h1
  refine ⟨by simp, fun c hc hn => ?_⟩
  have h2 : c ≠ a := fun e => hn (by simp [e])
  have h4 : c ≠ t := fun e => hn (by simp [e])
  simp [h2, h4]

theorem Shape.insertBefore_mid_frame {α : Type} [Inhabited α] {s : LState α} {p : Option Nat}
    {as1 as2 : List Nat} {xs1 xs2 : List α} {t : Nat}
    (hl : Shape s p (as1 ++ as2) (xs1 ++ xs2) t) (hlen : as1.length = xs1.length)
    (hne : as1 ≠ []) (x : α) (s1 : LState α)
    (h1 : insertBefore s (some (firstOr t as2)) x = Outcome.ok () s1) :
    s.heap.Frame s1.heap (t :: (as1 ++ as2)) := by
  have hch := (chain_append s.heap p as1 as2 xs1 xs2 t hlen).1 hl.chain
  obtain ⟨as0, b, xs0, xb, rfl, rfl, hlen0, hc0, hb⟩ :
      ∃ as0 b xs0 xb, as1 = as0 ++ [b] ∧ xs1 = xs0 ++ [xb] ∧ as0.length = xs0.length ∧
        Chain s.heap p as0 xs0 b ∧
          s.heap.cells b = some ⟨xb, some (firstOr t as2), lastOr p as0⟩ := by
    rcases List.eq_nil_or_concat' as1 with h | ⟨as0, b, rfl⟩
    · exact absurd h hne
    rcases List.eq_nil_or_concat' xs1 with h | ⟨xs0, xb, rfl⟩
    · subst h; simp at hlen
    have hl2 : as0.length = xs0.length := by simpa using hlen
    have hc := (chain_append s.heap p as0 [b] xs0 [xb] _ hl2).1 hch.1
    exact ⟨as0, b, xs0, xb, rfl, rfl, hl2, by simpa using hc.1, by simpa [Chain] using hc.2⟩
  have hch2 : Chain s.heap (some b) as2 xs2 t := by simpa [lastOr_snoc] using hch.2
  obtain ⟨v, ht⟩ := hl.term
  have hnd := hl.nodup
  have hnd1 := List.nodup_cons.1 hnd
  have hnd2 := List.nodup_append.1 hnd1.2
  have hnd3 := List.nodup_append.1 hnd2.1
  have hlt := hl.addr_lt
  have htb := hl.term_lt
  have hbb := hl.wf.lt hb
  have hbt : b ≠ t := fun e => hnd1.1 (by simp [e])
  -- the node the cursor names
  obtain ⟨vc, nc, hc, hcmem⟩ : ∃ vc nc, s.heap.cells (firstOr t as2) = some ⟨vc, nc, some b⟩ ∧
      ((as2 = [] ∧ xs2 = [] ∧ nc = none ∧ vc = v) ∨ ∃ c as3 xc xs3, as2 = c :: as3 ∧ xs2 = xc :: xs3 ∧ vc = xc ∧
        nc = some (firstOr t as3) ∧ Chain s.heap (some c) as3 xs3 t) := by
    cases as2 with
    | nil => cases xs2 with
      | nil => exact ⟨v, none, by simpa [lastOr_snoc] using ht, Or.inl ⟨rfl, rfl, rfl, rfl⟩⟩
      | cons xc xs3 => exact absurd hch2 (by simp [Chain])
    | cons c as3 => cases xs2 with
      | nil => exact absurd hch2 (by simp [Chain])
      | cons xc xs3 => exact ⟨xc, _, hch2.1, Or.inr ⟨c, as3, xc, xs3, rfl, rfl, rfl, rfl, hch2.2⟩⟩
  have hcb1 := hl.wf.lt hc
  have hcin : firstOr t as2 = t ∨ firstOr t as2 ∈ as2 := by
    cases as2 <;> simp
  have hcb : firstOr t as2 ≠ b := by
    rcases hcin with h | h
    · rw [h]; exact hbt.symm
    · intro e; exact hnd2.2.2 (by simp : b ∈ as0 ++ [b]) (e ▸ h)
  have hhd : firstOr t (as0 ++ [b] ++ as2) = firstOr t (as0 ++ [b]) := by cases as0 <;> rfl
  have hhmem : firstOr t (as0 ++ [b]) ∈ as0 ++ [b] := firstOr_mem _ _ (by simp)
  have hch1 : firstOr t as2 ≠ firstOr t (as0 ++ [b]) := by
    rcases hcin with h | h
    · rw [h]; intro e; exact hnd1.1 (by rw [e]; exact List.mem_append_left _ hhmem)
    · intro e; exact hnd2.2.2 hhmem (e ▸ h)
  have hev := Shape.insertBefore_eval x hl.wf hb hc (hl.head.trans (by rw [hhd]))
    (hl.chain.live _ (List.mem_append_left _ hhmem)) hcb hch1
  rw [hev] at h1
  injection h1 with _ h1
  subst h1
  refine ⟨by simp, fun c hc hn => ?_⟩
  have h2 : c ≠ b := fun e => hn (by simp [e])
  have h3 : c ≠ firstOr t as2 := by
    intro e
    rcases hcin with h | h
    · exact hn (by simp [e, h])
    · exact hn (by rw [e]; simp [h])
  simp [h2, h3, hc.ne]

theorem Chain.next_mem {α : Type} {h : Heap α} {p : Option Nat} {as : List Nat} {xs : List α}
    {t : Nat} (hc : Chain h p as xs t) :
    ∀ a ∈ as, ∃ n, h.cells a = some n ∧ ∃ b ∈ t :: as, n.next = some b := by
  induction as generalizing p xs with
  | nil => intro a ha; simp at ha
  | cons a0 as ih =>
    cases xs with
    | nil => exact absurd hc (by simp [Chain])
    | cons x xs =>
      intro a ha
      rcases List.mem_cons.1 ha with rfl | ha
      · refine ⟨_, hc.1, firstOr t as, ?_, rfl⟩
        cases as with
        | nil => simp [firstOr]
        | cons a1 as => simp [firstOr]
      · obtain ⟨n, h1, b, h2, h3⟩ := ih hc.2 a ha
        refine ⟨n, h1, b, ?_, h3⟩
        simp at h2 ⊢
        tauto

/-- The nodes of a list are closed under `next`. -/
theorem RepF.next_closed {α : Type} {s : LState α} {xs : List α} {F : List Nat}
    (hr : RepF s xs F) :
    ∀ a ∈ F, ∃ n, s.heap.cells a = some n ∧ (n.next = none ∨ ∃ b ∈ F, n.next = some b) := by
  rcases hr with ⟨-, -, -, -, -, rfl⟩ | ⟨p, as, t, hl, rfl⟩
  · intro a ha; simp at ha
  · intro a ha
    rcases List.mem_cons.1 ha with rfl | ha
    · obtain ⟨v, hv⟩ := hl.shape.term
      exact ⟨_, hv, Or.inl rfl⟩
    · obtain ⟨n, h1, b, h2, h3⟩ := hl.shape.chain.next_mem a ha
      exact ⟨n, h1, Or.inr ⟨b, h2, h3⟩⟩

theorem advance_closed {α : Type} {h : Heap α} {F : List Nat}
    (hF : ∀ a ∈ F, ∃ n, h.cells a = some n ∧ (n.next = none ∨ ∃ b ∈ F, n.next = some b))
    (i : Nat) (c : Cursor) (hc : c = none ∨ ∃ a ∈ F, c = some a) :
    (∃ c1, advance h i c = Outcome.ok () c1 ∧ (c1 = none ∨ ∃ a ∈ F, c1 = some a)) ∨
      ∃ e c1, advance h i c = Outcome.throw e c1 := by
  induction i generalizing c with
  | zero => exact Or.inl ⟨c, rfl, hc⟩
  | succ i ih =>
    rcases hc with rfl | ⟨a, ha, rfl⟩
    · right
      exact ⟨Exc.DanglingIteratorException, none, rfl⟩
    · obtain ⟨n, h1, h2⟩ := hF a ha
      have e : advance h (i + 1) (some a) = advance h i n.next := by
        simp [advance, increment_live h1]
      rw [e]
      exact ih n.next h2

theorem RepF.begin_mem {α : Type} {s : LState α} {xs : List α} {F : List Nat}
    (hr : RepF s xs F) : cbegin s = none ∨ ∃ a ∈ F, cbegin s = some a := by
  rcases hr with ⟨-, -, -, hh, -, -⟩ | ⟨p, as, t, hl, rfl⟩
  · exact Or.inl hh
  · refine Or.inr ⟨firstOr t as, ?_, hl.shape.head⟩
    cases as <;> simp [firstOr]

theorem RepF.advance_cases {α : Type} {s : LState α} {xs : List α} {F : List Nat}
    (hr : RepF s xs F) (i : Nat) :
    (∃ c1, advance s.heap i (cbegin s) = Outcome.ok () c1 ∧ (c1 = none ∨ ∃ a ∈ F, c1 = some a)) ∨
      ∃ e c1, advance s.heap i (cbegin s) = Outcome.throw e c1 :=
  advance_closed hr.next_closed i _ hr.begin_mem

theorem RepF.insertBefore_frame {α : Type} [Inhabited α] {s : LState α} {xs : List α}
    {F : List Nat} (hr : RepF s xs F) (c : Cursor) (hc : c = none ∨ ∃ a ∈ F, c = some a)
    (x : α) :
    ∃ s1, (insertBefore s c x).state? = some s1 ∧ s.heap.Frame s1.heap F ∧ s1.heap.WF := by
  have hw := hr.rep.wf
  rcases hc with rfl | ⟨a, ha, rfl⟩
  · obtain ⟨s1, h1, -, h3, h4⟩ := insertBefore_dead s none x hw (fun a ha => by cases ha)
    refine ⟨s1, by rw [h1]; rfl, ⟨by omega, fun c _ _ => by rw [h3]⟩, ?_⟩
    intro b hb
    rw [h3]
    exact hw b (by omega)
  · rcases hr with ⟨-, -, -, -, -, rfl⟩ | ⟨p, as, t, hlk, rfl⟩
    · simp at ha
    · have hl := hlk.shape
      have hlen := hl.chain.length_eq
      by_cases hne : as = []
      · subst hne
        have hat : a = t := by simpa using ha
        subst hat
        have hxs : xs = [] := by simpa [eq_comm] using hlen
        subst hxs
        obtain ⟨v, hv⟩ := hl.term
        have hb : cbegin s = some a := hl.head
        obtain ⟨s1, -, h1, h2, h3⟩ :=
          RepF.push_empty_frame (Or.inr ⟨_, _, _, hlk, rfl⟩ : RepF s [] [a]) x
        refine ⟨s1, ?_, h3, h2.shape.wf⟩
        rw [← hb, insertBefore_begin s x (by rw [hb]; exact dangling_live hv), h1]
        rfl
      · obtain ⟨i, hi, hci⟩ : ∃ i, i ≤ as.length ∧ firstOr t (as.drop i) = a := by
          rcases List.mem_cons.1 ha with h | h
          · exact ⟨as.length, Nat.le_refl _, by simp [h, firstOr]⟩
          · obtain ⟨i, hi, rfl⟩ := List.mem_iff_getElem.1 h
            exact ⟨i, Nat.le_of_lt hi, by rw [List.drop_eq_getElem_cons hi]; rfl⟩
        subst hci
        cases i with
        | zero =>
          cases as with
          | nil => exact absurd rfl hne
          | cons a0 as => cases xs with
            | nil => exact absurd hl.chain (by simp [Chain])
            | cons x0 xs =>
              obtain ⟨s1, h1, h2⟩ := hlk.pushHead_linked x
              have hb : cbegin s = some a0 := hl.head
              have e : insertBefore s (some (firstOr t ((a0 :: as).drop 0))) x =
                  Outcome.ok () s1 := by
                have : firstOr t ((a0 :: as).drop 0) = a0 := rfl
                rw [this, ← hb, insertBefore_begin s x
                  (by rw [hb]; exact dangling_live hl.chain.1), h1]
              exact ⟨s1, by rw [e]; rfl, hlk.pushHead_keeps x s1 h1, h2.shape.wf⟩
        | succ i =>
          have hl1 : Shape s p (as.take (i + 1) ++ as.drop (i + 1))
              (xs.take (i + 1) ++ xs.drop (i + 1)) t := by
            rw [List.take_append_drop, List.take_append_drop]
            exact hl
          have hlen1 : (as.take (i + 1)).length = (xs.take (i + 1)).length := by
            simp [hlen]
          have hne1 : as.take (i + 1) ≠ [] := by
            cases as with
            | nil => exact absurd rfl hne
            | cons a0 as => simp
          obtain ⟨s1, h1, h2, -⟩ := hl1.insertBefore_mid hlen1 hne1 x
          have hf := hl1.insertBefore_mid_frame hlen1 hne1 x s1 h1
          rw [List.take_append_drop] at hf
          exact ⟨s1, by rw [h1]; rfl, hf, h2.wf⟩

theorem RepF.assignThrough_frame {α : Type} {s : LState α} {xs : List α}
    {F : List Nat} (hr : RepF s xs F) (c : Cursor) (hc : c = none ∨ ∃ a ∈ F, c = some a)
    (v : α) :
    ∃ s1, (assignThrough s c v).state? = some s1 ∧ s.heap.Frame s1.heap F ∧ s1.heap.WF := by
  have hw := hr.rep.wf
  rcases hc with rfl | ⟨a, ha, rfl⟩
  · exact ⟨s, rfl, Heap.Frame.refl _ _, hw⟩
  · obtain ⟨n, hn⟩ := hr.live_of_mem a ha
    refine ⟨⟨s.heap.write a { n with value := v }, s.l⟩, ?_, ⟨by simp, fun c _ hm => ?_⟩,
      hw.write _ (hw.lt hn)⟩
    · simp [assignThrough, validateIterator, Heap.expired, Heap.lockNode, hn, Outcome.state?]
    · have : c ≠ a := fun e => hm (e ▸ ha)
      simp [this]

theorem RepF.assignHead_frame {α : Type} {s : LState α} {xs : List α}
    {F : List Nat} (hr : RepF s xs F) (v : α) :
    ∃ s1, (assignHead s v).state? = some s1 ∧ s.heap.Frame s1.heap F ∧ s1.heap.WF := by
  have hw := hr.rep.wf
  by_cases he : empty s = true
  · exact ⟨s, by simp [assignHead, he, Outcome.state?], Heap.Frame.refl _ _, hw⟩
  · have hx : xs ≠ [] := by
      rintro rfl
      have := hr.rep.size_eq
      simp [size] at this
      simp [empty, this] at he
    obtain ⟨a, ha, hb⟩ : ∃ a ∈ F, cbegin s = some a := by
      rcases hr.begin_mem with h | h
      · rcases hr with ⟨h1, -⟩ | ⟨p, as, t, hl, -⟩
        · exact absurd h1 hx
        · rw [cbegin, hl.shape.head] at h
          cases h
      · exact h
    obtain ⟨n, hn⟩ := hr.live_of_mem a ha
    have hb1 : s.l.mHead = some a := hb
    refine ⟨⟨s.heap.write a { n with value := v }, s.l⟩, ?_, ⟨by simp, fun c _ hm => ?_⟩,
      hw.write _ (hw.lt hn)⟩
    · simp [assignHead, he, Heap.lockNode, hb1, hn, Outcome.state?]
    · have : c ≠ a := fun e => hm (e ▸ ha)
      simp [this]

theorem RepF.pushHead_frame {α : Type} [Inhabited α] {s : LState α} {xs : List α} {F : List Nat}
    (hr : RepF s xs F) (x : α) :
    ∃ s1, pushHead s x = Outcome.ok () s1 ∧ s.heap.Frame s1.heap F ∧ s1.heap.WF := by
  have hempty : ∀ F, RepF s [] F → ∃ s1, pushHead s x = Outcome.ok () s1 ∧
      s.heap.Frame s1.heap F ∧ s1.heap.WF := by
    intro F hr
    obtain ⟨s1, -, h1, h3, h4⟩ := hr.push_empty_frame x
    exact ⟨s1, h1, h4, h3.shape.wf⟩
  rcases hr with ⟨rfl, h⟩ | ⟨p, as, t, hlk, rfl⟩
  · exact hempty F (Or.inl ⟨rfl, h⟩)
  · cases as with
    | nil =>
      have hxs : xs = [] := by
        have := hlk.shape.chain.length_eq
        simpa [eq_comm] using this
      subst hxs
      exact hempty _ (Or.inr ⟨_, _, _, hlk, rfl⟩)
    | cons a as => cases xs with
      | nil => exact absurd hlk.shape.chain (by simp [Chain])
      | cons x0 xs =>
        obtain ⟨s1, h1, h2⟩ := hlk.pushHead_linked x
        exact ⟨s1, h1, hlk.pushHead_keeps x s1 h1, h2.shape.wf⟩

theorem RepF.popHead_frame {α : Type} {s : LState α} {xs : List α} {F : List Nat}
    (hr : RepF s xs F) :
    ∃ r s1, popHead s = Outcome.ok r s1 ∧ s.heap.Frame s1.heap F ∧ s1.heap.WF := by
  cases xs with
  | nil => exact ⟨none, s, hr.rep.pop_nil.1, Heap.Frame.refl _ _, hr.rep.wf⟩
  | cons x xs =>
    rcases hr with ⟨h, -⟩ | ⟨p, as, t, hlk, rfl⟩
    · simp at h
    · cases as with
      | nil => exact absurd hlk.shape.chain (by simp [Chain])
      | cons a as =>
        obtain ⟨s1, h1, h2⟩ := hlk.popHead_linked
        exact ⟨_, s1, h1, hlk.popHead_keeps _ s1 h1, h2.shape.wf⟩

theorem RepF.popTail_frame {α : Type} {s : LState α} {xs : List α} {F : List Nat}
    (hr : RepF s xs F) :
    ∃ r s1, popTail s = Outcome.ok r s1 ∧ s.heap.Frame s1.heap F ∧ s1.heap.WF := by
  rcases List.eq_nil_or_concat' xs with rfl | ⟨xs1, x, rfl⟩
  · exact ⟨none, s, hr.rep.pop_nil.2, Heap.Frame.refl _ _, hr.rep.wf⟩
  · rcases hr with ⟨h, -⟩ | ⟨p, as, t, hlk, rfl⟩
    · simp at h
    · have hl := hlk.shape
      have hne : as ≠ [] := by
        rintro rfl
        have := hl.chain.length_eq
        simp at this
      obtain ⟨as1, a, xs1', xl, rfl, hxs, hlen, hc1, ha⟩ := hl.snoc_cases hne
      obtain ⟨rfl, ex⟩ := List.append_inj' hxs rfl
      simp at ex
      subst ex
      by_cases h1 : as1 = []
      · subst h1
        have : xs1 = [] := by simpa [eq_comm] using hlen
        subst this
        obtain ⟨s1, h2, h3⟩ := Linked.popTail_last hlk
        exact ⟨_, s1, h2, Linked.popTail_last_frame hlk _ s1 h2, h3.wf⟩
      · obtain ⟨s1, h2, h3⟩ := Linked.popTail_linked hlk h1
        exact ⟨_, s1, h2, Linked.popTail_keeps hlk h1 _ s1 h2, h3.shape.wf⟩

theorem RepF.atCursor_frame {α : Type} {s : LState α} {xs : List α} {F : List Nat}
    (hr : RepF s xs F) (i : Nat) (op : Cursor → Outcome (LState α) Unit)
    (hop : ∀ c, (c = none ∨ ∃ a ∈ F, c = some a) →
      ∃ s1, (op c).state? = some s1 ∧ s.heap.Frame s1.heap F ∧ s1.heap.WF) :
    ∃ s1, (atCursor s i op).state? = some s1 ∧ s.heap.Frame s1.heap F ∧ s1.heap.WF := by
  rcases hr.advance_cases i with ⟨c1, h1, h2⟩ | ⟨e, c1, h1⟩
  · obtain ⟨s1, g1, g2, g3⟩ := hop c1 h2
    exact ⟨s1, by simp only [atCursor, h1]; exact g1, g2, g3⟩
  · exact ⟨s, by simp only [atCursor, h1]; rfl, Heap.Frame.refl _ _, hr.rep.wf⟩

/-- A mutating call on a list leaves a state behind and changes no node below
the allocation mark other than the list's own. -/
theorem RepF.mutation_frame {α : Type} [Inhabited α] {s : LState α} {xs : List α} {F : List Nat}
    (hr : RepF s xs F) (m : Mutation α) :
    ∃ s1, (m.apply s).state? = some s1 ∧ s.heap.Frame s1.heap F ∧ s1.heap.WF := by
  cases m with
  | pushHead x =>
    obtain ⟨s1, h1, h2, h3⟩ := hr.pushHead_frame x
    exact ⟨s1, by simp only [Mutation.apply, h1]; rfl, h2, h3⟩
  | pushTail x =>
    obtain ⟨s1, F1, h1, h2, h3, -⟩ := hr.pushTail_frame x
    exact ⟨s1, by simp only [Mutation.apply, h1]; rfl, h3, h2.rep.wf⟩
  | popHead =>
    obtain ⟨r, s1, h1, h2, h3⟩ := hr.popHead_frame
    exact ⟨s1, by simp only [Mutation.apply, h1]; rfl, h2, h3⟩
  | popTail =>
    obtain ⟨r, s1, h1, h2, h3⟩ := hr.popTail_frame
    exact ⟨s1, by simp only [Mutation.apply, h1]; rfl, h2, h3⟩
  | insertBefore i x =>
    exact hr.atCursor_frame i _ fun c hc => hr.insertBefore_frame c hc x
  | clear =>
    obtain ⟨s1, h1, h2, h3, -⟩ := hr.clear_ok
    exact ⟨s1, by simp only [Mutation.apply, h1]; rfl, h3, h2.rep.wf⟩
  | assignHead x => exact hr.assignHead_frame x
  | assignThrough i x =>
    exact hr.atCursor_frame i _ fun c hc => hr.assignThrough_frame c hc x

/-! ## Copies and moves -/

theorem Chain.cell_get {α : Type} {h : Heap α} {p : Option Nat} {as : List Nat} {xs : List α}
    {t : Nat} (hc : Chain h p as xs t) (i : Nat) (hi : i < as.length) :
    ∃ n, h.cells (as.get ⟨i, hi⟩) = some n ∧ xs[i]? = some n.value := by
  induction as generalizing p xs i with
  | nil => simp at hi
  | cons a0 as ih =>
    cases xs with
    | nil => exact absurd hc (by simp [Chain])
    | cons x xs =>
      cases i with
      | zero => exact ⟨_, hc.1, by simp⟩
      | succ i =>
        obtain ⟨n, h1, h2⟩ := ih hc.2 i (by simpa using hi)
        exact ⟨n, by simpa using h1, by simpa using h2⟩

/-- The cursor `i` increments after `begin()` names the node of the `i`-th
element, and it still does in a heap that differs only on other nodes. -/
theorem RepF.cursor_frame {α : Type} {h h1 : Heap α} {l : ListObj} {xs : List α}
    {F G : List Nat} (hr : RepF ⟨h, l⟩ xs F) (hf : h.Frame h1 G) (hFG : ∀ c ∈ F, c ∉ G)
    (i : Nat) (hi : i < xs.length) :
    ∃ a n, a ∈ F ∧ advance h i l.mHead = Outcome.ok () (some a) ∧
      advance h1 i l.mHead = Outcome.ok () (some a) ∧
      h.cells a = some n ∧ h1.cells a = some n ∧ xs[i]? = some n.value := by
  have hlt := hr.lt_brk
  rcases hr with ⟨h0, -⟩ | ⟨p, as, t, hl, rfl⟩
  · subst h0; simp at hi
  · have hlen := hl.shape.chain.length_eq
    have hi1 : i < as.length := by omega
    have hsame : ∀ c ∈ t :: as, h1.cells c = h.cells c :=
      fun c hc => hf.2 c (hlt c hc) (hFG c hc)
    have hch1 : Chain h1 p as xs t :=
      hl.shape.chain.congr fun c hc => hsame c (List.mem_cons_of_mem _ hc)
    obtain ⟨n, h2, h3⟩ := hl.shape.chain.cell_get i hi1
    have hmem : as.get ⟨i, hi1⟩ ∈ t :: as := List.mem_cons_of_mem _ (List.get_mem _ _ _)
    have hd : firstOr t (as.drop i) = as.get ⟨i, hi1⟩ := by
      rw [List.drop_eq_getElem_cons hi1]; rfl
    have hhead : l.mHead = some (firstOr t as) := hl.shape.head
    refine ⟨as.get ⟨i, hi1⟩, n, hmem, ?_, ?_, h2, by rw [hsame _ hmem]; exact h2, h3⟩
    · rw [hhead, advance_chain h p as xs t i hl.shape.chain (Nat.le_of_lt hi1), hd]
    · rw [hhead, advance_chain h1 p as xs t i hch1 (Nat.le_of_lt hi1), hd]

theorem RepF.end_live {α : Type} {s : LState α} {xs : List α} {F : List Nat}
    (hr : RepF s xs F) (hx : xs ≠ []) : dangling s.heap (cend s) = false := by
  rcases hr with ⟨h0, -⟩ | ⟨p, as, t, hl, -⟩
  · exact absurd h0 hx
  · obtain ⟨v, hv⟩ := hl.shape.term
    rw [cend, hl.shape.terminator]
    exact dangling_live hv

/-- Copy assignment between two objects. -/
theorem copyAssign_sep {α : Type} [Inhabited α] (w : World α) (b a : Nat) (hba : b ≠ a)
    (xs zs : List α) (Fa Fb : List Nat) (ha : RepF (w.get a) xs Fa) (hb : RepF (w.get b) zs Fb)
    (hdis : ∀ c ∈ Fa, c ∉ Fb) (fuel : Nat) (hfuel : xs.length < fuel) :
    ∃ w1 F1, copyAssign fuel w b a = some (Outcome.ok () w1) ∧
      RepF (w1.get b) xs F1 ∧ RepF (w1.get a) xs Fa ∧ (∀ c ∈ F1, c ∉ Fa) := by
  have h0 : RepF (⟨w.heap, ListObj.new⟩ : LState α) [] [] := RepF.nil_of_wf ha.rep.wf
  obtain ⟨tmp, F1, h1, h2, h3, h4, h5, h6⟩ :=
    forEachPushTail_repF (s := ⟨w.heap, ListObj.new⟩) (w.lists a) h0 ha (by simp) fuel hfuel
  have hbm : RepF ⟨tmp.heap, w.lists b⟩ zs Fb := hb.bystander h5 h2.rep.wf
  have hfr := hbm.release_frame
  have hwf := hbm.release_wf
  have hF1 : ∀ c ∈ F1, c ∉ Fb := by
    intro c hc hm
    have h8 := hb.lt_brk c hm
    rcases h6 c hc with h | h
    · simp at h
    · simp [World.get] at h8 h
      omega
  have g1 : RepF ⟨tmp.heap.release (w.lists b).mHead, tmp.l⟩ xs F1 := by
    have := RepF.frame (l := tmp.l) (by simpa using h2) hfr hwf hF1 hbm.live_of_mem
    exact this
  have g2 : RepF ⟨tmp.heap.release (w.lists b).mHead, w.lists a⟩ xs Fa :=
    RepF.frame h3 hfr hwf hdis hbm.live_of_mem
  refine ⟨w.put b ⟨tmp.heap.release (w.lists b).mHead, tmp.l⟩, F1, ?_, by simpa using g1, ?_, h4⟩
  · unfold copyAssign
    have e : (w.get a) = ⟨(⟨w.heap, ListObj.new⟩ : LState α).heap, w.lists a⟩ := rfl
    rw [if_neg hba, e, h1]
  · rw [World.get_put_ne _ _ hba.symm]
    exact g2

/-- A mutating call on one list leaves another list on the same heap as it is. -/
theorem mutation_sep {α : Type} [Inhabited α] (w : World α) (a b : Nat) (hab : a ≠ b)
    (xs ys : List α) (Fa Fb : List Nat) (ha : RepF (w.get a) xs Fa) (hb : RepF (w.get b) ys Fb)
    (hdis : ∀ c ∈ Fa, c ∉ Fb) (m : Mutation α) :
    ∃ w1, (World.run m.apply w b).state? = some w1 ∧ RepF (w1.get a) xs Fa ∧
      w.heap.Frame w1.heap Fb ∧ w1.lists a = w.lists a := by
  obtain ⟨s1, h1, h2, h3⟩ := hb.mutation_frame m
  have g : RepF ⟨s1.heap, w.lists a⟩ xs Fa := RepF.frame ha h2 h3 hdis hb.live_of_mem
  refine ⟨w.put b s1, ?_, ?_, h2, by simp [World.put, hab]⟩
  · unfold World.run
    cases hm : m.apply (w.get b) with
    | ok r s2 =>
      rw [hm] at h1
      simp [Outcome.state?] at h1 ⊢
      rw [h1]
    | throw e s2 =>
      rw [hm] at h1
      simp [Outcome.state?] at h1 ⊢
      rw [h1]
    | ub => rw [hm] at h1; simp [Outcome.state?] at h1
  · rw [World.get_put_ne _ _ hab]
    exact g

/-- What `RepF.cursor_frame` says in terms of the cursor operations. -/
theorem RepF.cursor_post {α : Type} {h h1 : Heap α} {l : ListObj} {xs : List α}
    {F G : List Nat} (hr : RepF ⟨h, l⟩ xs F) (hf : h.Frame h1 G) (hFG : ∀ c ∈ F, c ∉ G)
    (i : Nat) (hi : i < xs.length) :
    ∃ c, advance h i l.mHead = Outcome.ok () c ∧ advance h1 i l.mHead = Outcome.ok () c ∧
      dangling h1 c = false ∧ dereference h1 c = dereference h c ∧
      (dereference h1 c).value? = xs[i]? := by
  obtain ⟨a, n, -, h2, h3, h4, h5, h6⟩ := hr.cursor_frame hf hFG i hi
  refine ⟨some a, h2, h3, dangling_live h5, ?_, ?_⟩
  · rw [dereference_live h5, dereference_live h4]
  · rw [dereference_live h5, h6]
    rfl

theorem Rep.peek_values {α : Type} {s : LState α} {xs : List α} (hr : Rep s xs) :
    (peekHead s).value? = xs.head? ∧ (peekTail s).value? = xs.getLast? := by
  constructor
  · rw [hr.peekHead_eq]
    cases xs.head? <;> rfl
  · rw [hr.peekTail_eq]
    cases xs.getLast? <;> rfl

/-- The state after a move of the list `a` into the object `b`. -/
theorem moved_post {α : Type} (w1 w2 : World α) (a b : Nat) (xs : List α)
    (Fa G : List Nat) (ha : RepF (w1.get a) xs Fa) (hf : w1.heap.Frame w2.heap G)
    (hw : w2.heap.WF) (hFG : ∀ c ∈ Fa, c ∉ G) (hG : ∀ c ∈ G, ∃ n, w1.heap.cells c = some n)
    (hb : w2.lists b = w1.lists a) (hz : w2.lists a = ⟨none, none, none, 0⟩) :
    size (w2.get b) = xs.length ∧ elements (w2.get b) = some (Except.ok xs) ∧
      (peekHead (w2.get b)).value? = xs.head? ∧ (peekTail (w2.get b)).value? = xs.getLast? ∧
      size (w2.get a) = 0 ∧ empty (w2.get a) = true ∧
      cursorEq w2.heap (cbegin (w2.get a)) (cend (w2.get a)) = true ∧
      ∀ i, i < xs.length → ∃ c, advance w1.heap i (cbegin (w1.get a)) = Outcome.ok () c ∧
        advance w2.heap i (cbegin (w2.get b)) = Outcome.ok () c ∧
        dangling w2.heap c = false ∧ dereference w2.heap c = dereference w1.heap c ∧
        (dereference w2.heap c).value? = xs[i]? := by
  have hrb : RepF (w2.get b) xs Fa := by
    have := RepF.frame ha hf hw hFG hG
    rw [World.get, hb]
    exact this
  have hza := RepF.begin_eq_end_of_nil (RepF.nil_of_wf (α := α) hw)
  refine ⟨hrb.rep.size_eq, hrb.rep.elements_eq, hrb.rep.peek_values.1, hrb.rep.peek_values.2,
    by simp [size, World.get, hz], by simp [empty, World.get, hz], ?_, ?_⟩
  · simpa [World.get, hz, cbegin, cend] using hza
  · intro i hi
    have := RepF.cursor_post ha hf hFG i hi
    simpa [World.get, cbegin, hb] using this

theorem moveConstruct_sep {α : Type} (w : World α) (b a : Nat) (hba : b ≠ a) :
    ∃ w1, moveConstruct w b a = Outcome.ok () w1 ∧ w1.heap = w.heap ∧
      w1.lists b = w.lists a ∧ w1.lists a = ⟨none, none, none, 0⟩ :=
  ⟨_, rfl, rfl, by simp, by simp [hba.symm]⟩

theorem moveAssign_sep {α : Type} (w : World α) (b a : Nat) (hba : b ≠ a)
    (zs : List α) (Fb : List Nat) (hb : RepF (w.get b) zs Fb) :
    ∃ w1, moveAssign w b a = Outcome.ok () w1 ∧ w.heap.Frame w1.heap Fb ∧ w1.heap.WF ∧
      w1.lists b = w.lists a ∧ w1.lists a = ⟨none, none, none, 0⟩ := by
  refine ⟨⟨w.heap.release (w.lists b).mHead, fun j =>
    if j = b then w.lists a else if j = a then ⟨none, none, none, 0⟩ else w.lists j⟩, ?_,
    hb.release_frame, hb.release_wf, by simp, by simp [hba.symm]⟩
  simp only [moveAssign, if_neg hba]

/-! ## Cursors across pops, clear and swap; the copy loop on its own list -/

theorem Linked.popHead_cells {α : Type} {s : LState α} {p : Option Nat} {a : Nat} {as : List Nat}
    {x : α} {xs : List α} {t : Nat} (hlk : Linked s p (a :: as) (x :: xs) t)
    (r : Option α) (s1 : LState α) (h1 : popHead s = Outcome.ok r s1) :
    s1.heap.cells a = none ∧ ∀ c, c ≠ a → s1.heap.cells c = s.heap.cells c := by
  have hl := hlk.shape
  have ha := hl.chain.1
  have hab := hl.wf.lt ha
  have hlen0 : s.l.mLen ≠ 0 := by rw [hl.len]; simp
  have hh : s.l.mHead = some a := hl.head
  have hrel : (s.heap.write a ⟨x, none, p⟩).release (some a) = (s.heap.write a ⟨x, none, p⟩).free a :=
    Heap.release_single _ a ⟨x, none, p⟩ (by simp; omega) (by simp) rfl
  simp [popHead, empty, Heap.lockNode, Heap.takeNext, Outcome.ofOption, hh, ha, hlen0, hrel] at h1
  obtain ⟨-, h1⟩ := h1
  subst h1
  refine ⟨by simp, fun c hc => ?_⟩
  simp [hc]

theorem Linked.popTail_cells {α : Type} {s : LState α} {p : Option Nat} {a : Nat}
    {as1 : List Nat} {x : α} {xs1 : List α} {t : Nat}
    (hlk : Linked s p (as1 ++ [a]) (xs1 ++ [x]) t) (hne : as1 ≠ [])
    (r : Option α) (s1 : LState α) (h1 : popTail s = Outcome.ok r s1) :
    s1.heap.cells a = none ∧ ∀ c n, c ≠ a → s.heap.cells c = some n →
      ∃ n1, s1.heap.cells c = some n1 ∧ n1.value = n.value := by
  have hl := hlk.shape
  obtain ⟨as1', a', xs1', x', e1, e2, hlen, hc1, ha⟩ := hl.snoc_cases (by simp)
  obtain ⟨rfl, ea⟩ := List.append_inj' e1 rfl
  obtain ⟨rfl, ex⟩ := List.append_inj' e2 rfl
  simp at ea ex
  subst ea ex
  obtain ⟨as2, b, xs2, xb, rfl, rfl, hlen2, hc2, hb⟩ :
      ∃ as2 b xs2 xb, as1 = as2 ++ [b] ∧ xs1 = xs2 ++ [xb] ∧ as2.length = xs2.length ∧
        Chain s.heap p as2 xs2 b ∧ s.heap.cells b = some ⟨xb, some a, lastOr p as2⟩ := by
    rcases List.eq_nil_or_concat' as1 with h | ⟨as2, b, rfl⟩
    · exact absurd h hne
    rcases List.eq_nil_or_concat' xs1 with h | ⟨xs2, xb, rfl⟩
    · subst h; simp at hlen
    have hl2 : as2.length = xs2.length := by simpa using hlen
    have hc := (chain_append s.heap p as2 [b] xs2 [xb] a hl2).1 hc1
    exact ⟨as2, b, xs2, xb, rfl, rfl, hl2, hc.1, hc.2.1⟩
  obtain ⟨v, ht⟩ := hl.term
  have htail := hlk.tail
  rw [lastOr_snoc] at ht htail
  rw [lastOr_snoc] at ha
  have hab := hl.wf.lt ha
  have hnd := hl.nodup
  have hnd1 := List.nodup_cons.1 hnd
  have hnd2 := List.nodup_append.1 hnd1.2
  have hta : t ≠ a := fun e => hnd1.1 (by simp [e])
  have htb1 : t ≠ b := fun e => hnd1.1 (by simp [e])
  have hba : b ≠ a := fun e => hnd2.2.2 (by simp : b ∈ as2 ++ [b]) (by simp [e])
  have hlen0 : s.l.mLen ≠ 0 := by rw [hl.len]; simp
  have hlen1 : s.l.mLen - 1 ≠ 0 := by rw [hl.len]; simp
  have hrel : ∀ h : Heap α, 0 < h.brk → h.cells a = some ⟨x, none, some b⟩ →
      h.release (some a) = h.free a := fun h h0 hc => Heap.release_single h a _ h0 hc rfl
  simp [popTail, empty, popTerminator, addTerminator, Heap.lockNode, Heap.takeNext, Heap.setPrev,
    Heap.setNext, Outcome.ofOption, htail, ha, hb, ht, hlen0, hlen1, hta, hta.symm, htb1,
    htb1.symm, hba, hba.symm] at h1
  rw [hrel _ (by simp; omega) (by simp [hba.symm, hta.symm])] at h1
  obtain ⟨-, h1⟩ := h1
  subst h1
  refine ⟨by simp, fun c n hc hn => ?_⟩
  by_cases h3 : c = b
  · subst h3
    rw [hb] at hn
    injection hn with hn
    subst hn
    simp [hc]
  · by_cases h4 : c = t
    · subst h4
      rw [ht] at hn
      injection hn with hn
      subst hn
      simp [hc, h3]
    · simp [hc, h3, h4, hn]

theorem dangling_dead {α : Type} {h : Heap α} {c : Nat} (hc : h.cells c = none) :
    dangling h (some c) = true := by
  simp [dangling, Heap.expired, Heap.lockNode, hc]

theorem firstOr_drop_mem (t : Nat) (as : List Nat) (i : Nat) :
    firstOr t (as.drop i) ∈ t :: as := by
  by_cases h : as.drop i = []
  · rw [h]; simp [firstOr]
  · exact List.mem_cons_of_mem _ (List.mem_of_mem_drop (firstOr_mem t _ h))

theorem firstOr_drop_snoc (t a : Nat) (as : List Nat) (i : Nat) (hi : i < as.length) :
    firstOr t ((as ++ [a]).drop i) = firstOr t (as.drop i) ∧ firstOr t (as.drop i) ∈ as := by
  have hne : as.drop i ≠ [] := by simp; omega
  rw [List.drop_append_of_le_length (Nat.le_of_lt hi), firstOr_append]
  refine ⟨?_, List.mem_of_mem_drop (firstOr_mem t _ hne)⟩
  cases h : as.drop i with
  | nil => exact absurd h hne
  | cons b bs => rfl

/-- The cursor `i` increments after `begin()`, for `i` up to the length. -/
theorem Shape.cursor_at {α : Type} {s : LState α} {p : Option Nat} {as : List Nat}
    {xs : List α} {t : Nat} (hl : Shape s p as xs t) (i : Nat) (hi : i ≤ as.length) :
    advance s.heap i (cbegin s) = Outcome.ok () (some (firstOr t (as.drop i))) ∧
      ∃ n, s.heap.cells (firstOr t (as.drop i)) = some n ∧
        (i < as.length → xs[i]? = some n.value) := by
  refine ⟨?_, ?_⟩
  · rw [cbegin, hl.head]
    exact advance_chain s.heap p as xs t i hl.chain hi
  · rcases Nat.lt_or_ge i as.length with h | h
    · obtain ⟨n, h1, h2⟩ := hl.chain.cell_get i h
      refine ⟨n, ?_, fun _ => h2⟩
      rw [List.drop_eq_getElem_cons h]
      exact h1
    · obtain ⟨v, hv⟩ := hl.term
      rw [List.drop_of_length_le h]
      exact ⟨_, hv, fun h3 => absurd h3 (by omega)⟩

/-- What the two pops leave of the cursors taken on a list of two or more. -/
theorem Linked.pop_cursors {α : Type} {s : LState α} {p : Option Nat} {as : List Nat}
    {xs : List α} {t : Nat} (hlk : Linked s p as xs t) (h2 : 2 ≤ as.length) :
    ∃ r1 s1 r2 s2, popHead s = Outcome.ok r1 s1 ∧ popTail s = Outcome.ok r2 s2 ∧
      r1 = xs.head? ∧ r2 = xs.getLast? ∧
      ∀ i, i ≤ as.length → ∃ c, advance s.heap i (cbegin s) = Outcome.ok () c ∧
        dangling s.heap c = false ∧ (i < as.length → (dereference s.heap c).value? = xs[i]?) ∧
        dangling s1.heap c = decide (i = 0) ∧
        (i ≠ 0 → dereference s1.heap c = dereference s.heap c) ∧
        dangling s2.heap c = decide (i = as.length - 1) ∧
        (i ≠ as.length - 1 → dereference s2.heap c = dereference s.heap c) := by
  have hl := hlk.shape
  have hlen := hl.chain.length_eq
  have hnd := hl.nodup
  obtain ⟨as1, al, xs1, xl, e1, e2, hlen1, -, -⟩ := hl.snoc_cases (by rintro rfl; simp at h2)
  have hne1 : as1 ≠ [] := by
    rintro rfl
    subst e1
    simp at h2
  have hlk2 : Linked s p (as1 ++ [al]) (xs1 ++ [xl]) t := by rw [← e1, ← e2]; exact hlk
  obtain ⟨s2, g1, -⟩ := hlk2.popTail_linked hne1
  obtain ⟨g2, g3⟩ := hlk2.popTail_cells hne1 _ s2 g1
  cases as with
  | nil => simp at h2
  | cons a as0 => cases xs with
    | nil => simp at hlen
    | cons x xs0 =>
      obtain ⟨s1, f1, -⟩ := hlk.popHead_linked
      obtain ⟨f2, f3⟩ := hlk.popHead_cells _ s1 f1
      refine ⟨_, s1, _, s2, f1, g1, rfl, by rw [e2]; simp, ?_⟩
      intro i hi
      obtain ⟨q1, n, q2, q3⟩ := hl.cursor_at i hi
      refine ⟨_, q1, dangling_live q2, ?_, ?_, ?_, ?_, ?_⟩
      · intro h
        rw [dereference_live q2, q3 h]
        rfl
      · cases i with
        | zero =>
          have : firstOr t ((a :: as0).drop 0) = a := rfl
          rw [this, dangling_dead f2]
          simp
        | succ i =>
          have hm : firstOr t ((a :: as0).drop (i + 1)) ∈ t :: as0 := firstOr_drop_mem t as0 i
          have hne : firstOr t ((a :: as0).drop (i + 1)) ≠ a := by
            intro e
            rw [e] at hm
            have := List.nodup_cons.1 hnd
            simp at this hm
            tauto
          rw [dangling_live (by rw [f3 _ hne]; exact q2)]
          simp
      · intro h0
        cases i with
        | zero => exact absurd rfl h0
        | succ i =>
          have hm : firstOr t ((a :: as0).drop (i + 1)) ∈ t :: as0 := firstOr_drop_mem t as0 i
          have hne : firstOr t ((a :: as0).drop (i + 1)) ≠ a := by
            intro e
            rw [e] at hm
            have := List.nodup_cons.1 hnd
            simp at this hm
            tauto
          rw [dereference_live (by rw [f3 _ hne]; exact q2), dereference_live q2]
      · have hlen2 : (a :: as0).length = as1.length + 1 := by rw [e1]; simp
        by_cases hi2 : i = (a :: as0).length - 1
        · have hd : firstOr t ((a :: as0).drop i) = al := by
            rw [e1, hi2, hlen2]
            simp [firstOr]
          rw [hd, dangling_dead g2]
          simp [hi2]
        · have hne : firstOr t ((a :: as0).drop i) ≠ al := by
            have hnd2 : (t :: (as1 ++ [al])).Nodup := by rw [← e1]; exact hnd
            have hnd3 := List.nodup_cons.1 hnd2
            have hnd4 := List.nodup_append.1 hnd3.2
            rcases Nat.lt_or_ge i as1.length with h | h
            · obtain ⟨k1, k2⟩ := firstOr_drop_snoc t al as1 i h
              rw [e1, k1]
              intro e
              exact hnd4.2.2 k2 (by simp [e])
            · have hi3 : i = as1.length + 1 := by omega
              rw [e1, hi3, List.drop_of_length_le (by simp)]
              intro e
              exact hnd3.1 (by simp [firstOr] at e; simp [e])
          obtain ⟨n1, k1, -⟩ := g3 _ n hne q2
          rw [dangling_live k1]
          have : ¬ i = as0.length := by simpa using hi2
          simp [this]
      · intro hi2
        have hlen2 : (a :: as0).length = as1.length + 1 := by rw [e1]; simp
        have hne : firstOr t ((a :: as0).drop i) ≠ al := by
          have hnd2 : (t :: (as1 ++ [al])).Nodup := by rw [← e1]; exact hnd
          have hnd3 := List.nodup_cons.1 hnd2
          have hnd4 := List.nodup_append.1 hnd3.2
          rcases Nat.lt_or_ge i as1.length with h | h
          · obtain ⟨k1, k2⟩ := firstOr_drop_snoc t al as1 i h
            rw [e1, k1]
            intro e
            exact hnd4.2.2 k2 (by simp [e])
          · have hi3 : i = as1.length + 1 := by omega
            rw [e1, hi3, List.drop_of_length_le (by simp)]
            intro e
            exact hnd3.1 (by simp [firstOr] at e; simp [e])
        obtain ⟨n1, k1, k2⟩ := g3 _ n hne q2
        rw [dereference_live k1, dereference_live q2, k2]

theorem RepF.advance_le {α : Type} {s : LState α} {xs : List α} {F : List Nat}
    (hr : RepF s xs F) (i : Nat) (hi : i ≤ xs.length) :
    ∃ c, advance s.heap i (cbegin s) = Outcome.ok () c ∧ (c = none ∨ ∃ a ∈ F, c = some a) ∧
      (xs ≠ [] → dangling s.heap c = false) := by
  rcases hr with ⟨rfl, -, -, hh, -, -⟩ | ⟨p, as, t, hl, rfl⟩
  · have : i = 0 := by simpa using hi
    subst this
    exact ⟨none, by rw [cbegin, hh]; rfl, Or.inl rfl, fun h => absurd rfl h⟩
  · have hlen := hl.shape.chain.length_eq
    obtain ⟨q1, n, q2, -⟩ := hl.shape.cursor_at i (by omega)
    exact ⟨_, q1, Or.inr ⟨_, firstOr_drop_mem t as i, rfl⟩, fun _ => dangling_live q2⟩

theorem swap_swap {α : Type} (w : World α) (a b : Nat) :
    (swap w a b).andThen (fun w1 => swap w1 a b) = Outcome.ok () w := by
  simp only [swap, Outcome.andThen]
  congr 1
  cases w with
  | mk h l =>
    congr 1
    funext j
    by_cases h1 : j = a
    · subst h1
      by_cases h2 : b = j
      · simp [h2]
      · simp [h2]
    · by_cases h2 : j = b
      · subst h2
        simp [h1]
      · simp [h1, h2]

theorem Chain.next_drop {α : Type} {h : Heap α} {p : Option Nat} {as : List Nat} {xs : List α}
    {t : Nat} (hc : Chain h p as xs t) (i : Nat) (hi : i < as.length) :
    ∃ n, h.cells (firstOr t (as.drop i)) = some n ∧
      n.next = some (firstOr t (as.drop (i + 1))) := by
  induction as generalizing p xs i with
  | nil => simp at hi
  | cons a0 as ih =>
    cases xs with
    | nil => exact absurd hc (by simp [Chain])
    | cons x xs =>
      cases i with
      | zero => exact ⟨_, hc.1, rfl⟩
      | succ i => exact ih hc.2 i (by simpa using hi)

/-- The copy loop over the cursors of the list it appends to: the cursor `first`
stays on an element, one node further from `begin()` after every round, while
every round puts one more node in front of the terminator `last`. -/
theorem forEachPushTail_self {α : Type} [Inhabited α] (fuel : Nat) :
    ∀ (s : LState α) (p : Option Nat) (as : List Nat) (xs : List α) (t i : Nat),
      Linked s p as xs t → i < as.length →
      forEachPushTail (some t) fuel s (some (firstOr t (as.drop i))) = none := by
  induction fuel with
  | zero => intro s p as xs t i _ _; rfl
  | succ fuel ih =>
    intro s p as xs t i hlk hi
    have hl := hlk.shape
    have hne : as ≠ [] := by rintro rfl; simp at hi
    obtain ⟨v, hv⟩ := hl.term
    obtain ⟨n, hn, -⟩ := hl.chain.next_drop i hi
    have hmem : firstOr t (as.drop i) ∈ as :=
      List.mem_of_mem_drop (firstOr_mem t _ (by simp; omega))
    have hct : firstOr t (as.drop i) ≠ t := by
      intro e
      rw [e] at hmem
      exact (List.nodup_cons.1 hl.nodup).1 hmem
    obtain ⟨s1, h1, h2⟩ := hlk.pushTail_linked hne n.value
    obtain ⟨k1, -⟩ := firstOr_drop_snoc t s.heap.brk as i hi
    obtain ⟨n1, hn1, hn2⟩ := h2.shape.chain.next_drop i (by simp; omega)
    rw [k1] at hn1
    rw [forEachPushTail, cursorEq_live hn hv]
    simp only [hct, decide_False, dereference_live hn, h1, increment_live hn1, hn2]
    exact ih s1 p (as ++ [s.heap.brk]) (xs ++ [n.value]) t (i + 1) h2 (by simp; omega)

theorem appendCopy_self_none {α : Type} [Inhabited α] (w : World α) (a : Nat) (xs : List α)
    (F : List Nat) (hr : RepF (w.get a) xs F) (hx : xs ≠ []) (fuel : Nat) :
    appendCopy fuel w a a = none := by
  rcases hr with ⟨h0, -⟩ | ⟨p, as, t, hlk, -⟩
  · exact absurd h0 hx
  · have hlen := hlk.shape.chain.length_eq
    have hpos : 0 < as.length := by
      rw [hlen]
      exact List.length_pos.2 hx
    have := forEachPushTail_self fuel (w.get a) p as xs t 0 hlk hpos
    unfold appendCopy
    rw [cend, cbegin, hlk.shape.terminator, hlk.shape.head]
    simp only [List.drop_zero] at this
    rw [this]

/-! ## The claims -/

/-- C1: on the list constructed from `xs`, `peekHead()` and `peekTail()` both
raise `ListOutOfRangeException` when `xs` is empty, and otherwise return the
first and the last element of `xs`; in every case the list is left as it was,
with size `|xs|` and iterating `xs`. -/
theorem peek_of_constructed {α : Type} [Inhabited α] (xs : List α) :
    ∃ s, constructFrom Heap.empty xs = Outcome.ok () s ∧
      (peekHead s = match xs.head? with
        | some x => Outcome.ok x s
        | none => Outcome.throw Exc.ListOutOfRangeException s) ∧
      (peekTail s = match xs.getLast? with
        | some x => Outcome.ok x s
        | none => Outcome.throw Exc.ListOutOfRangeException s) ∧
      size s = xs.length ∧ elements s = some (Except.ok xs) := by
  obtain ⟨s, h1, h2⟩ := constructFrom_rep xs
  exact ⟨s, h1, h2.peekHead_eq, h2.peekTail_eq, h2.size_eq, h2.elements_eq⟩

/-- C2: `k` calls of `popHead()` in a row on the list constructed from `xs`
return the first `k` elements of `xs` in order, each as a present optional,
followed by absent optionals once `xs` is used up; none of the calls raises;
afterwards the size is `|xs| - k` (zero from `k = |xs|` on) and the list
iterates the suffix of `xs` that was not popped. -/
theorem popHead_repeated {α : Type} [Inhabited α] (xs : List α) (k : Nat) :
    ∃ s s1, constructFrom Heap.empty xs = Outcome.ok () s ∧
      repeatOp popHead k s =
        Outcome.ok ((xs.take k).map some ++ List.replicate (k - xs.length) none) s1 ∧
      size s1 = xs.length - k ∧ elements s1 = some (Except.ok (xs.drop k)) := by
  obtain ⟨s, h1, h2⟩ := constructFrom_rep xs
  obtain ⟨s1, h3, h4⟩ := h2.popHeadN k
  exact ⟨s, s1, h1, h3, by simpa using h4.size_eq, h4.elements_eq⟩

/-- C3: `k` calls of `popTail()` in a row on the list constructed from `xs`
return the last `k` elements of `xs` in reverse order, each as a present
optional, followed by absent optionals once `xs` is used up; none of the calls
raises; afterwards the size is `|xs| - k`, the list iterates the prefix of `xs`
that was not popped, and `peekTail()` is the last element of that prefix (it
raises `ListOutOfRangeException` when the prefix is empty). -/
theorem popTail_repeated {α : Type} [Inhabited α] (xs : List α) (k : Nat) :
    ∃ s s1, constructFrom Heap.empty xs = Outcome.ok () s ∧
      repeatOp popTail k s =
        Outcome.ok ((xs.reverse.take k).map some ++ List.replicate (k - xs.length) none) s1 ∧
      size s1 = xs.length - k ∧
      elements s1 = some (Except.ok (xs.take (xs.length - k))) ∧
      (peekTail s1 = match (xs.take (xs.length - k)).getLast? with
        | some x => Outcome.ok x s1
        | none => Outcome.throw Exc.ListOutOfRangeException s1) := by
  obtain ⟨s, h1, h2⟩ := constructFrom_rep xs
  obtain ⟨s1, h3, h4⟩ := h2.popTailN k
  refine ⟨s, s1, h1, h3, ?_, h4.elements_eq, h4.peekTail_eq⟩
  have := h4.size_eq
  simp at this
  omega

/-- C4: on the list constructed from `xs` (empty or not), `pushHead(x)` gives
size `|xs| + 1`, iteration `x` followed by `xs` and `peekHead() == x`;
`pushTail(x)` gives size `|xs| + 1`, iteration `xs` followed by `x` and
`peekTail() == x`. -/
theorem push_on_constructed {α : Type} [Inhabited α] (xs : List α) (x : α) :
    ∃ s s1 s2, constructFrom Heap.empty xs = Outcome.ok () s ∧
      pushHead s x = Outcome.ok () s1 ∧ size s1 = xs.length + 1 ∧
      elements s1 = some (Except.ok (x :: xs)) ∧ peekHead s1 = Outcome.ok x s1 ∧
      pushTail s x = Outcome.ok () s2 ∧ size s2 = xs.length + 1 ∧
      elements s2 = some (Except.ok (xs ++ [x])) ∧ peekTail s2 = Outcome.ok x s2 := by
  obtain ⟨s, h1, h2⟩ := constructFrom_rep xs
  obtain ⟨s1, h3, h4⟩ := h2.pushHead_ok x
  obtain ⟨s2, h5, h6⟩ := h2.pushTail_ok x
  exact ⟨s, s1, s2, h1, h3, by simpa using h4.size_eq, h4.elements_eq, h4.peekHead_ok,
    h5, by simpa using h6.size_eq, h6.elements_eq, h6.peekTail_ok⟩

/-- C5: on the list constructed from `xs`, `pushTail(x)` followed by `popTail()`
returns `x` and leaves the size `|xs|` and the iterated sequence `xs` of before
the push; so does `pushHead(x)` followed by `popHead()`. -/
theorem push_pop_inverse {α : Type} [Inhabited α] (xs : List α) (x : α) :
    ∃ s s1 s2 s3 s4, constructFrom Heap.empty xs = Outcome.ok () s ∧
      size s = xs.length ∧ elements s = some (Except.ok xs) ∧
      pushTail s x = Outcome.ok () s1 ∧ popTail s1 = Outcome.ok (some x) s2 ∧
      size s2 = size s ∧ elements s2 = elements s ∧
      pushHead s x = Outcome.ok () s3 ∧ popHead s3 = Outcome.ok (some x) s4 ∧
      size s4 = size s ∧ elements s4 = elements s := by
  obtain ⟨s, h1, h2⟩ := constructFrom_rep xs
  obtain ⟨s1, h3, h4⟩ := h2.pushTail_ok x
  obtain ⟨s2, h5, h6⟩ := h4.popTail_ok
  obtain ⟨s3, h7, h8⟩ := h2.pushHead_ok x
  obtain ⟨s4, h9, h10⟩ := h8.popHead_ok
  exact ⟨s, s1, s2, s3, s4, h1, h2.size_eq, h2.elements_eq, h3, h5,
    by rw [h6.size_eq, h2.size_eq], by rw [h6.elements_eq, h2.elements_eq], h7, h9,
    by rw [h10.size_eq, h2.size_eq], by rw [h10.elements_eq, h2.elements_eq]⟩

/-- C6, counterexample: on the freshly constructed empty list `insertBefore(begin(), 7)`
raises `DanglingIteratorException`, while `pushHead(7)` succeeds and makes 7 the head. -/
theorem insertBefore_begin_on_empty_differs :
    (insertBefore (constructed ([] : List Nat)) (cbegin (constructed ([] : List Nat))) 7).raised
        = some Exc.DanglingIteratorException ∧
      (pushHead (constructed ([] : List Nat)) 7).raised = none ∧
      ((pushHead (constructed ([] : List Nat)) 7).andThen peekHead).value? = some 7 := by
  decide

/-- C6 (amended): in every list state whose `begin()` references a live node,
`insertBefore(begin(), x)` has exactly the outcome of `pushHead(x)`: the same
success or failure and the same resulting list. -/
theorem insertBefore_begin_eq_pushHead {α : Type} [Inhabited α] (s : LState α) (x : α)
    (hlive : dangling s.heap (cbegin s) = false) :
    insertBefore s (cbegin s) x = pushHead s x :=
  insertBefore_begin s x hlive

/-- Witness of C6 (amended) on the list `[1, 2]` with `x = 7`. -/
theorem insertBefore_begin_eq_pushHead_witness :
    dangling (constructed [1, 2]).heap (cbegin (constructed [1, 2])) = false ∧
      insertBefore (constructed [1, 2]) (cbegin (constructed [1, 2])) 7 =
        pushHead (constructed [1, 2]) 7 :=
  ⟨by decide, insertBefore_begin_eq_pushHead (constructed [1, 2]) 7 (by decide)⟩

/-- C7, the code at the failing input: on the list `[1]`, `insertBefore(end(), 2)`
and `pushTail(2)` both give size 2 and iteration `1, 2`, but after
`insertBefore(end(), 2)` the member `mTail` still names the node of 1:
`peekTail()` returns 1 where it returns 2 after `pushTail(2)`, and a following
`popTail()` dereferences a null pointer where it returns 2 after `pushTail(2)`. -/
theorem insertBefore_end_leaves_tail_stale :
    ((insertBefore (constructed [1]) (cend (constructed [1])) 2).andThen
        fun s => Outcome.ok (size s, elements s) s).value? = some (2, some (Except.ok [1, 2])) ∧
      ((pushTail (constructed [1]) 2).andThen
        fun s => Outcome.ok (size s, elements s) s).value? = some (2, some (Except.ok [1, 2])) ∧
      ((insertBefore (constructed [1]) (cend (constructed [1])) 2).andThen peekTail).value?
        = some 1 ∧
      ((pushTail (constructed [1]) 2).andThen peekTail).value? = some 2 ∧
      ((insertBefore (constructed [1]) (cend (constructed [1])) 2).andThen popTail).isUb = true ∧
      ((pushTail (constructed [1]) 2).andThen popTail).value? = some (some 2) :=
  ⟨rfl, rfl, by decide, by decide, by decide, by decide⟩

/-- C8: on the list constructed from a non-empty `xs`, for `0 ≤ i ≤ |xs|` and the
cursor `p` reached from `begin()` by `i` increments (which compares equal to
`end()` exactly when `i = |xs|`), `insertBefore(p, x)` returns without raising,
the size becomes `|xs| + 1`, iteration yields the first `i` elements of `xs`,
then `x`, then the rest; `p` is still live and dereferences to what it did
before, and `--p` lands on a node that did not exist before and holds `x`. -/
theorem insertBefore_at_index {α : Type} [Inhabited α] (xs : List α) (i : Nat) (x : α)
    (hne : xs ≠ []) (hi : i ≤ xs.length) :
    ∃ s p s1 q, constructFrom Heap.empty xs = Outcome.ok () s ∧
      advance s.heap i (cbegin s) = Outcome.ok () p ∧
      cursorEq s.heap p (cend s) = decide (i = xs.length) ∧
      insertBefore s p x = Outcome.ok () s1 ∧
      size s1 = xs.length + 1 ∧
      elements s1 = some (Except.ok (xs.take i ++ x :: xs.drop i)) ∧
      dangling s1.heap p = false ∧ dereference s1.heap p = dereference s.heap p ∧
      decrement s1.heap p = Outcome.ok () q ∧ dangling s.heap q = true ∧
      dereference s1.heap q = Outcome.ok x q := by
  obtain ⟨s, h1, h2⟩ := constructFrom_rep xs
  rcases h2 with ⟨h, -⟩ | ⟨p, as, t, hlk⟩
  · exact absurd h hne
  have hl := hlk.shape
  have hlen := hl.chain.length_eq
  have hne1 : as ≠ [] := by
    rintro rfl
    exact hne (List.length_eq_zero.1 hlen.symm)
  obtain ⟨s1, g1, g2, g3, g4, g5, g6, g7, g8⟩ := hlk.insertBefore_at hne1 i (by omega) x
  obtain ⟨v, ht⟩ := hl.term
  refine ⟨s, some (firstOr t (as.drop i)), s1, some s.heap.brk, h1, ?_, ?_, g1, ?_, g3, g4, g5,
    g6, g8, g7⟩
  · rw [show cbegin s = some (firstOr t as) from hl.head]
    exact advance_chain s.heap p as xs t i hl.chain (by omega)
  · rw [show cend s = some t from hl.terminator]
    by_cases e : i = xs.length
    · have hd0 : as.drop i = [] := List.drop_eq_nil_of_le (by omega)
      rw [hd0]
      simp [e, cursorEq]
    · have hlt : i < as.length := by omega
      have hd : as.drop i = as[i] :: as.drop (i + 1) := List.drop_eq_getElem_cons hlt
      have hmem : as[i] ∈ as := List.getElem_mem _
      obtain ⟨n, hn⟩ := hl.chain.live _ hmem
      have hct : as[i] ≠ t := fun e1 => (List.nodup_cons.1 hl.nodup).1 (e1 ▸ hmem)
      rw [hd, firstOr_cons, cursorEq_live hn ht]
      simp [hct, e]
  · rw [g2]
    show s.l.mLen + 1 = _
    rw [hl.len]

/-- Witness of C8 on the list `[1, 2, 3]` with `i = 1` and `x = 7`. -/
theorem insertBefore_at_index_witness :
    ([1, 2, 3] : List Nat) ≠ [] ∧ 1 ≤ ([1, 2, 3] : List Nat).length ∧
      ∃ s p s1 q, constructFrom Heap.empty [1, 2, 3] = Outcome.ok () s ∧
        advance s.heap 1 (cbegin s) = Outcome.ok () p ∧
        cursorEq s.heap p (cend s) = decide (1 = ([1, 2, 3] : List Nat).length) ∧
        insertBefore s p 7 = Outcome.ok () s1 ∧
        size s1 = ([1, 2, 3] : List Nat).length + 1 ∧
        elements s1 = some (Except.ok (([1, 2, 3] : List Nat).take 1 ++ 7 :: [1, 2, 3].drop 1)) ∧
        dangling s1.heap p = false ∧ dereference s1.heap p = dereference s.heap p ∧
        decrement s1.heap p = Outcome.ok () q ∧ dangling s.heap q = true ∧
        dereference s1.heap q = Outcome.ok 7 q :=
  ⟨by decide, by decide, insertBefore_at_index [1, 2, 3] 1 7 (by decide) (by decide)⟩

/-- C9: on the list constructed from `xs`, for `0 ≤ i < |xs|` and the cursor `p`
on the element of index `i`, `insertAfter(p, x)` returns without raising, the
size becomes `|xs| + 1`, iteration yields the first `i + 1` elements of `xs`,
then `x`, then the rest, and `++p` lands on a node that did not exist before
and holds `x`. -/
theorem insertAfter_at_index {α : Type} [Inhabited α] (xs : List α) (i : Nat) (x : α)
    (hi : i < xs.length) :
    ∃ s p s1 q, constructFrom Heap.empty xs = Outcome.ok () s ∧
      advance s.heap i (cbegin s) = Outcome.ok () p ∧
      dereference s.heap p = Outcome.ok xs[i] p ∧
      insertAfter s p x = Outcome.ok () s1 ∧
      size s1 = xs.length + 1 ∧
      elements s1 = some (Except.ok (xs.take (i + 1) ++ x :: xs.drop (i + 1))) ∧
      increment s1.heap p = Outcome.ok () q ∧ dangling s.heap q = true ∧
      dereference s1.heap q = Outcome.ok x q := by
  obtain ⟨s, h1, h2⟩ := constructFrom_rep xs
  rcases h2 with ⟨h, -⟩ | ⟨p, as, t, hlk⟩
  · subst h; simp at hi
  have hl := hlk.shape
  have hlen := hl.chain.length_eq
  have hlt : i < as.length := by omega
  have hda : as.drop i = as[i] :: as.drop (i + 1) := List.drop_eq_getElem_cons hlt
  have hdx : xs.drop i = xs[i] :: xs.drop (i + 1) := List.drop_eq_getElem_cons hi
  have ea : as.take i ++ as[i] :: as.drop (i + 1) = as := by
    rw [← hda]; exact List.take_append_drop _ _
  have ex : xs.take i ++ xs[i] :: xs.drop (i + 1) = xs := by
    rw [← hdx]; exact List.take_append_drop _ _
  have hl1 : (as.take i).length = (xs.take i).length := by simp [List.length_take, hlen]
  have hl0 : Shape s p (as.take i ++ as[i] :: as.drop (i + 1))
      (xs.take i ++ xs[i] :: xs.drop (i + 1)) t := by rw [ea, ex]; exact hl
  obtain ⟨s1, hev, hs1⟩ := hl0.insertAfter_mid hl1 x
  have hc := hl0.reassoc.next_of_last hl1
  have hc1 := hs1.reassoc.next_of_last hl1
  obtain ⟨n, hn, -, hv⟩ := hs1.reassoc.cell_at
    (by simp only [List.length_append, hl1, List.length_singleton])
  rw [firstOr_cons] at hn
  have htk : xs.take (i + 1) = xs.take i ++ [xs[i]] := by
    rw [← List.take_concat_get xs i hi, List.concat_eq_append]
  refine ⟨s, some as[i], s1, some s.heap.brk, h1, ?_, dereference_live hc, hev, ?_, ?_, ?_,
    dangling_fresh hl.wf, ?_⟩
  · rw [show cbegin s = some (firstOr t as) from hl.head,
      advance_chain s.heap p as xs t i hl.chain (by omega), hda, firstOr_cons]
  · have hlen2 := congrArg List.length ex
    simp only [List.length_append, List.length_cons] at hlen2
    simp only [size, hs1.len, List.length_append, List.length_cons]
    omega
  · rw [hs1.iterates, htk, List.append_assoc]
    rfl
  · rw [increment_live hc1, firstOr_cons]
  · rw [dereference_live hn, hv x _ rfl]

/-- Witness of C9 on the list `[1, 2, 3]` with `i = 2` (the last element) and `x = 7`. -/
theorem insertAfter_at_index_witness :
    2 < ([1, 2, 3] : List Nat).length ∧
      ∃ s p s1 q, constructFrom Heap.empty [1, 2, 3] = Outcome.ok () s ∧
        advance s.heap 2 (cbegin s) = Outcome.ok () p ∧
        dereference s.heap p = Outcome.ok 3 p ∧
        insertAfter s p 7 = Outcome.ok () s1 ∧
        size s1 = ([1, 2, 3] : List Nat).length + 1 ∧
        elements s1 = some (Except.ok (([1, 2, 3] : List Nat).take 3 ++ 7 :: [1, 2, 3].drop 3)) ∧
        increment s1.heap p = Outcome.ok () q ∧ dangling s.heap q = true ∧
        dereference s1.heap q = Outcome.ok 7 q :=
  ⟨by decide, insertAfter_at_index [1, 2, 3] 2 7 (by decide)⟩

/-- C10: in every list state, `insertAfter(end(), x)` and `emplaceAfter(end(), x)`
raise `ListOutOfRangeException` and leave the list exactly as it was. -/
theorem insertAfter_end_throws {α : Type} [Inhabited α] (s : LState α) (x : α) :
    insertAfter s (cend s) x = Outcome.throw Exc.ListOutOfRangeException s ∧
      emplaceAfter s (cend s) x = Outcome.throw Exc.ListOutOfRangeException s := by
  simp [insertAfter, emplaceAfter, cursorEq]
/-- C11: for a cursor `p` that references no live node (empty, or naming a
destroyed node), `insertBefore(p, x)` raises `DanglingIteratorException` and
leaves every member of the list and every node as they were, hence `size()` and
the iterated sequence; for a cursor that references a live node it raises
nothing, and when that node is an element or the terminator of a well-formed
list it returns. -/
theorem insertBefore_validates_position {α : Type} [Inhabited α] (s : LState α) (p : Cursor)
    (x : α) (hw : s.heap.WF) (hp : ∀ a, p = some a → a < s.heap.brk) :
    (dangling s.heap p = true →
      ∃ s1, insertBefore s p x = Outcome.throw Exc.DanglingIteratorException s1 ∧
        s1.l = s.l ∧ s1.heap.cells = s.heap.cells ∧ size s1 = size s ∧
        ∀ r, elements s = some r → elements s1 = some r) ∧
    (dangling s.heap p = false →
      (insertBefore s p x).raised = none ∧
      ∀ q as xs t, Linked s q as xs t → (∃ c ∈ t :: as, p = some c) →
        ∃ s1, insertBefore s p x = Outcome.ok () s1) := by
  constructor
  · intro hd
    refine insertBefore_dead_elements s p x hw ?_
    intro a ha
    refine ⟨hp a ha, ?_⟩
    subst ha
    cases hc : s.heap.cells a with
    | none => rfl
    | some n => simp [dangling, Heap.expired, Heap.lockNode, hc] at hd
  · intro hd
    refine ⟨insertBefore_live_raised s p x hd, ?_⟩
    rintro q as xs t hlk ⟨c, hc, rfl⟩
    exact hlk.insertBefore_member c hc x

/-- Witness of C11 on the list `[1, 2]` with a default-constructed cursor and `x = 7`. -/
theorem insertBefore_validates_position_witness :
    (constructed [1, 2]).heap.WF ∧
      (∀ a, (none : Cursor) = some a → a < (constructed [1, 2]).heap.brk) ∧
      ∃ s1, insertBefore (constructed [1, 2]) none 7 =
          Outcome.throw Exc.DanglingIteratorException s1 ∧
        s1.l = (constructed [1, 2]).l ∧ size s1 = 2 ∧
        elements s1 = some (Except.ok [1, 2]) := by
  have hr := (constructFrom_constructed ([1, 2] : List Nat)).2
  have hp : ∀ a, (none : Cursor) = some a → a < (constructed [1, 2]).heap.brk :=
    fun a ha => by simp at ha
  obtain ⟨s1, h1, h2, -, h4, h5⟩ :=
    (insertBefore_validates_position (constructed [1, 2]) none 7 hr.wf hp).1 rfl
  exact ⟨hr.wf, hp, s1, h1, h2, by rw [h4, hr.size_eq]; rfl, h5 _ hr.elements_eq⟩

/-- C12, the code at the failing input: on the list `[1]` emptied by `popHead()`,
`insertBefore(begin(), 7)` returns, while `emplaceBefore(begin(), 7)` inserts 7
(the size becomes 1) and then raises `DanglingIteratorException` from `--position`. -/
theorem emplaceBefore_after_popHead_throws :
    ((popHead (constructed [1])).andThen fun s => insertBefore s (cbegin s) 7).value?
        = some () ∧
      ((popHead (constructed [1])).andThen fun s => emplaceBefore s (cbegin s) 7).raised
        = some Exc.DanglingIteratorException ∧
      (((popHead (constructed [1])).andThen fun s => emplaceBefore s (cbegin s) 7).state?.map
        fun s => (size s, (peekHead s).value?)) = some (1, some 7) := by
  decide

/-- C13: for two distinct lists `a` and `b` constructed from `xs` and `ys`, either
possibly empty, `a.append(std::move(b))` returns without raising; afterwards `a`
has size `|xs| + |ys|` and iterates `xs` followed by `ys`, `a.peekTail()` is the
last element of `xs ++ ys` when there is one, and `b` is empty: its size is `0`
and `b.begin() == b.end()`. -/
theorem appendMove_appends {α : Type} [Inhabited α] (a b : Nat) (hab : a ≠ b) (xs ys : List α) :
    ∃ w1 w2 w3, World.new.construct a xs = Outcome.ok () w1 ∧
      w1.construct b ys = Outcome.ok () w2 ∧
      appendMove w2 a b = Outcome.ok () w3 ∧
      size (w3.get a) = xs.length + ys.length ∧
      elements (w3.get a) = some (Except.ok (xs ++ ys)) ∧
      (peekTail (w3.get a)).value? = (xs ++ ys).getLast? ∧
      size (w3.get b) = 0 ∧ empty (w3.get b) = true ∧
      cursorEq w3.heap (cbegin (w3.get b)) (cend (w3.get b)) = true := by
  obtain ⟨w1, w2, Fa, Fb, h1, h2, h3, h4, h5⟩ := World.construct_two a b hab xs ys
  obtain ⟨w3, g1, g2, g3, g4, g5⟩ := appendMove_sep w2 a b hab xs ys Fa Fb h3 h4 h5
  exact ⟨w1, w2, w3, h1, h2, g1, by simpa using g2.size_eq, g2.elements_eq,
    g2.peek_values.2, g3, g4, g5⟩

/-- Witness of C13 with `a = 0`, `b = 1`, `xs = [1, 2]`, `ys = [3]`. -/
theorem appendMove_appends_witness :
    (0 : Nat) ≠ 1 ∧
      ∃ w1 w2 w3, (World.new : World Nat).construct 0 [1, 2] = Outcome.ok () w1 ∧
        w1.construct 1 [3] = Outcome.ok () w2 ∧ appendMove w2 0 1 = Outcome.ok () w3 ∧
        elements (w3.get 0) = some (Except.ok [1, 2, 3]) ∧
        (peekTail (w3.get 0)).value? = some 3 ∧ size (w3.get 1) = 0 := by
  obtain ⟨w1, w2, w3, h1, h2, h3, -, h5, h6, h7, -⟩ :=
    appendMove_appends 0 1 (by decide) [1, 2] [3]
  exact ⟨by decide, w1, w2, w3, h1, h2, h3, h5, h6, h7⟩

/-- C14: move-appending a list into itself (`a.append(std::move(a))`, which is
also what `a += std::move(a)` runs) raises `MovedSelfAppendException` and leaves
the list, and everything else, exactly as it was. -/
theorem appendMove_self_throws {α : Type} (w : World α) (a : Nat) :
    appendMove w a a = Outcome.throw Exc.MovedSelfAppendException w := by
  simp [appendMove]

/-- C15: for two distinct lists `a` and `b` constructed from `xs` and `ys`,
`a.append(b)` by copy (which is also what `a += b` runs) returns, given at least
`|ys| + 1` rounds, and leaves `a` with size `|xs| + |ys|` iterating `xs` followed
by `ys`, and `b` with its size and sequence; so does `append` over an input range
or iterator pair yielding `ys`. -/
theorem appendCopy_appends {α : Type} [Inhabited α] (a b : Nat) (hab : a ≠ b) (xs ys : List α)
    (k : Nat) :
    ∃ w1 w2 w3 w4, World.new.construct a xs = Outcome.ok () w1 ∧
      w1.construct b ys = Outcome.ok () w2 ∧
      appendCopy (ys.length + 1 + k) w2 a b = some (Outcome.ok () w3) ∧
      size (w3.get a) = xs.length + ys.length ∧
      elements (w3.get a) = some (Except.ok (xs ++ ys)) ∧
      size (w3.get b) = ys.length ∧ elements (w3.get b) = some (Except.ok ys) ∧
      World.run (fun s => appendRange s ys) w2 a = Outcome.ok () w4 ∧
      size (w4.get a) = xs.length + ys.length ∧
      elements (w4.get a) = some (Except.ok (xs ++ ys)) ∧
      size (w4.get b) = ys.length ∧ elements (w4.get b) = some (Except.ok ys) := by
  obtain ⟨w1, w2, Fa, Fb, h1, h2, h3, h4, h5⟩ := World.construct_two a b hab xs ys
  obtain ⟨w3, F1, g1, g2, g3, -⟩ :=
    appendCopy_sep w2 a b hab xs ys Fa Fb h3 h4 h5 (ys.length + 1 + k) (by omega)
  obtain ⟨w4, F2, e1, e2, e3, -⟩ := appendRange_sep w2 a b hab xs ys ys Fa Fb h3 h4 h5
  exact ⟨w1, w2, w3, w4, h1, h2, g1, by simpa using g2.rep.size_eq, g2.rep.elements_eq,
    g3.rep.size_eq, g3.rep.elements_eq, e1, by simpa using e2.rep.size_eq, e2.rep.elements_eq,
    e3.rep.size_eq, e3.rep.elements_eq⟩

/-- Witness of C15 with `a = 0`, `b = 1`, `xs = [1, 2]`, `ys = [3]`. -/
theorem appendCopy_appends_witness :
    (0 : Nat) ≠ 1 ∧
      ∃ w3, ((World.new.construct 0 [1, 2]).andThen fun w => w.construct 1 [3]).state?.bind
          (fun w => appendCopy 2 w 0 1) = some (Outcome.ok () w3) ∧
        elements (w3.get 0) = some (Except.ok [1, 2, 3]) ∧
        elements (w3.get 1) = some (Except.ok [3]) := by
  obtain ⟨w1, w2, w3, w4, h1, h2, h3, -, h5, -, h7, -⟩ :=
    appendCopy_appends 0 1 (by decide) [1, 2] [3] 0
  refine ⟨by decide, w3, ?_, h5, h7⟩
  rw [h1]
  simp only [Outcome.andThen, h2, Outcome.state?, Option.bind]
  exact h3

/-- C16: `a + b` builds a new list of size `|xs| + |ys|` that iterates `xs`
followed by `ys` and leaves both operands with their size and sequence, for two
distinct lists `a` and `b` constructed from `xs` and `ys` and also for `a + a`. -/
theorem operatorPlus_concatenates {α : Type} [Inhabited α] (a b r : Nat) (hab : a ≠ b)
    (hra : r ≠ a) (hrb : r ≠ b) (xs ys : List α) (k : Nat) :
    (∃ w1 w2 w3, World.new.construct a xs = Outcome.ok () w1 ∧
      w1.construct b ys = Outcome.ok () w2 ∧
      operatorPlus (xs.length + ys.length + 1 + k) w2 a b r = some (Outcome.ok () w3) ∧
      size (w3.get r) = xs.length + ys.length ∧
      elements (w3.get r) = some (Except.ok (xs ++ ys)) ∧
      size (w3.get a) = xs.length ∧ elements (w3.get a) = some (Except.ok xs) ∧
      size (w3.get b) = ys.length ∧ elements (w3.get b) = some (Except.ok ys)) ∧
    (∃ w1 w3, World.new.construct a xs = Outcome.ok () w1 ∧
      operatorPlus (xs.length + 1 + k) w1 a a r = some (Outcome.ok () w3) ∧
      size (w3.get r) = xs.length + xs.length ∧
      elements (w3.get r) = some (Except.ok (xs ++ xs)) ∧
      size (w3.get a) = xs.length ∧ elements (w3.get a) = some (Except.ok xs)) := by
  constructor
  · obtain ⟨w1, w2, Fa, Fb, h1, h2, h3, h4, -⟩ := World.construct_two a b hab xs ys
    obtain ⟨w3, F1, g1, g2, g3, g4⟩ := operatorPlus_sep w2 a b r hra hrb xs ys Fa Fb h3 h4
      (xs.length + ys.length + 1 + k) (by omega) (by omega)
    exact ⟨w1, w2, w3, h1, h2, g1, by simpa using g2.rep.size_eq, g2.rep.elements_eq,
      g3.rep.size_eq, g3.rep.elements_eq, g4.rep.size_eq, g4.rep.elements_eq⟩
  · obtain ⟨w1, Fa, h1, h2, -⟩ := (World.new : World α).construct_ok a xs World.new_wf
    obtain ⟨w3, F1, g1, g2, g3, -⟩ := operatorPlus_sep w1 a a r hra hra xs xs Fa Fa h2 h2
      (xs.length + 1 + k) (by omega) (by omega)
    exact ⟨w1, w3, h1, g1, by simpa using g2.rep.size_eq, g2.rep.elements_eq,
      g3.rep.size_eq, g3.rep.elements_eq⟩

/-- Witness of C16 with `a = 0`, `b = 1`, the result as object `2`, `xs = [1, 2]`, `ys = [3]`. -/
theorem operatorPlus_concatenates_witness :
    (0 : Nat) ≠ 1 ∧ (2 : Nat) ≠ 0 ∧ (2 : Nat) ≠ 1 ∧
      ∃ w1 w3, (World.new : World Nat).construct 0 [1, 2] = Outcome.ok () w1 ∧
        operatorPlus 3 w1 0 0 2 = some (Outcome.ok () w3) ∧
        elements (w3.get 2) = some (Except.ok [1, 2, 1, 2]) ∧
        elements (w3.get 0) = some (Except.ok [1, 2]) := by
  obtain ⟨w1, w3, h1, h2, -, h4, -, h6⟩ :=
    (operatorPlus_concatenates 0 1 2 (by decide) (by decide) (by decide) [1, 2] [3] 0).2
  exact ⟨by decide, by decide, by decide, w1, w3, h1, h2, h4, h6⟩

/-- C17: the list constructed from `xs` by the iterator-pair constructor, the
range constructor or the initializer-list constructor has `size() == |xs|` and
iterates exactly `xs` in order. -/
theorem constructors_build_xs {α : Type} [Inhabited α] (xs : List α) :
    ∃ s, constructFrom Heap.empty xs = Outcome.ok () s ∧
      constructFromRange Heap.empty xs = Outcome.ok () s ∧
      constructFromInitializerList Heap.empty xs = Outcome.ok () s ∧
      size s = xs.length ∧ elements s = some (Except.ok xs) := by
  obtain ⟨s, h1, h2⟩ := constructFrom_rep xs
  exact ⟨s, h1, h1, h1, h2.size_eq, h2.elements_eq⟩

/-- C18: the fill constructor `List(n, v)` gives a list of size `n` that iterates
`n` copies of `v`; with `v` omitted it iterates `n` copies of the default value. -/
theorem fillConstruct_replicates {α : Type} [Inhabited α] (n : Nat) (v : α) :
    (∃ s, fillConstruct Heap.empty n v = Outcome.ok () s ∧ size s = n ∧
      elements s = some (Except.ok (List.replicate n v))) ∧
    (∃ s, fillConstructDefault Heap.empty n = Outcome.ok () s ∧ size s = n ∧
      elements s = some (Except.ok (List.replicate n (default : α)))) := by
  constructor
  · obtain ⟨s, h1, h2⟩ := fillConstruct_rep n v
    exact ⟨s, h1, by simpa using h2.size_eq, h2.elements_eq⟩
  · obtain ⟨s, h1, h2⟩ := fillConstruct_rep n (default : α)
    exact ⟨s, h1, by simpa using h2.size_eq, h2.elements_eq⟩

/-- C19: for a list `a` constructed from `xs`, the copy `b` of `a`, made by the
copy constructor or by copy assignment over a list constructed from any `zs`, has
size `|xs|` and iterates `xs`, and no cursor of `b` names a node of `a`.  After
one further mutating call `m` on `b` (`pushHead`, `pushTail`, `popHead`,
`popTail`, `insertBefore` at a cursor of `b`, `clear`, a write through
`peekHead()` or through a cursor of `b`), whether it returns or throws, `a`
still has size `|xs|` and iterates `xs`, and every cursor into `a` taken before
the call is live and yields the element it did, the cursor `end()` included. -/
theorem copy_is_independent {α : Type} [Inhabited α] (a b : Nat) (hab : a ≠ b)
    (xs zs : List α) (k : Nat) (m : Mutation α) :
    (∃ w1 w2 w3, World.new.construct a xs = Outcome.ok () w1 ∧
      copyConstruct (xs.length + 1 + k) w1 b a = some (Outcome.ok () w2) ∧
      size (w2.get b) = xs.length ∧ elements (w2.get b) = some (Except.ok xs) ∧
      size (w2.get a) = xs.length ∧ elements (w2.get a) = some (Except.ok xs) ∧
      (∀ i j c d, i < xs.length → j < xs.length →
        advance w2.heap i (cbegin (w2.get a)) = Outcome.ok () c →
        advance w2.heap j (cbegin (w2.get b)) = Outcome.ok () d → c ≠ d) ∧
      (World.run m.apply w2 b).state? = some w3 ∧
      size (w3.get a) = xs.length ∧ elements (w3.get a) = some (Except.ok xs) ∧
      (∀ i, i < xs.length → ∃ c, advance w2.heap i (cbegin (w2.get a)) = Outcome.ok () c ∧
        advance w3.heap i (cbegin (w3.get a)) = Outcome.ok () c ∧
        dangling w3.heap c = false ∧ dereference w3.heap c = dereference w2.heap c ∧
        (dereference w3.heap c).value? = xs[i]?) ∧
      (xs ≠ [] → cend (w3.get a) = cend (w2.get a) ∧ dangling w3.heap (cend (w2.get a)) = false)) ∧
    (∃ w0 w1 w2 w3, World.new.construct a xs = Outcome.ok () w0 ∧
      w0.construct b zs = Outcome.ok () w1 ∧
      copyAssign (xs.length + 1 + k) w1 b a = some (Outcome.ok () w2) ∧
      size (w2.get b) = xs.length ∧ elements (w2.get b) = some (Except.ok xs) ∧
      size (w2.get a) = xs.length ∧ elements (w2.get a) = some (Except.ok xs) ∧
      (∀ i j c d, i < xs.length → j < xs.length →
        advance w2.heap i (cbegin (w2.get a)) = Outcome.ok () c →
        advance w2.heap j (cbegin (w2.get b)) = Outcome.ok () d → c ≠ d) ∧
      (World.run m.apply w2 b).state? = some w3 ∧
      size (w3.get a) = xs.length ∧ elements (w3.get a) = some (Except.ok xs) ∧
      (∀ i, i < xs.length → ∃ c, advance w2.heap i (cbegin (w2.get a)) = Outcome.ok () c ∧
        advance w3.heap i (cbegin (w3.get a)) = Outcome.ok () c ∧
        dangling w3.heap c = false ∧ dereference w3.heap c = dereference w2.heap c ∧
        (dereference w3.heap c).value? = xs[i]?) ∧
      (xs ≠ [] → cend (w3.get a) = cend (w2.get a) ∧ dangling w3.heap (cend (w2.get a)) = false)) := by
  have key : ∀ (w2 : World α) (Fa F1 : List Nat), RepF (w2.get b) xs F1 → RepF (w2.get a) xs Fa →
      (∀ c ∈ F1, c ∉ Fa) → ∃ w3,
      size (w2.get b) = xs.length ∧ elements (w2.get b) = some (Except.ok xs) ∧
      size (w2.get a) = xs.length ∧ elements (w2.get a) = some (Except.ok xs) ∧
      (∀ i j c d, i < xs.length → j < xs.length →
        advance w2.heap i (cbegin (w2.get a)) = Outcome.ok () c →
        advance w2.heap j (cbegin (w2.get b)) = Outcome.ok () d → c ≠ d) ∧
      (World.run m.apply w2 b).state? = some w3 ∧
      size (w3.get a) = xs.length ∧ elements (w3.get a) = some (Except.ok xs) ∧
      (∀ i, i < xs.length → ∃ c, advance w2.heap i (cbegin (w2.get a)) = Outcome.ok () c ∧
        advance w3.heap i (cbegin (w3.get a)) = Outcome.ok () c ∧
        dangling w3.heap c = false ∧ dereference w3.heap c = dereference w2.heap c ∧
        (dereference w3.heap c).value? = xs[i]?) ∧
      (xs ≠ [] → cend (w3.get a) = cend (w2.get a) ∧
        dangling w3.heap (cend (w2.get a)) = false) := by
    intro w2 Fa F1 hb ha hdis
    have hdis1 : ∀ c ∈ Fa, c ∉ F1 := fun c hc hm => hdis c hm hc
    obtain ⟨w3, e1, e2, e3, e4⟩ := mutation_sep w2 a b hab xs xs Fa F1 ha hb hdis1 m
    refine ⟨w3, hb.rep.size_eq, hb.rep.elements_eq, ha.rep.size_eq, ha.rep.elements_eq, ?_, e1,
      e2.rep.size_eq, e2.rep.elements_eq, ?_, ?_⟩
    · intro i j c d hi hj hc hd
      obtain ⟨a1, n1, m1, q1, -⟩ := RepF.cursor_frame ha (Heap.Frame.refl _ []) (by simp) i hi
      obtain ⟨b1, n2, m2, q2, -⟩ := RepF.cursor_frame hb (Heap.Frame.refl _ []) (by simp) j hj
      have hc1 : advance w2.heap i (w2.lists a).mHead = Outcome.ok () c := hc
      have hd1 : advance w2.heap j (w2.lists b).mHead = Outcome.ok () d := hd
      rw [q1] at hc1
      rw [q2] at hd1
      injection hc1 with _ hc1
      injection hd1 with _ hd1
      subst hc1 hd1
      intro e
      injection e with e
      exact hdis b1 m2 (e ▸ m1)
    · intro i hi
      have := RepF.cursor_post ha e3 hdis1 i hi
      simpa [World.get, cbegin, e4] using this
    · intro hx
      have := e2.end_live hx
      simp only [cend, World.get, e4] at this ⊢
      exact ⟨trivial, this⟩
  constructor
  · obtain ⟨w1, Fa, h1, h2, -⟩ := (World.new : World α).construct_ok a xs World.new_wf
    obtain ⟨w2, F1, g1, g2, g3, g4, -⟩ :=
      copyConstruct_sep w1 b a hab.symm xs Fa h2 (xs.length + 1 + k) (by omega)
    obtain ⟨w3, hk⟩ := key w2 Fa F1 g2 g3 g4
    exact ⟨w1, w2, w3, h1, g1, hk⟩
  · obtain ⟨w0, w1, Fa, Fb, h1, h2, h3, h4, h5⟩ := World.construct_two a b hab xs zs
    obtain ⟨w2, F1, g1, g2, g3, g4⟩ :=
      copyAssign_sep w1 b a hab.symm xs zs Fa Fb h3 h4 h5 (xs.length + 1 + k) (by omega)
    obtain ⟨w3, hk⟩ := key w2 Fa F1 g2 g3 g4
    exact ⟨w0, w1, w2, w3, h1, h2, g1, hk⟩

/-- Witness of C19 with `a = 0`, `b = 1`, `xs = [1, 2]`, the mutation `b.clear()`. -/
theorem copy_is_independent_witness :
    (0 : Nat) ≠ 1 ∧
      ∃ w1 w2 w3, (World.new : World Nat).construct 0 [1, 2] = Outcome.ok () w1 ∧
        copyConstruct 3 w1 1 0 = some (Outcome.ok () w2) ∧
        elements (w2.get 1) = some (Except.ok [1, 2]) ∧
        (World.run (Mutation.apply Mutation.clear) w2 1).state? = some w3 ∧
        elements (w3.get 0) = some (Except.ok [1, 2]) := by
  obtain ⟨w1, w2, w3, h1, h2, -, h4, -, -, -, h8, -, h10, -⟩ :=
    (copy_is_independent 0 1 (by decide) [1, 2] [] 0 Mutation.clear).1
  exact ⟨by decide, w1, w2, w3, h1, h2, h4, h8, h10⟩

/-- C20: for a list `a` constructed from `xs`, move-constructing `b` from `a`, or
move-assigning `a` to a list `b` constructed from any `zs`, allocates no node and
leaves `b` with size `|xs|` iterating `xs`, `peekHead()` and `peekTail()` being
the first and the last element of `xs`, and leaves `a` with `size() == 0`,
`empty()` true and `a.begin() == a.end()`; every cursor taken into an element of
`a` before the move is live afterwards, yields the same element, and is the
cursor reached from `b.begin()` by the same number of increments. -/
theorem move_transfers_nodes {α : Type} [Inhabited α] (a b : Nat) (hab : a ≠ b)
    (xs zs : List α) :
    (∃ w1 w2, World.new.construct a xs = Outcome.ok () w1 ∧
      moveConstruct w1 b a = Outcome.ok () w2 ∧ w2.heap.brk = w1.heap.brk ∧
      size (w2.get b) = xs.length ∧ elements (w2.get b) = some (Except.ok xs) ∧
      (peekHead (w2.get b)).value? = xs.head? ∧ (peekTail (w2.get b)).value? = xs.getLast? ∧
      size (w2.get a) = 0 ∧ empty (w2.get a) = true ∧
      cursorEq w2.heap (cbegin (w2.get a)) (cend (w2.get a)) = true ∧
      ∀ i, i < xs.length → ∃ c, advance w1.heap i (cbegin (w1.get a)) = Outcome.ok () c ∧
        advance w2.heap i (cbegin (w2.get b)) = Outcome.ok () c ∧
        dangling w2.heap c = false ∧ dereference w2.heap c = dereference w1.heap c ∧
        (dereference w2.heap c).value? = xs[i]?) ∧
    (∃ w0 w1 w2, World.new.construct a xs = Outcome.ok () w0 ∧
      w0.construct b zs = Outcome.ok () w1 ∧
      moveAssign w1 b a = Outcome.ok () w2 ∧ w2.heap.brk = w1.heap.brk ∧
      size (w2.get b) = xs.length ∧ elements (w2.get b) = some (Except.ok xs) ∧
      (peekHead (w2.get b)).value? = xs.head? ∧ (peekTail (w2.get b)).value? = xs.getLast? ∧
      size (w2.get a) = 0 ∧ empty (w2.get a) = true ∧
      cursorEq w2.heap (cbegin (w2.get a)) (cend (w2.get a)) = true ∧
      ∀ i, i < xs.length → ∃ c, advance w1.heap i (cbegin (w1.get a)) = Outcome.ok () c ∧
        advance w2.heap i (cbegin (w2.get b)) = Outcome.ok () c ∧
        dangling w2.heap c = false ∧ dereference w2.heap c = dereference w1.heap c ∧
        (dereference w2.heap c).value? = xs[i]?) := by
  constructor
  · obtain ⟨w1, Fa, h1, h2, -⟩ := (World.new : World α).construct_ok a xs World.new_wf
    obtain ⟨w2, g1, g2, g3, g4⟩ := moveConstruct_sep w1 b a hab.symm
    have hf : w1.heap.Frame w2.heap [] := by rw [g2]; exact Heap.Frame.refl _ _
    have hw : w2.heap.WF := by rw [g2]; exact h2.rep.wf
    exact ⟨w1, w2, h1, g1, by rw [g2],
      moved_post w1 w2 a b xs Fa [] h2 hf hw (by simp) (by simp) g3 g4⟩
  · obtain ⟨w0, w1, Fa, Fb, h1, h2, h3, h4, h5⟩ := World.construct_two a b hab xs zs
    obtain ⟨w2, g1, g2, g3, g4, g5⟩ := moveAssign_sep w1 b a hab.symm zs Fb h4
    have hbrk : w2.heap.brk = w1.heap.brk := by
      have e := h4.release_all.1
      have e2 : moveAssign w1 b a = Outcome.ok () ⟨w1.heap.release (w1.lists b).mHead, fun j =>
          if j = b then w1.lists a else if j = a then ⟨none, none, none, 0⟩ else w1.lists j⟩ := by
        simp only [moveAssign, if_neg hab.symm]
      rw [e2] at g1
      injection g1 with _ g1
      subst g1
      exact e
    exact ⟨w0, w1, w2, h1, h2, g1, hbrk,
      moved_post w1 w2 a b xs Fa Fb h3 g2 g3 h5 h4.live_of_mem g4 g5⟩

/-- Witness of C20 with `a = 0`, `b = 1`, `xs = [1, 2]`. -/
theorem move_transfers_nodes_witness :
    (0 : Nat) ≠ 1 ∧
      ∃ w1 w2, (World.new : World Nat).construct 0 [1, 2] = Outcome.ok () w1 ∧
        moveConstruct w1 1 0 = Outcome.ok () w2 ∧
        elements (w2.get 1) = some (Except.ok [1, 2]) ∧
        (peekHead (w2.get 1)).value? = some 1 ∧ size (w2.get 0) = 0 := by
  obtain ⟨w1, w2, h1, h2, -, -, h5, h6, -, h8, -⟩ :=
    (move_transfers_nodes 0 1 (by decide) [1, 2] []).1
  exact ⟨by decide, w1, w2, h1, h2, h5, h6, h8⟩

/-- C21, the code at the failing input: on the list `[1, 2]` the calls
`insertBefore(end(), 3)`, `popTail()` and `popHead()` all return (the pops with
2 and 1), and then `begin() == end()` is true although `size()` is 1: the
cursor `begin()` is live and sits on the node of 3, which `popTail()` made the
terminator after reading `mTail`, left stale by `insertBefore(end(), 3)`. -/
theorem begin_eq_end_on_nonempty_list :
    ((insertBefore (constructed [1, 2]) (cend (constructed [1, 2])) 3).andThen popTail).value?
        = some (some 2) ∧
      (((insertBefore (constructed [1, 2]) (cend (constructed [1, 2])) 3).andThen
        popTail).andThen popHead).value? = some (some 1) ∧
      ((((insertBefore (constructed [1, 2]) (cend (constructed [1, 2])) 3).andThen
        popTail).andThen popHead).state?.map fun s =>
          (size s, cursorEq s.heap (cbegin s) (cend s), dangling s.heap (cbegin s),
            (dereference s.heap (cbegin s)).value?)) = some (1, true, false, some 3) := by
  decide

/-- C22: a default-constructed cursor is dangling; `dangling()` is true exactly
when the cursor names no existing node; on a dangling cursor `*`, `++` and `--`
each raise `DanglingIteratorException` and leave the cursor as it was, hence
dangling; on a cursor that names a live node all three return: the value of
the node, the cursor on its `next`, and the cursor on its `prev`. -/
theorem dangling_cursor_contract {α : Type} (h : Heap α) (c : Cursor) :
    dangling h none = true ∧
    (dangling h c = true ↔ ¬ ∃ a n, c = some a ∧ h.cells a = some n) ∧
    ((dangling h c = true ∧
        dereference h c = Outcome.throw Exc.DanglingIteratorException c ∧
        increment h c = Outcome.throw Exc.DanglingIteratorException c ∧
        decrement h c = Outcome.throw Exc.DanglingIteratorException c) ∨
      (dangling h c = false ∧ ∃ a n, c = some a ∧ h.cells a = some n ∧
        dereference h c = Outcome.ok n.value c ∧
        increment h c = Outcome.ok () n.next ∧
        decrement h c = Outcome.ok () n.prev)) := by
  refine ⟨rfl, ?_, ?_⟩
  · cases c with
    | none => simp [dangling, Heap.expired, Heap.lockNode]
    | some a =>
      cases hc : h.cells a with
      | none => simp [dangling, Heap.expired, Heap.lockNode, hc]
      | some n => simp [dangling, Heap.expired, Heap.lockNode, hc]
  · cases c with
    | none =>
      left
      exact ⟨rfl, rfl, rfl, rfl⟩
    | some a =>
      cases hc : h.cells a with
      | none =>
        left
        simp [dangling, dereference, increment, decrement, validateIterator, Heap.expired,
          Heap.lockNode, hc]
      | some n =>
        right
        exact ⟨dangling_live hc, a, n, rfl, hc, dereference_live hc, increment_live hc,
          decrement_live hc⟩

/-- C23: on the list constructed from `xs` with `|xs| ≥ 2`, take the cursor `c`
reached from `begin()` by `i` increments for every `i ≤ |xs|` (the last one is
`end()`); each is live, and on an element it yields `xs[i]`.  After `popHead()`
the cursor is dangling exactly when `i = 0`, after `popTail()` exactly when
`i = |xs| - 1`; every other one is live and dereferences to what it did. -/
theorem pop_invalidates_one_cursor {α : Type} [Inhabited α] (xs : List α)
    (h2 : 2 ≤ xs.length) :
    ∃ s s1 s2, constructFrom Heap.empty xs = Outcome.ok () s ∧
      popHead s = Outcome.ok xs.head? s1 ∧ popTail s = Outcome.ok xs.getLast? s2 ∧
      ∀ i, i ≤ xs.length → ∃ c, advance s.heap i (cbegin s) = Outcome.ok () c ∧
        cursorEq s.heap c (cend s) = decide (i = xs.length) ∧
        dangling s.heap c = false ∧ (i < xs.length → (dereference s.heap c).value? = xs[i]?) ∧
        dangling s1.heap c = decide (i = 0) ∧
        (i ≠ 0 → dereference s1.heap c = dereference s.heap c) ∧
        dangling s2.heap c = decide (i = xs.length - 1) ∧
        (i ≠ xs.length - 1 → dereference s2.heap c = dereference s.heap c) := by
  obtain ⟨s, h1, hr⟩ := constructFrom_rep xs
  rcases hr with ⟨h0, -⟩ | ⟨p, as, t, hlk⟩
  · subst h0; simp at h2
  · have hlen := hlk.shape.chain.length_eq
    obtain ⟨r1, s1, r2, s2, g1, g2, g3, g4, g5⟩ := hlk.pop_cursors (by omega)
    subst g3 g4
    refine ⟨s, s1, s2, h1, g1, g2, ?_⟩
    intro i hi
    obtain ⟨c, k1, k2, k3, k4, k5, k6, k7⟩ := g5 i (by omega)
    obtain ⟨q1, n, q2, -⟩ := hlk.shape.cursor_at i (by omega)
    obtain ⟨v, hv⟩ := hlk.shape.term
    have hce : cursorEq s.heap c (cend s) = decide (i = xs.length) := by
      rw [k1] at q1
      injection q1 with _ q1
      subst q1
      rw [cend, hlk.shape.terminator, cursorEq_live q2 hv]
      rcases Nat.lt_or_ge i as.length with h | h
      · have hm : firstOr t (as.drop i) ∈ as :=
          List.mem_of_mem_drop (firstOr_mem t _ (by simp; omega))
        have hne : firstOr t (as.drop i) ≠ t := by
          intro e
          rw [e] at hm
          exact (List.nodup_cons.1 hlk.shape.nodup).1 hm
        have hi2 : i ≠ xs.length := by omega
        simp [hne, hi2]
      · have hi2 : i = xs.length := by omega
        rw [List.drop_of_length_le h]
        simp [firstOr, hi2]
    refine ⟨c, k1, hce, k2, ?_, k4, k5, ?_, ?_⟩
    · intro h; exact k3 (by omega)
    · rw [k6, hlen]
    · intro h; exact k7 (by rw [hlen]; exact h)

/-- Witness of C23 on the list `[1, 2, 3]`. -/
theorem pop_invalidates_one_cursor_witness :
    2 ≤ ([1, 2, 3] : List Nat).length ∧
      ∃ s s1 s2, constructFrom Heap.empty [1, 2, 3] = Outcome.ok () s ∧
        popHead s = Outcome.ok (some 1) s1 ∧ popTail s = Outcome.ok (some 3) s2 ∧
        dangling s1.heap (cbegin s) = true ∧ dangling s2.heap (cbegin s) = false := by
  obtain ⟨s, s1, s2, h1, h2, h3, h4⟩ := pop_invalidates_one_cursor ([1, 2, 3] : List Nat)
    (by decide)
  obtain ⟨c, k1, -, -, -, k5, -, k7, -⟩ := h4 0 (by decide)
  have e : c = cbegin s := by
    have : advance s.heap 0 (cbegin s) = Outcome.ok () (cbegin s) := rfl
    rw [this] at k1
    injection k1 with _ k1
    exact k1.symm
  subst e
  exact ⟨by decide, s, s1, s2, h1, h2, h3, by simpa using k5, by simpa using k7⟩

/-- C24: for two distinct lists `a` and `b` constructed from `xs` and `ys`,
`a.swap(b)` changes no node and no allocation mark; afterwards `a` has size
`|ys|` and iterates `ys`, `b` has size `|xs|` and iterates `xs`; every cursor
taken on an element of either list before the swap is live, dereferences to what
it did, and is reached by the same number of increments from `begin()` of the
other list; a second `a.swap(b)` gives back the state before the first.  Also
`a.swap(a)` changes nothing. -/
theorem swap_exchanges_lists {α : Type} [Inhabited α] (a b : Nat) (hab : a ≠ b)
    (xs ys : List α) :
    ∃ w1 w2 w3, World.new.construct a xs = Outcome.ok () w1 ∧
      w1.construct b ys = Outcome.ok () w2 ∧
      swap w2 a b = Outcome.ok () w3 ∧ w3.heap = w2.heap ∧
      size (w3.get a) = ys.length ∧ elements (w3.get a) = some (Except.ok ys) ∧
      size (w3.get b) = xs.length ∧ elements (w3.get b) = some (Except.ok xs) ∧
      cend (w3.get b) = cend (w2.get a) ∧ cend (w3.get a) = cend (w2.get b) ∧
      (∀ i, i < xs.length → ∃ c, advance w2.heap i (cbegin (w2.get a)) = Outcome.ok () c ∧
        advance w3.heap i (cbegin (w3.get b)) = Outcome.ok () c ∧
        dangling w3.heap c = false ∧ dereference w3.heap c = dereference w2.heap c ∧
        (dereference w3.heap c).value? = xs[i]?) ∧
      (∀ i, i < ys.length → ∃ c, advance w2.heap i (cbegin (w2.get b)) = Outcome.ok () c ∧
        advance w3.heap i (cbegin (w3.get a)) = Outcome.ok () c ∧
        dangling w3.heap c = false ∧ dereference w3.heap c = dereference w2.heap c ∧
        (dereference w3.heap c).value? = ys[i]?) ∧
      swap w3 a b = Outcome.ok () w2 ∧ swap w2 a a = Outcome.ok () w2 := by
  obtain ⟨w1, w2, Fa, Fb, h1, h2, h3, h4, -⟩ := World.construct_two a b hab xs ys
  have e3 : swap w2 a b = Outcome.ok () ⟨w2.heap, fun j =>
      if j = a then w2.lists b else if j = b then w2.lists a else w2.lists j⟩ := rfl
  have ea : (⟨w2.heap, fun j =>
      if j = a then w2.lists b else if j = b then w2.lists a else w2.lists j⟩ : World α).get a
      = w2.get b := by simp [World.get]
  have eb : (⟨w2.heap, fun j =>
      if j = a then w2.lists b else if j = b then w2.lists a else w2.lists j⟩ : World α).get b
      = w2.get a := by simp [World.get, hab.symm]
  refine ⟨w1, w2, _, h1, h2, e3, rfl, ?_, ?_, ?_, ?_, ?_, ?_, ?_, ?_, ?_, ?_⟩
  · rw [ea]; exact h4.rep.size_eq
  · rw [ea]; exact h4.rep.elements_eq
  · rw [eb]; exact h3.rep.size_eq
  · rw [eb]; exact h3.rep.elements_eq
  · rw [eb]
  · rw [ea]
  · intro i hi
    rw [eb]
    exact RepF.cursor_post h3 (Heap.Frame.refl _ []) (by simp) i hi
  · intro i hi
    rw [ea]
    exact RepF.cursor_post h4 (Heap.Frame.refl _ []) (by simp) i hi
  · have := swap_swap w2 a b
    rw [e3] at this
    exact this
  · have e : (fun j => if j = a then w2.lists a else if j = a then w2.lists a else w2.lists j)
        = w2.lists := by
      funext j
      by_cases h : j = a
      · simp [h]
      · simp [h]
    simp only [swap, e]

/-- Witness of C24 with `a = 0`, `b = 1`, `xs = [1, 2]`, `ys = [3]`. -/
theorem swap_exchanges_lists_witness :
    (0 : Nat) ≠ 1 ∧
      ∃ w1 w2 w3, (World.new : World Nat).construct 0 [1, 2] = Outcome.ok () w1 ∧
        w1.construct 1 [3] = Outcome.ok () w2 ∧ swap w2 0 1 = Outcome.ok () w3 ∧
        elements (w3.get 0) = some (Except.ok [3]) ∧
        elements (w3.get 1) = some (Except.ok [1, 2]) ∧ swap w3 0 1 = Outcome.ok () w2 := by
  obtain ⟨w1, w2, w3, h1, h2, h3, -, -, h6, -, h8, -, -, -, -, h13, -⟩ :=
    swap_exchanges_lists 0 1 (by decide) [1, 2] [3]
  exact ⟨by decide, w1, w2, w3, h1, h2, h3, h6, h8, h13⟩

/-- C25: on the list constructed from `xs`, `clear()` returns without raising;
afterwards `size()` is 0, `empty()` is true, `begin() == end()`, iteration yields
nothing, and every cursor taken before the call, on any element or on `end()`,
is dangling; a second `clear()`, on the list that is now empty, returns and
leaves it empty. -/
theorem clear_empties_list {α : Type} [Inhabited α] (xs : List α) :
    ∃ s s1 s2, constructFrom Heap.empty xs = Outcome.ok () s ∧
      clear s = Outcome.ok () s1 ∧ size s1 = 0 ∧ empty s1 = true ∧
      cursorEq s1.heap (cbegin s1) (cend s1) = true ∧ elements s1 = some (Except.ok []) ∧
      (∀ i, i ≤ xs.length → ∃ c, advance s.heap i (cbegin s) = Outcome.ok () c ∧
        dangling s1.heap c = true ∧ (xs ≠ [] → dangling s.heap c = false)) ∧
      dangling s1.heap (cend s) = true ∧
      clear s1 = Outcome.ok () s2 ∧ size s2 = 0 ∧ empty s2 = true ∧
      cursorEq s2.heap (cbegin s2) (cend s2) = true ∧ elements s2 = some (Except.ok []) := by
  obtain ⟨s, h1, hr⟩ := constructFrom_rep xs
  obtain ⟨F, hf⟩ := hr.repF
  obtain ⟨s1, g1, g2, g3, g4⟩ := hf.clear_ok
  obtain ⟨s2, k1, k2, -⟩ := g2.clear_ok
  have hdead : ∀ c : Cursor, (c = none ∨ ∃ a ∈ F, c = some a) → dangling s1.heap c = true := by
    rintro c (rfl | ⟨a, ha, rfl⟩)
    · rfl
    · exact dangling_dead (g4 a ha)
  have hsz : ∀ s3 : LState α, RepF s3 [] [] → size s3 = 0 ∧ empty s3 = true := by
    intro s3 h3
    have := h3.rep.size_eq
    simp [size] at this
    simp [size, empty, this]
  refine ⟨s, s1, s2, h1, g1, (hsz s1 g2).1, (hsz s1 g2).2, g2.begin_eq_end_of_nil,
    g2.rep.elements_eq, ?_, ?_, k1, (hsz s2 k2).1, (hsz s2 k2).2, k2.begin_eq_end_of_nil,
    k2.rep.elements_eq⟩
  · intro i hi
    obtain ⟨c, q1, q2, q3⟩ := hf.advance_le i hi
    exact ⟨c, q1, hdead c q2, q3⟩
  · rcases hf with ⟨-, -, -, -, hd, rfl⟩ | ⟨p, as, t, hl, rfl⟩
    · cases ht : s.l.mTerminator with
      | none => rw [cend, ht]; rfl
      | some a =>
        obtain ⟨d1, d2⟩ := hd a ht
        rw [cend, ht]
        exact dangling_dead (by rw [g3.2 a d1 (by simp)]; exact d2)
    · exact hdead _ (Or.inr ⟨t, by simp, hl.shape.terminator⟩)

/-- C26: `c1 == c2` is true exactly when both cursors name the same live node
or both are dangling; a live cursor never equals a dangling one, whichever side
it stands on; and `c1 != c2` is the negation of `c1 == c2`. -/
theorem cursorEq_is_node_identity {α : Type} (h : Heap α) (c1 c2 : Cursor) :
    (cursorEq h c1 c2 = true ↔
      (∃ a n, c1 = some a ∧ c2 = some a ∧ h.cells a = some n) ∨
        (dangling h c1 = true ∧ dangling h c2 = true)) ∧
    (dangling h c1 ≠ dangling h c2 → cursorEq h c1 c2 = false) ∧
    cursorNe h c1 c2 = !cursorEq h c1 c2 := by
  have key : ∀ c : Cursor, (h.lock c = none ∧ dangling h c = true) ∨
      ∃ a n, c = some a ∧ h.cells a = some n ∧ h.lock c = some a ∧ dangling h c = false := by
    intro c
    cases c with
    | none => exact Or.inl ⟨rfl, rfl⟩
    | some a =>
      cases hc : h.cells a with
      | none => exact Or.inl ⟨by simp [Heap.lock, Heap.lockNode, hc],
          by simp [dangling, Heap.expired, Heap.lockNode, hc]⟩
      | some n => exact Or.inr ⟨a, n, rfl, hc, by simp [Heap.lock, Heap.lockNode, hc],
          dangling_live hc⟩
  refine ⟨?_, ?_, rfl⟩
  · constructor
    · intro e
      have e1 : h.lock c1 = h.lock c2 := by simpa [cursorEq] using e
      rcases key c1 with ⟨h1, d1⟩ | ⟨a, n, rfl, hn, h1, d1⟩
      · rcases key c2 with ⟨h2, d2⟩ | ⟨b, m, rfl, hm, h2, d2⟩
        · exact Or.inr ⟨d1, d2⟩
        · rw [h1, h2] at e1
          cases e1
      · rcases key c2 with ⟨h2, d2⟩ | ⟨b, m, rfl, hm, h2, d2⟩
        · rw [h1, h2] at e1
          cases e1
        · rw [h1, h2] at e1
          injection e1 with e1
          subst e1
          exact Or.inl ⟨a, n, rfl, rfl, hn⟩
    · rintro (⟨a, n, rfl, rfl, -⟩ | ⟨d1, d2⟩)
      · simp [cursorEq]
      · rcases key c1 with ⟨h1, -⟩ | ⟨a, n, -, -, -, d1'⟩
        · rcases key c2 with ⟨h2, -⟩ | ⟨b, m, -, -, -, d2'⟩
          · simp [cursorEq, h1, h2]
          · rw [d2] at d2'
            cases d2'
        · rw [d1] at d1'
          cases d1'
  · intro hne
    rcases key c1 with ⟨h1, d1⟩ | ⟨a, n, rfl, hn, h1, d1⟩ <;>
      rcases key c2 with ⟨h2, d2⟩ | ⟨b, m, rfl, hm, h2, d2⟩
    · exact absurd (d1.trans d2.symm) hne
    · simp [cursorEq, h1, h2]
    · simp [cursorEq, h1, h2]
    · exact absurd (d1.trans d2.symm) hne

/-- Witness of C26 on the list `[1, 2]`: `begin()` is live, a default-constructed
cursor is dangling, and the two compare unequal. -/
theorem cursorEq_is_node_identity_witness :
    dangling (constructed [1, 2]).heap (cbegin (constructed [1, 2])) ≠
        dangling (constructed [1, 2]).heap none ∧
      cursorEq (constructed [1, 2]).heap (cbegin (constructed [1, 2])) none = false :=
  ⟨by decide, (cursorEq_is_node_identity (constructed [1, 2]).heap
    (cbegin (constructed [1, 2])) none).2.1 (by decide)⟩

/-- C27, the code at the failing input: on the list `[1]`, `insertAfter(begin(), 2)`
returns and leaves size 2, and the `popTail()` that follows reaches
`mTail.lock()->next` in `addTerminator` with `mTail.lock()` null; so does
`popTail()` after `emplaceAfter(begin(), 2)`. -/
theorem popTail_after_insertAfter_is_null_dereference :
    (insertAfter (constructed [1]) (cbegin (constructed [1])) 2).value? = some () ∧
      ((insertAfter (constructed [1]) (cbegin (constructed [1])) 2).state?.map size) = some 2 ∧
      ((insertAfter (constructed [1]) (cbegin (constructed [1])) 2).andThen popTail).isUb
        = true ∧
      (emplaceAfter (constructed [1]) (cbegin (constructed [1])) 2).raised = none ∧
      ((emplaceAfter (constructed [1]) (cbegin (constructed [1])) 2).andThen popTail).isUb
        = true := by
  decide

/-- C28, the code at the failing input: on the list `[1, 2]`, `insertBefore(end(), 3)`
returns, the size is 3 and iteration yields `1, 2, 3`, but `peekTail()` returns 2
while the element at `--end()` is 3: `mTail` is not the last value node. -/
theorem tail_is_not_last_after_insertBefore_end :
    (insertBefore (constructed [1, 2]) (cend (constructed [1, 2])) 3).value? = some () ∧
      ((insertBefore (constructed [1, 2]) (cend (constructed [1, 2])) 3).state?.map fun s =>
        (size s, elements s)) = some (3, some (Except.ok [1, 2, 3])) ∧
      ((insertBefore (constructed [1, 2]) (cend (constructed [1, 2])) 3).state?.map fun s =>
        ((peekTail s).value?,
          ((decrement s.heap (cend s)).andThen (dereference s.heap)).value?))
        = some (some 2, some 3) :=
  ⟨by decide, rfl, by decide⟩

/-- C29, the code at the failing input: on the list `[1]`, `popHead()` returns 1
and leaves `size() == 0` with `begin()` and `end()` live on the terminator node,
and the cursor taken on `end()` before the call live as well; `popTail()` on the
same list leaves all three dangling. -/
theorem popHead_last_keeps_sentinel :
    (popHead (constructed [1])).value? = some (some 1) ∧
      ((popHead (constructed [1])).state?.map fun s =>
        (size s, dangling s.heap (cbegin s), dangling s.heap (cend s),
          dangling s.heap (cend (constructed [1])))) = some (0, false, false, false) ∧
      ((popTail (constructed [1])).state?.map fun s =>
        (size s, dangling s.heap (cbegin s), dangling s.heap (cend s),
          dangling s.heap (cend (constructed [1])))) = some (0, true, true, true) := by
  decide

/-- C30, the code on every non-empty list: for the list `a` constructed from
`x :: xs`, the loop of `a.append(a)` by copy (which `a += a` runs too) is still
running after any number of rounds, so the call never returns; on the list
constructed from no element it returns at once and changes nothing. -/
theorem appendCopy_self_never_finishes {α : Type} [Inhabited α] (a : Nat) (x : α)
    (xs : List α) (fuel : Nat) :
    (∃ w1, World.new.construct a (x :: xs) = Outcome.ok () w1 ∧
      appendCopy fuel w1 a a = none) ∧
    (∃ w0 w3, (World.new : World α).construct a [] = Outcome.ok () w0 ∧
      appendCopy (fuel + 1) w0 a a = some (Outcome.ok () w3) ∧
      size (w3.get a) = 0 ∧ elements (w3.get a) = some (Except.ok [])) := by
  constructor
  · obtain ⟨w1, Fa, h1, h2, -⟩ := (World.new : World α).construct_ok a (x :: xs) World.new_wf
    exact ⟨w1, h1, appendCopy_self_none w1 a (x :: xs) Fa h2 (by simp) fuel⟩
  · obtain ⟨w0, F, h1, h2, -⟩ := (World.new : World α).construct_ok a [] World.new_wf
    have hbe := h2.begin_eq_end_of_nil
    refine ⟨w0, w0.put a (w0.get a), h1, ?_, ?_, ?_⟩
    · simp only [appendCopy, forEachPushTail]
      have e : cursorEq (w0.get a).heap (cbegin (w0.get a)) (cend (w0.get a)) = true := hbe
      simp [e]
    · rw [World.get_put_same]
      exact h2.rep.size_eq
    · rw [World.get_put_same]
      exact h2.rep.elements_eq

end mylist
